import Mathlib

/-!
# Verification of the `datastructurs` B-tree core

This file gives a shallow embedding of the B-tree implementation found in
`src/btree/mod.rs`, `src/btree/impls.rs` and `src/btree/map/mod.rs` of the
`datastructurs` repository, and proves (or refutes) the testable properties of
its specification.

Modelling conventions:

* A tree node (`Node<T>` in the source) becomes the nested inductive `BNode`
  holding its sorted key list and its child list.  The `parent` back-pointer of
  the source is dropped: it is written by the algorithms but never read by any
  of them (the source uses it only for debug printing), so it has no semantic
  content.
* The hand-rolled growable array `vec::Vec` is, per the specification, an
  external collaborator with ordinary dynamic-array semantics; its operations
  are modelled by the corresponding `List` operations (`insert` at an index,
  `remove` at an index, `split_off`, `pop`, `extend`, ...).
* `slice::binary_search` belongs to the Rust standard library, not to the
  repository.  Its contract returns `Ok` at *some* matching index (the
  specification explicitly flags the choice among equal keys as unspecified)
  or `Err` at the insertion point.  We model it by the leftmost index at which
  the probe is not `.lt`, which satisfies exactly this contract.
* The source's recursion runs over a heap graph and terminates because every
  call descends one tree level.  The model makes this explicit with a fuel
  parameter; public entry points pass `height root + 1`, which is enough fuel
  for every call chain, so the fuel never runs out on the states the source
  can reach.
* Places where the source would panic (`unwrap` on `None`, index out of
  bounds, integer underflow) are marked in comments and return the input
  unchanged; all of them are unreachable from the public API.
* Comparison is parameterised by `cmp : α → α → Ordering`, matching `T: Ord`.
  The set claims instantiate `cmp` with `compare` of a linear order; the map
  instantiates it with comparison of `MapPair` by key only, exactly as the
  source's `impl Ord for MapPair` does.
-/

namespace DS

/-! ## Comparator preliminaries -/

variable {α : Type}

/-- Result of `slice::binary_search`: `Ok(idx)` or `Err(idx)`. -/
inductive SearchResult where
  | found (idx : Nat)
  | notFound (idx : Nat)
deriving DecidableEq, Repr

/-- The index carried by a `SearchResult`; `Ok(idx) | Err(idx) => idx`. -/
def SearchResult.index : SearchResult → Nat
  | .found i => i
  | .notFound i => i

/-- Model of `slice::binary_search_by f`: the scan stops at the first element
whose probe is not `.lt`, reporting `found` on `.eq` and `notFound` on `.gt`
or at the end of the list.  On a sorted list this realises the standard-library
contract (`Ok` at a matching index, `Err` at the insertion point). -/
def bsearchGo (f : α → Ordering) : List α → Nat → SearchResult
  | [], i => .notFound i
  | x :: xs, i =>
    match f x with
    | .lt => bsearchGo f xs (i + 1)
    | .eq => .found i
    | .gt => .notFound i

/-- `keys.binary_search_by(f)`. -/
def binarySearchBy (f : α → Ordering) (l : List α) : SearchResult :=
  bsearchGo f l 0

/-- Non-decreasing with respect to a comparator (`cmp a b ≠ .gt` pairwise). -/
def SortedCmp (cmp : α → α → Ordering) (l : List α) : Prop :=
  l.Pairwise (fun a b => cmp a b ≠ .gt)

/-! ## Nodes -/

/-- `Node<T>` of `src/btree/mod.rs` (without the semantically inert `parent`
back-pointer): a key list and a child list; `children = []` means leaf. -/
inductive BNode (α : Type) : Type where
  | mk (keys : List α) (children : List (BNode α))

/-- The `keys` field. -/
def BNode.keys : BNode α → List α
  | .mk ks _ => ks

/-- The `children` field. -/
def BNode.children : BNode α → List (BNode α)
  | .mk _ cs => cs

@[simp] theorem BNode.keys_mk (ks : List α) (cs : List (BNode α)) :
    (BNode.mk ks cs).keys = ks := rfl

@[simp] theorem BNode.children_mk (ks : List α) (cs : List (BNode α)) :
    (BNode.mk ks cs).children = cs := rfl

/-- `Node::is_leaf`: `children.is_empty()`. -/
def BNode.isLeaf (n : BNode α) : Bool :=
  n.children.isEmpty

mutual
/-- In-order flattening of a node: `child 0, key 0, child 1, key 1, ...`.
This is the abstraction function of the verification; the source itself
produces this sequence lazily through `BTreeIter`. -/
def inorder : BNode α → List α
  | .mk ks cs => inorderZip cs ks
/-- Interleaves a child list with a key list, children first. -/
def inorderZip : List (BNode α) → List α → List α
  | [], ks => ks
  | c :: cs, [] => inorder c ++ inorderZip cs []
  | c :: cs, k :: ks => inorder c ++ k :: inorderZip cs ks
end

mutual
/-- Height of a node: 1 for a leaf, one more than the tallest child otherwise. -/
def nodeHeight : BNode α → Nat
  | .mk _ cs => 1 + nodeHeightList cs
/-- Largest height among a list of nodes (0 for the empty list). -/
def nodeHeightList : List (BNode α) → Nat
  | [] => 0
  | c :: cs => max (nodeHeight c) (nodeHeightList cs)
end

mutual
/-- Shape invariant: every node has either no children (leaf) or exactly
`keys.len() + 1` children. -/
def arityOk : BNode α → Bool
  | .mk ks cs => (cs.isEmpty || decide (cs.length = ks.length + 1)) && arityOkList cs
/-- `arityOk` for every node of a list. -/
def arityOkList : List (BNode α) → Bool
  | [] => true
  | c :: cs => arityOk c && arityOkList cs
end

mutual
/-- Every strict descendant of the node has a non-empty key list.  (The node
itself is exempt: the root of an empty tree has no keys.) -/
def subNonempty : BNode α → Bool
  | .mk _ cs => subNonemptyList cs
/-- `keys ≠ []` and `subNonempty` for every node of a list. -/
def subNonemptyList : List (BNode α) → Bool
  | [] => true
  | c :: cs => !c.keys.isEmpty && subNonempty c && subNonemptyList cs
end

mutual
/-- All leaves of the node sit at depth `d` (the node itself at depth 1,
matching the counting of `BTree::depth`). -/
def leavesAt : BNode α → Nat → Bool
  | .mk _ [], d => decide (d = 1)
  | .mk _ (c :: cs), d =>
    match d with
    | 0 => false
    | d + 1 => leavesAtList (c :: cs) d
/-- `leavesAt · d` for every node of a list. -/
def leavesAtList : List (BNode α) → Nat → Bool
  | [], _ => true
  | c :: cs, d => leavesAt c d && leavesAtList cs d
end

/-! ## Tree structure and properties -/

/-- `BTreeProperties` of `src/btree/mod.rs`. -/
structure BTreeProperties where
  degree : Nat
  maxKeys : Nat
  minKeys : Nat
  midKeyIndex : Nat
  len : Nat
deriving DecidableEq, Repr

/-- `BTreeProperties::new` (lines 53-62).  The source additionally asserts
`degree >= 3`; every claim works with `degree = 2 * branch_factor ≥ 4`. -/
def BTreeProperties.new (degree : Nat) : BTreeProperties :=
  { degree := degree
    maxKeys := degree - 1
    minKeys := degree / 2
    midKeyIndex := (degree - 1) / 2
    len := 0 }

/-- `BTree<T>`: a root node plus the properties. -/
structure BTree (α : Type) where
  root : BNode α
  props : BTreeProperties

/-- `BTreeProperties::is_full`: `keys.len() >= max_keys`. -/
def isFull (P : BTreeProperties) (n : BNode α) : Bool :=
  P.maxKeys ≤ n.keys.length

/-- `BTreeProperties::find_insertion_index`: `Ok(idx) | Err(idx) => idx`. -/
def findInsertionIndex (cmp : α → α → Ordering) (keys : List α) (key : α) : Nat :=
  (binarySearchBy (fun k => cmp k key) keys).index

/-- `BTreeProperties::split_child` (lines 64-83).  The child's keys are split
at `mid_key_index + 1`, the key at `mid_key_index` is popped as the promoted
separator, the children are split at the same point when the child is
internal, and separator and new right sibling are inserted into the parent at
`child_index` resp. `child_index + 1`. -/
def splitChild (P : BTreeProperties) (parent : BNode α) (childIndex : Nat) : BNode α :=
  match parent.children.get? childIndex with
  | none => parent -- source: index out of bounds panics; unreachable in all callers
  | some child =>
    if child.keys.length < P.midKeyIndex + 1 then
      parent -- source: `split_off`/`pop().unwrap()` panics; unreachable, the child is full
    else
      match (child.keys.take (P.midKeyIndex + 1)).getLast? with
      | none => parent -- unreachable (length ≥ mid_key_index + 1 ≥ 1)
      | some middleKey =>
        let rightKeys := child.keys.drop (P.midKeyIndex + 1)
        let leftKeys := (child.keys.take (P.midKeyIndex + 1)).dropLast
        let leftChildren :=
          if child.isLeaf then child.children else child.children.take (P.midKeyIndex + 1)
        let rightChildren :=
          if child.isLeaf then [] else child.children.drop (P.midKeyIndex + 1)
        BNode.mk (parent.keys.insertIdx childIndex middleKey)
          ((parent.children.set childIndex (BNode.mk leftKeys leftChildren)).insertIdx
            (childIndex + 1) (BNode.mk rightKeys rightChildren))

/-- The descent-index recomputation of `insert_non_full` after a split
(lines 105-110 of `src/btree/mod.rs`): descend right exactly when
`index < node.keys.len() && node.keys[index] < key`. -/
def splitDescentIndex (cmp : α → α → Ordering) (keys : List α) (index : Nat) (key : α) : Nat :=
  match keys.get? index with
  | some sep => if cmp sep key = .lt then index + 1 else index
  | none => index

/-- `BTreeProperties::insert_non_full` (lines 97-115), with explicit fuel for
the descent (the source recursion is bounded by the tree height). -/
def insertNonFull (cmp : α → α → Ordering) (P : BTreeProperties) :
    Nat → BNode α → α → BNode α
  | 0, node, _ => node -- fuel exhausted; unreachable with fuel ≥ height
  | fuel + 1, node, key =>
    let index := findInsertionIndex cmp node.keys key
    if node.isLeaf then
      BNode.mk (node.keys.insertIdx index key) node.children
    else
      match node.children.get? index with
      | none => node -- source: `node.children[index]` panics; unreachable under the arity invariant
      | some child =>
        if isFull P child then
          let nodeS := splitChild P node index
          let finalIndex := splitDescentIndex cmp nodeS.keys index key
          match nodeS.children.get? finalIndex with
          | none => nodeS -- unreachable
          | some childF =>
            BNode.mk nodeS.keys
              (nodeS.children.set finalIndex (insertNonFull cmp P fuel childF key))
        else
          BNode.mk node.keys (node.children.set index (insertNonFull cmp P fuel child key))

/-- `BTree::new` (lines 149-155): `degree = 2 * branch_factor`, empty root. -/
def BTree.new (branchFactor : Nat) : BTree α :=
  { root := BNode.mk [] []
    props := BTreeProperties.new (2 * branchFactor) }

/-- `BTree::clear` (lines 157-161): `*self = Self::new(self.props.degree * 2)`,
faithfully including the doubling of the argument. -/
def BTree.clear (t : BTree α) : BTree α :=
  BTree.new (t.props.degree * 2)

/-- `BTree::insert` (lines 163-176): split a full root first (new empty root
whose sole child is the old root, then `split_child` at 0), insert into the
non-full root, and increment `props.len`. -/
def BTree.insert (cmp : α → α → Ordering) (t : BTree α) (key : α) : BTree α :=
  let t1 : BTree α :=
    if isFull t.props t.root then
      { t with root := splitChild t.props (BNode.mk [] [t.root]) 0 }
    else t
  { root := insertNonFull cmp t1.props (nodeHeight t1.root + 1) t1.root key
    props := { t1.props with len := t1.props.len + 1 } }

/-- The search loop of `BTree::contains` (lines 179-192). -/
def containsNode (cmp : α → α → Ordering) : Nat → BNode α → α → Bool
  | 0, _, _ => false -- fuel exhausted; unreachable
  | fuel + 1, node, key =>
    match binarySearchBy (fun k => cmp k key) node.keys with
    | .found _ => true
    | .notFound idx =>
      if node.isLeaf then false
      else
        match node.children.get? idx with
        | none => false -- source: `children[idx]` panics; unreachable under the arity invariant
        | some c => containsNode cmp fuel c key

/-- `BTree::contains`. -/
def BTree.contains (cmp : α → α → Ordering) (t : BTree α) (key : α) : Bool :=
  containsNode cmp (nodeHeight t.root + 1) t.root key

/-- `BTree::is_empty`: the root has no keys. -/
def BTree.isEmpty (t : BTree α) : Bool :=
  t.root.keys.isEmpty

/-- `BTree::len`: the stored `props.len`. -/
def BTree.len (t : BTree α) : Nat :=
  t.props.len

/-- The leftmost-path walk shared by `BTree::height` (lines 200-212) and
`BTree::depth` (lines 257-269): count nodes while following `children[0]`. -/
def leftPathLen : Nat → BNode α → Nat
  | 0, _ => 0 -- fuel exhausted; unreachable
  | fuel + 1, node =>
    if node.isLeaf then 1
    else
      match node.children.get? 0 with
      | none => 1 -- unreachable: a non-leaf has a child 0
      | some c => 1 + leftPathLen fuel c

/-- `BTree::height`: 0 when empty, else the leftmost-path length. -/
def BTree.height (t : BTree α) : Nat :=
  if t.isEmpty then 0 else leftPathLen (nodeHeight t.root + 1) t.root

/-- `BTree::depth`: the leftmost-path length (no emptiness check). -/
def BTree.depth (t : BTree α) : Nat :=
  leftPathLen (nodeHeight t.root + 1) t.root

/-- The walk of `BTree::first` (lines 220-232): leftmost leaf, first key. -/
def firstWalk : Nat → BNode α → Option α
  | 0, _ => none -- fuel exhausted; unreachable
  | fuel + 1, node =>
    if node.isLeaf then node.keys.head? -- source: `first().unwrap()`
    else
      match node.children.get? 0 with
      | none => none -- source: `children.first().unwrap()` panics; unreachable
      | some c => firstWalk fuel c

/-- The walk of `BTree::last` (lines 234-247): rightmost leaf, last key. -/
def lastWalk : Nat → BNode α → Option α
  | 0, _ => none -- fuel exhausted; unreachable
  | fuel + 1, node =>
    if node.isLeaf then node.keys.getLast? -- source: `last().unwrap()`
    else
      match node.children.getLast? with
      | none => none -- unreachable
      | some c => lastWalk fuel c

/-- `BTree::first`. -/
def BTree.first (t : BTree α) : Option α :=
  if t.isEmpty then none else firstWalk (nodeHeight t.root + 1) t.root

/-- `BTree::last`. -/
def BTree.last (t : BTree α) : Option α :=
  if t.isEmpty then none else lastWalk (nodeHeight t.root + 1) t.root

/-! ## Removal (lines 301-533 of `src/btree/mod.rs`) -/

/-- `BTree::merge_children` (lines 488-515): pull the separator key and the
right child pointer out of the parent, then append separator, right keys and
right children onto the left child. -/
def mergeChildren (parent : BNode α) (separatorIdx : Nat) : BNode α :=
  match parent.keys.get? separatorIdx, parent.children.get? separatorIdx,
      parent.children.get? (separatorIdx + 1) with
  | some separatorKey, some leftChild, some rightChild =>
    BNode.mk (parent.keys.eraseIdx separatorIdx)
      ((parent.children.eraseIdx (separatorIdx + 1)).set separatorIdx
        (BNode.mk (leftChild.keys ++ separatorKey :: rightChild.keys)
          (leftChild.children ++ rightChild.children)))
  | _, _, _ => parent -- source: `remove(..).unwrap()`/indexing panics; unreachable

/-- `BTree::borrow_from_left_sibling` (lines 432-458): rotate the left
sibling's last key through the parent separator into the child's front,
moving the sibling's last child along when the sibling is internal. -/
def borrowFromLeftSibling (parent : BNode α) (childIdx : Nat) : BNode α :=
  match parent.children.get? childIdx, parent.children.get? (childIdx - 1),
      parent.keys.get? (childIdx - 1) with
  | some child, some leftSibling, some separatorKey =>
    match leftSibling.keys.getLast? with
    | none => parent -- source: `pop().unwrap()` panics; unreachable (the sibling has spare keys)
    | some borrowedKey =>
      if leftSibling.isLeaf then
        BNode.mk (parent.keys.set (childIdx - 1) borrowedKey)
          ((parent.children.set (childIdx - 1)
              (BNode.mk leftSibling.keys.dropLast leftSibling.children)).set childIdx
            (BNode.mk (separatorKey :: child.keys) child.children))
      else
        match leftSibling.children.getLast? with
        | none => parent -- source: `pop().unwrap()` panics; unreachable (internal node has children)
        | some borrowedChild =>
          BNode.mk (parent.keys.set (childIdx - 1) borrowedKey)
            ((parent.children.set (childIdx - 1)
                (BNode.mk leftSibling.keys.dropLast leftSibling.children.dropLast)).set childIdx
              (BNode.mk (separatorKey :: child.keys) (borrowedChild :: child.children)))
  | _, _, _ => parent -- unreachable

/-- `BTree::borrow_from_right_sibling` (lines 460-486): rotate the right
sibling's first key through the parent separator onto the child's back,
moving the sibling's first child along when the sibling is internal. -/
def borrowFromRightSibling (parent : BNode α) (childIdx : Nat) : BNode α :=
  match parent.children.get? childIdx, parent.children.get? (childIdx + 1),
      parent.keys.get? childIdx with
  | some child, some rightSibling, some separatorKey =>
    match rightSibling.keys.head? with
    | none => parent -- source: `remove(0).unwrap()` panics; unreachable
    | some borrowedKey =>
      if rightSibling.isLeaf then
        BNode.mk (parent.keys.set childIdx borrowedKey)
          ((parent.children.set childIdx
              (BNode.mk (child.keys ++ [separatorKey]) child.children)).set (childIdx + 1)
            (BNode.mk rightSibling.keys.tail rightSibling.children))
      else
        match rightSibling.children.head? with
        | none => parent -- unreachable
        | some borrowedChild =>
          BNode.mk (parent.keys.set childIdx borrowedKey)
            ((parent.children.set childIdx
                (BNode.mk (child.keys ++ [separatorKey])
                  (child.children ++ [borrowedChild]))).set (childIdx + 1)
              (BNode.mk rightSibling.keys.tail rightSibling.children.tail))
  | _, _, _ => parent -- unreachable

/-- Whether an optionally-present sibling has more than `min_keys` keys. -/
def hasSpare (P : BTreeProperties) : Option (BNode α) → Bool
  | some n => P.minKeys < n.keys.length
  | none => false

/-- `BTree::ensure_child_has_enough_keys` (lines 401-430): borrow from the
left sibling if it has slack, else from the right sibling, else merge with
the right sibling when one exists and with the left sibling otherwise. -/
def ensureChildHasEnoughKeys (P : BTreeProperties) (parent : BNode α) (childIdx : Nat) :
    BNode α :=
  if 0 < childIdx && hasSpare P (parent.children.get? (childIdx - 1)) then
    borrowFromLeftSibling parent childIdx
  else if childIdx < parent.children.length - 1
      && hasSpare P (parent.children.get? (childIdx + 1)) then
    borrowFromRightSibling parent childIdx
  else if childIdx < parent.children.length - 1 then
    mergeChildren parent childIdx
  else
    -- source: `child_idx - 1` underflows when childIdx = 0; unreachable from the public API
    mergeChildren parent (childIdx - 1)

/-- `BTree::get_predecessor` (lines 517-524): walk last-child links to a leaf
and take its last key. -/
def getPredecessor : Nat → BNode α → Option α
  | 0, _ => none -- fuel exhausted; unreachable
  | fuel + 1, node =>
    if node.isLeaf then node.keys.getLast? -- source: `last().unwrap()`
    else
      match node.children.getLast? with
      | none => none -- unreachable
      | some c => getPredecessor fuel c

/-- `BTree::get_successor` (lines 526-532): walk first-child links to a leaf
and take its first key. -/
def getSuccessor : Nat → BNode α → Option α
  | 0, _ => none -- fuel exhausted; unreachable
  | fuel + 1, node =>
    if node.isLeaf then node.keys.head? -- source: `keys[0]`
    else
      match node.children.get? 0 with
      | none => none -- unreachable
      | some c => getSuccessor fuel c

mutual
/-- `BTree::remove_from_node` (lines 325-373).  Fuel decreases on every
cross-call; two units of fuel per tree level are enough. -/
def removeFromNode (cmp : α → α → Ordering) (P : BTreeProperties) :
    Nat → BNode α → α → BNode α × Option α
  | 0, node, _ => (node, none) -- fuel exhausted; unreachable
  | fuel + 1, node, key =>
    match binarySearchBy (fun k => cmp k key) node.keys with
    | .found idx =>
      if node.isLeaf then
        (BNode.mk (node.keys.eraseIdx idx) node.children, node.keys.get? idx)
      else
        removeFromInternalNode cmp P fuel node idx
    | .notFound idx =>
      if node.isLeaf then (node, none)
      else
        match node.children.get? idx with
        | none => (node, none) -- source: `children[idx]` panics; unreachable
        | some child =>
          if child.keys.length ≤ P.minKeys then
            let node2 := ensureChildHasEnoughKeys P node idx
            match binarySearchBy (fun k => cmp k key) node2.keys with
            | .found i =>
              -- key moved up into this node during rebalancing
              if node2.isLeaf then
                (BNode.mk (node2.keys.eraseIdx i) node2.children, node2.keys.get? i)
              else
                removeFromInternalNode cmp P fuel node2 i
            | .notFound newIdx =>
              match node2.children.get? newIdx with
              | none => (node2, none) -- unreachable
              | some c2 =>
                let r := removeFromNode cmp P fuel c2 key
                (BNode.mk node2.keys (node2.children.set newIdx r.1), r.2)
          else
            let r := removeFromNode cmp P fuel child key
            (BNode.mk node.keys (node.children.set idx r.1), r.2)

/-- `BTree::remove_from_internal_node` (lines 375-399): replace by the
predecessor (when the left child has slack) or successor (right child), else
merge the two children around the key and delete from the merged child. -/
def removeFromInternalNode (cmp : α → α → Ordering) (P : BTreeProperties) :
    Nat → BNode α → Nat → BNode α × Option α
  | 0, node, _ => (node, none) -- fuel exhausted; unreachable
  | fuel + 1, node, keyIdx =>
    match node.keys.get? keyIdx, node.children.get? keyIdx,
        node.children.get? (keyIdx + 1) with
    | some key, some leftChild, some rightChild =>
      if P.minKeys < leftChild.keys.length then
        match getPredecessor (fuel + 1) leftChild with
        | none => (node, none) -- source: `unwrap()`; unreachable, subtrees are non-empty
        | some predKey =>
          let r := removeFromNode cmp P fuel leftChild predKey
          (BNode.mk (node.keys.set keyIdx predKey) (node.children.set keyIdx r.1), some key)
      else if P.minKeys < rightChild.keys.length then
        match getSuccessor (fuel + 1) rightChild with
        | none => (node, none) -- unreachable
        | some succKey =>
          let r := removeFromNode cmp P fuel rightChild succKey
          (BNode.mk (node.keys.set keyIdx succKey) (node.children.set (keyIdx + 1) r.1),
            some key)
      else
        let node2 := mergeChildren node keyIdx
        match node2.children.get? keyIdx with
        | none => (node2, none) -- unreachable
        | some merged =>
          let r := removeFromNode cmp P fuel merged key
          (BNode.mk node2.keys (node2.children.set keyIdx r.1), r.2)
    | _, _, _ => (node, none) -- source: indexing panics; unreachable
end

/-- `BTree::remove` (lines 302-323): delete from the root, collapse an empty
root onto its only child, and decrement `props.len` iff something was
removed. -/
def BTree.remove (cmp : α → α → Ordering) (t : BTree α) (key : α) : BTree α × Option α :=
  let r := removeFromNode cmp t.props (2 * nodeHeight t.root + 1) t.root key
  let root2 :=
    if r.1.keys.isEmpty && !r.1.children.isEmpty then
      match r.1.children.get? 0 with
      | some c => c
      | none => r.1 -- unreachable: the guard ensures a child exists
    else r.1
  let props2 :=
    if r.2.isSome then { t.props with len := t.props.len - 1 } else t.props
  ({ root := root2, props := props2 }, r.2)

/-- `BTree::pop_first` (lines 249-251): `self.remove(&self.first().cloned()?)`. -/
def BTree.popFirst (cmp : α → α → Ordering) (t : BTree α) : BTree α × Option α :=
  match t.first with
  | none => (t, none)
  | some x => t.remove cmp x

/-- `BTree::pop_last` (lines 253-255). -/
def BTree.popLast (cmp : α → α → Ordering) (t : BTree α) : BTree α × Option α :=
  match t.last with
  | none => (t, none)
  | some x => t.remove cmp x

/-! ## Iteration (`src/btree/impls.rs`) and ranges -/

/-- `BTreeIter::push_left_path` (lines 36-45 of `impls.rs`): push
`(node, start_idx)` frames while descending `children[start_idx]`, stopping
at a leaf.  The stack grows at its head (the head is the top). -/
def pushLeftPath : Nat → List (BNode α × Nat) → BNode α → Nat → List (BNode α × Nat)
  | 0, stack, _, _ => stack -- fuel exhausted; unreachable
  | fuel + 1, stack, node, startIdx =>
    let stack2 := (node, startIdx) :: stack
    if node.isLeaf then stack2
    else
      match node.children.get? startIdx with
      | none => stack2 -- source: `children[start_idx]` panics; unreachable under arity
      | some c => pushLeftPath fuel stack2 c startIdx

/-- `BTreeIter::new` (lines 27-34 of `impls.rs`). -/
def iterNew (root : BNode α) : List (BNode α × Nat) :=
  pushLeftPath (nodeHeight root + 1) [] root 0

/-- `BTreeIter::next` (lines 51-69 of `impls.rs`): pop frames until one has
`idx` within its key list; yield that key after re-pushing `(node, idx+1)`
(when still in bounds) and the left path of `children[idx+1]` (when the node
is internal and that child exists). -/
def iterNext : List (BNode α × Nat) → Option (α × List (BNode α × Nat))
  | [] => none
  | (node, idx) :: rest =>
    match node.keys.get? idx with
    | none => iterNext rest
    | some key =>
      let st1 := if idx + 1 < node.keys.length then (node, idx + 1) :: rest else rest
      let st2 :=
        if !node.isLeaf && idx + 1 < node.children.length then
          match node.children.get? (idx + 1) with
          | some c => pushLeftPath (nodeHeight c + 1) st1 c 0
          | none => st1 -- unreachable: guarded by the bound check
        else st1
      some (key, st2)

/-- Drain the iterator: the full (finite) sequence yielded by repeated
`next()` calls. -/
def iterDrain : Nat → List (BNode α × Nat) → List α
  | 0, _ => [] -- fuel exhausted; unreachable with fuel ≥ number of stored keys
  | fuel + 1, stack =>
    match iterNext stack with
    | none => []
    | some (key, stack2) => key :: iterDrain fuel stack2

/-- The full sequence produced by `BTree::iter` (line 286). -/
def BTree.iterList (t : BTree α) : List α :=
  iterDrain ((inorder t.root).length + 1) (iterNew t.root)

/-- `BTree::range` (lines 290-294): `skip_while(|k| k < start)` followed by
`take_while(|k| k <= end)` over the ascending iterator. -/
def BTree.rangeList (cmp : α → α → Ordering) (t : BTree α) (start stop : α) : List α :=
  ((t.iterList.dropWhile fun k => cmp k start = .lt).takeWhile fun k => cmp k stop ≠ .gt)

/-! ## The map adapter (`src/btree/map/mod.rs`)

The definition of `BTreeSet` itself is not part of the sources (only its
tests are).  Modelled from the spec: `BTreeSet<T>` is "a near-transparent
rename of `BTree<T>` exposing the same contract under set vocabulary", so the
map stores a `BTree (MapPair K V)` directly and each set call below is the
corresponding `BTree` operation. -/

/-- `MapPair<K, V>` (`src/btree/map/mod.rs` lines 7-11). -/
structure MapPair (K V : Type) where
  key : K
  value : V

/-- The `Ord for MapPair` of `map/impls.rs`: comparison is on keys only. -/
def pairCmp {K V : Type} [LinearOrder K] (p q : MapPair K V) : Ordering :=
  compare p.key q.key

/-- `BTreeMap<K, V>`: wraps the set (= tree) of pairs. -/
structure BTreeMap (K V : Type) where
  set : BTree (MapPair K V)

/-- `BTreeMap::new` (map lines 21-25). -/
def BTreeMap.new {K V : Type} (branchFactor : Nat) : BTreeMap K V :=
  { set := BTree.new branchFactor }

/-- `BTreeMap::insert` (map lines 31-40): remove an equal-keyed pair first
(when present), insert the new pair, and return the removed pair's value. -/
def BTreeMap.insert {K V : Type} [LinearOrder K] (m : BTreeMap K V) (k : K) (v : V) :
    BTreeMap K V × Option V :=
  let pair : MapPair K V := { key := k, value := v }
  let r :=
    if m.set.contains pairCmp pair then m.set.remove pairCmp pair
    else (m.set, none)
  ({ set := r.1.insert pairCmp pair }, r.2.map MapPair.value)

/-- `BTreeMap::len` (map lines 42-45). -/
def BTreeMap.len {K V : Type} (m : BTreeMap K V) : Nat :=
  m.set.len

/-- The key-only search loop shared by `BTreeMap::get`, `get_mut` and
`contains_key` (map lines 52-102): walk the node graph with
`binary_search_by(|k| k.key.cmp(key))`. -/
def mapGetWalk {K V : Type} [LinearOrder K] : Nat → BNode (MapPair K V) → K → Option V
  | 0, _, _ => none -- fuel exhausted; unreachable
  | fuel + 1, node, key =>
    match binarySearchBy (fun p => compare p.key key) node.keys with
    | .found idx => (node.keys.get? idx).map MapPair.value
    | .notFound idx =>
      if node.isLeaf then none
      else
        match node.children.get? idx with
        | none => none -- unreachable
        | some c => mapGetWalk fuel c key

/-- `BTreeMap::get`. -/
def BTreeMap.get {K V : Type} [LinearOrder K] (m : BTreeMap K V) (key : K) : Option V :=
  mapGetWalk (nodeHeight m.set.root + 1) m.set.root key

/-- `BTreeMap::contains_key`. -/
def BTreeMap.containsKey {K V : Type} [LinearOrder K] (m : BTreeMap K V) (key : K) : Bool :=
  (m.get key).isSome

/-! ## Operation sequences -/

/-- One `BTree` mutation of the public API. -/
inductive Op (α : Type) where
  | ins (key : α)
  | del (key : α)

/-- Apply one operation. -/
def applyOp (cmp : α → α → Ordering) (t : BTree α) : Op α → BTree α
  | .ins key => t.insert cmp key
  | .del key => (t.remove cmp key).1

/-- The tree reached from `BTree::new(branchFactor)` by a sequence of
`insert`/`remove` calls. -/
def runOps (cmp : α → α → Ordering) (branchFactor : Nat) (ops : List (Op α)) : BTree α :=
  ops.foldl (applyOp cmp) (BTree.new branchFactor)

/-- Number of `insert` calls in an operation sequence. -/
def insCount : List (Op α) → Nat
  | [] => 0
  | .ins _ :: ops => insCount ops + 1
  | .del _ :: ops => insCount ops

/-- Number of `remove` calls that return `Some` along the run started at `t`. -/
def delHitCount (cmp : α → α → Ordering) : BTree α → List (Op α) → Nat
  | _, [] => 0
  | t, .ins k :: ops => delHitCount cmp (t.insert cmp k) ops
  | t, .del k :: ops =>
    (if (t.remove cmp k).2.isSome then 1 else 0) + delHitCount cmp (t.remove cmp k).1 ops

/-! ## Basic facts about the search scan -/

/-- Shift the index of a search result. -/
def SearchResult.shift (n : Nat) : SearchResult → SearchResult
  | .found i => .found (n + i)
  | .notFound i => .notFound (n + i)

theorem bsearchGo_shift (f : α → Ordering) (l : List α) :
    ∀ i, bsearchGo f l i = (bsearchGo f l 0).shift i := by
  induction l with
  | nil => intro i; simp [bsearchGo, SearchResult.shift]
  | cons x xs ih =>
    intro i
    simp only [bsearchGo]
    cases hfx : f x with
    | lt =>
      rw [ih (i + 1), ih 1]
      cases bsearchGo f xs 0 <;> simp [SearchResult.shift] <;> omega
    | eq => simp [SearchResult.shift]
    | gt => simp [SearchResult.shift]

theorem binarySearchBy_cons (f : α → Ordering) (x : α) (xs : List α) :
    binarySearchBy f (x :: xs) =
      match f x with
      | .lt => (binarySearchBy f xs).shift 1
      | .eq => .found 0
      | .gt => .notFound 0 := by
  simp only [binarySearchBy, bsearchGo]
  cases hfx : f x with
  | lt => exact bsearchGo_shift f xs 1
  | eq => rfl
  | gt => rfl

/-- Characterisation of a successful search: everything before the found
index probes `.lt`, the found index probes `.eq`. -/
theorem binarySearchBy_found_spec (f : α → Ordering) :
    ∀ (l : List α) (j : Nat), binarySearchBy f l = .found j →
      (∀ x ∈ l.take j, f x = .lt) ∧ ∃ x, l.get? j = some x ∧ f x = .eq := by
  intro l
  induction l with
  | nil => intro j h; simp [binarySearchBy, bsearchGo] at h
  | cons x xs ih =>
    intro j h
    rw [binarySearchBy_cons] at h
    cases hfx : f x with
    | lt =>
      rw [hfx] at h
      cases hx : binarySearchBy f xs with
      | found j0 =>
        rw [hx] at h
        simp only [SearchResult.shift, SearchResult.found.injEq] at h
        obtain ⟨h1, x0, h2, h3⟩ := ih j0 hx
        subst h
        rw [Nat.add_comm 1 j0]
        constructor
        · intro y hy
          rw [List.take_succ_cons] at hy
          rcases List.mem_cons.mp hy with h | h
          · exact h ▸ hfx
          · exact h1 y h
        · exact ⟨x0, by simpa using h2, h3⟩
      | notFound j0 => rw [hx] at h; simp [SearchResult.shift] at h
    | eq =>
      rw [hfx] at h
      simp at h
      subst h
      exact ⟨by simp, ⟨x, by simp, hfx⟩⟩
    | gt => rw [hfx] at h; simp at h

/-- Characterisation of an unsuccessful search: everything before the
insertion point probes `.lt`, the insertion point (when it exists) probes
`.gt`, and the index never exceeds the length. -/
theorem binarySearchBy_notFound_spec (f : α → Ordering) :
    ∀ (l : List α) (j : Nat), binarySearchBy f l = .notFound j →
      (∀ x ∈ l.take j, f x = .lt) ∧ j ≤ l.length ∧
        (∀ x, l.get? j = some x → f x = .gt) := by
  intro l
  induction l with
  | nil =>
    intro j h
    simp [binarySearchBy, bsearchGo] at h
    subst h
    exact ⟨by simp, by simp, by simp⟩
  | cons x xs ih =>
    intro j h
    rw [binarySearchBy_cons] at h
    cases hfx : f x with
    | lt =>
      rw [hfx] at h
      cases hx : binarySearchBy f xs with
      | found j0 => rw [hx] at h; simp [SearchResult.shift] at h
      | notFound j0 =>
        rw [hx] at h
        simp only [SearchResult.shift, SearchResult.notFound.injEq] at h
        obtain ⟨h1, h2, h3⟩ := ih j0 hx
        subst h
        rw [Nat.add_comm 1 j0]
        refine ⟨?_, by simpa using h2, ?_⟩
        · intro y hy
          rw [List.take_succ_cons] at hy
          rcases List.mem_cons.mp hy with h | h
          · exact h ▸ hfx
          · exact h1 y h
        · intro y hy
          exact h3 y (by simpa using hy)
    | eq => rw [hfx] at h; simp at h
    | gt =>
      rw [hfx] at h
      simp at h
      subst h
      exact ⟨by simp, by simp, by intro y hy; simp at hy; exact hy ▸ hfx⟩

/-! ## Sortedness utilities -/

theorem SortedCmp.nil (cmp : α → α → Ordering) : SortedCmp cmp [] :=
  List.Pairwise.nil

theorem SortedCmp.sublist {cmp : α → α → Ordering} {l1 l2 : List α}
    (h : SortedCmp cmp l2) (hs : l1.Sublist l2) : SortedCmp cmp l1 :=
  List.Pairwise.sublist hs h

theorem SortedCmp.append_iff {cmp : α → α → Ordering} {l1 l2 : List α} :
    SortedCmp cmp (l1 ++ l2) ↔
      SortedCmp cmp l1 ∧ SortedCmp cmp l2 ∧ ∀ x ∈ l1, ∀ y ∈ l2, cmp x y ≠ .gt := by
  exact List.pairwise_append

theorem SortedCmp.cons_iff {cmp : α → α → Ordering} {x : α} {l : List α} :
    SortedCmp cmp (x :: l) ↔ (∀ y ∈ l, cmp x y ≠ .gt) ∧ SortedCmp cmp l := by
  exact List.pairwise_cons

/-- On a sorted list, an unsuccessful search separates the list into a strict
lower part and a strict upper part. -/
theorem search_notFound_bounds {cmp : α → α → Ordering} [Batteries.TransCmp cmp]
    {l : List α} {key : α} {j : Nat}
    (hs : SortedCmp cmp l)
    (h : binarySearchBy (fun a => cmp a key) l = .notFound j) :
    (∀ x ∈ l.take j, cmp x key = .lt) ∧ (∀ x ∈ l.drop j, cmp x key = .gt) := by
  obtain ⟨h1, _h2, h3⟩ := binarySearchBy_notFound_spec _ l j h
  refine ⟨h1, ?_⟩
  intro x hx
  cases hd : l.drop j with
  | nil => rw [hd] at hx; simp at hx
  | cons x0 rest =>
    rw [hd] at hx
    have hx0 : cmp x0 key = .gt := by
      apply h3
      have h0 : (l.drop j)[0]? = some x0 := by rw [hd]; simp
      rw [List.getElem?_drop] at h0
      rw [List.get?_eq_getElem?]
      simpa using h0
    have hsd : SortedCmp cmp (x0 :: rest) := by
      rw [← hd]
      exact hs.sublist (List.drop_sublist j l)
    rcases List.mem_cons.mp hx with h | h
    · exact h ▸ hx0
    · have hle : cmp x0 x ≠ .gt := (SortedCmp.cons_iff.mp hsd).1 x h
      have hklt : cmp key x0 = .lt := Batteries.OrientedCmp.cmp_eq_gt.mp hx0
      exact Batteries.OrientedCmp.cmp_eq_gt.mpr
        (Batteries.TransCmp.lt_le_trans hklt hle)

/-- On a sorted list, an unsuccessful search means no element compares equal
to the key. -/
theorem search_notFound_absent {cmp : α → α → Ordering} [Batteries.TransCmp cmp]
    {l : List α} {key : α} {j : Nat}
    (hs : SortedCmp cmp l)
    (h : binarySearchBy (fun a => cmp a key) l = .notFound j) :
    ∀ x ∈ l, cmp x key ≠ .eq := by
  obtain ⟨hlo, hhi⟩ := search_notFound_bounds hs h
  intro x hx
  rcases List.mem_append.mp ((List.take_append_drop j l).symm ▸ hx) with h | h
  · rw [hlo x h]; simp
  · rw [hhi x h]; simp

/-! ## Structure of the in-order flattening -/

@[simp] theorem inorder_mk (ks : List α) (cs : List (BNode α)) :
    inorder (BNode.mk ks cs) = inorderZip cs ks := by
  rw [inorder]

@[simp] theorem inorderZip_nil (ks : List α) : inorderZip ([] : List (BNode α)) ks = ks := by
  rw [inorderZip]

@[simp] theorem inorderZip_cons_cons (c : BNode α) (cs : List (BNode α)) (k : α) (ks : List α) :
    inorderZip (c :: cs) (k :: ks) = inorder c ++ k :: inorderZip cs ks := by
  rw [inorderZip]

theorem inorderZip_cons_nil (c : BNode α) (cs : List (BNode α)) :
    inorderZip (c :: cs) [] = inorder c ++ inorderZip cs [] := by
  rw [inorderZip]

theorem mem_keys_inorderZip {x : α} {ks : List α} (cs : List (BNode α)) (hx : x ∈ ks) :
    x ∈ inorderZip cs ks := by
  induction cs generalizing ks with
  | nil => simpa using hx
  | cons c cs ih =>
    cases ks with
    | nil => simp at hx
    | cons k ks =>
      rcases List.mem_cons.mp hx with h | h
      · simp [h]
      · simp [ih h]

theorem mem_child_inorderZip {x : α} {c : BNode α} {cs : List (BNode α)} (ks : List α)
    (hc : c ∈ cs) (hx : x ∈ inorder c) : x ∈ inorderZip cs ks := by
  induction cs generalizing ks with
  | nil => simp at hc
  | cons c0 cs ih =>
    rcases List.mem_cons.mp hc with h | h
    · cases ks with
      | nil => rw [inorderZip_cons_nil]; exact List.mem_append.mpr (.inl (h ▸ hx))
      | cons k ks => simp [h ▸ hx]
    · cases ks with
      | nil =>
        rw [inorderZip_cons_nil]
        exact List.mem_append.mpr (.inr (ih [] h))
      | cons k ks => simp [ih ks h]

/-- Splitting an interleaving of children and keys at a slot boundary. -/
theorem inorderZip_take_drop (i : Nat) :
    ∀ (cs : List (BNode α)) (ks : List α), i ≤ ks.length → i ≤ cs.length →
      inorderZip cs ks =
        inorderZip (cs.take i) (ks.take i) ++ inorderZip (cs.drop i) (ks.drop i) := by
  induction i with
  | zero => intro cs ks _ _; simp
  | succ i ih =>
    intro cs ks hk hc
    cases cs with
    | nil => simp at hc
    | cons c cs =>
      cases ks with
      | nil => simp at hk
      | cons k ks =>
        simp only [List.take_succ_cons, List.drop_succ_cons, inorderZip_cons_cons]
        rw [ih cs ks (by simpa using hk) (by simpa using hc)]
        simp

/-- Appending child lists splits the interleaving at the corresponding keys. -/
theorem inorderZip_append (cs1 cs2 : List (BNode α)) :
    ∀ (ks : List α), cs1.length ≤ ks.length →
      inorderZip (cs1 ++ cs2) ks =
        inorderZip cs1 (ks.take cs1.length) ++ inorderZip cs2 (ks.drop cs1.length) := by
  induction cs1 with
  | nil => intro ks _; simp
  | cons c cs1 ih =>
    intro ks hl
    cases ks with
    | nil => simp at hl
    | cons k ks =>
      simp only [List.cons_append, inorderZip_cons_cons, List.length_cons,
        List.take_succ_cons, List.drop_succ_cons]
      rw [ih ks (by simpa using hl)]
      simp

/-- With equally many children and keys, every element of the interleaving is
strictly below `key` as soon as all keys are (the last key dominates). -/
theorem inorderZip_all_lt {cmp : α → α → Ordering} [Batteries.TransCmp cmp] {key : α} :
    ∀ (cs : List (BNode α)) (ks : List α), cs.length = ks.length →
      SortedCmp cmp (inorderZip cs ks) → (∀ k ∈ ks, cmp k key = .lt) →
      ∀ x ∈ inorderZip cs ks, cmp x key = .lt := by
  intro cs
  induction cs with
  | nil =>
    intro ks hlen _ hk x hx
    simp at hx hlen
    exact hk x (by simp [← hlen, hx])
  | cons c cs ih =>
    intro ks hlen hs hk x hx
    cases ks with
    | nil => simp at hlen
    | cons k ks =>
      rw [inorderZip_cons_cons] at hx hs
      rcases List.mem_append.mp hx with h | h
      · have hxk : cmp x k ≠ .gt := by
          rw [SortedCmp, List.pairwise_append] at hs
          exact hs.2.2 x h k (by simp)
        exact Batteries.TransCmp.le_lt_trans hxk (hk k (by simp))
      · rcases List.mem_cons.mp h with h | h
        · exact h ▸ hk k (by simp)
        · have hs2 : SortedCmp cmp (inorderZip cs ks) := by
            rw [SortedCmp, List.pairwise_append] at hs
            exact (List.pairwise_cons.mp hs.2.1).2
          exact ih ks (by simpa using hlen) hs2 (fun y hy => hk y (by simp [hy])) x h

/-- In a sorted list headed by an element above `key`, everything is above
`key`. -/
theorem sorted_cons_all_gt {cmp : α → α → Ordering} [Batteries.TransCmp cmp]
    {key k : α} {l : List α} (hs : SortedCmp cmp (k :: l)) (hk : cmp k key = .gt) :
    ∀ x ∈ k :: l, cmp x key = .gt := by
  intro x hx
  rcases List.mem_cons.mp hx with h | h
  · exact h ▸ hk
  · have hkx : cmp k x ≠ .gt := (List.pairwise_cons.mp hs).1 x h
    exact Batteries.OrientedCmp.cmp_eq_gt.mpr
      (Batteries.TransCmp.lt_le_trans (Batteries.OrientedCmp.cmp_eq_gt.mp hk) hkx)

/-- The slot decomposition: an internal node's flattening splits around the
subtree at child slot `i`, and replacing that child replaces exactly the
middle part. -/
theorem slot_decomp {ks : List α} {cs : List (BNode α)} {i : Nat} {c : BNode α}
    (harity : cs.length = ks.length + 1) (hi : i ≤ ks.length) (hc : cs.get? i = some c) :
    ∃ L R,
      (∀ cNew, inorderZip (cs.set i cNew) ks = L ++ inorder cNew ++ R) ∧
      inorderZip cs ks = L ++ inorder c ++ R ∧
      L = inorderZip (cs.take i) (ks.take i) ∧
      ((i < ks.length → ∃ ki, ks.get? i = some ki ∧
          R = ki :: inorderZip (cs.drop (i + 1)) (ks.drop (i + 1))) ∧
        (i = ks.length → R = [])) := by
  have hic : i < cs.length := by omega
  have hcs_eq : cs = cs.take i ++ c :: cs.drop (i + 1) := by
    conv_lhs => rw [← List.take_append_drop i cs]
    congr 1
    rw [List.drop_eq_getElem_cons hic]
    congr 1
    rw [List.get?_eq_getElem?] at hc
    simpa using (List.getElem?_eq_some_iff.mp (by simpa using hc)).2
  have hset : ∀ cNew, cs.set i cNew = cs.take i ++ cNew :: cs.drop (i + 1) := by
    intro cNew
    exact List.set_eq_take_cons_drop cNew hic
  have hlen_take : (cs.take i).length = i := by simp; omega
  have key_split : ∀ cNew, inorderZip (cs.take i ++ cNew :: cs.drop (i + 1)) ks =
      inorderZip (cs.take i) (ks.take i) ++
        inorder cNew ++
        ((ks.drop i).take 1 ++ inorderZip (cs.drop (i + 1)) (ks.drop (i + 1))) := by
    intro cNew
    rw [inorderZip_append _ _ ks (by omega)]
    rw [hlen_take]
    cases hdk : ks.drop i with
    | nil =>
      have hki : ks.length ≤ i := by
        by_contra hlt
        exact absurd hdk (by simp; omega)
      have hdk1 : ks.drop (i + 1) = [] := by simp; omega
      have hdc : cs.drop (i + 1) = [] := by simp; omega
      rw [hdc, hdk1]
      simp [inorderZip_cons_nil]
    | cons k0 krest =>
      have hkrest : krest = ks.drop (i + 1) := by
        have := List.tail_drop ks i
        rw [hdk] at this
        simpa using this
      rw [inorderZip_cons_cons, hkrest]
      simp
  refine ⟨inorderZip (cs.take i) (ks.take i),
    (ks.drop i).take 1 ++ inorderZip (cs.drop (i + 1)) (ks.drop (i + 1)), ?_, ?_, ?_, ?_⟩
  · intro cNew
    rw [hset cNew, key_split cNew]
  · conv_lhs => rw [hcs_eq]
    rw [key_split c]
  · rfl
  · constructor
    · intro hlt
      obtain ⟨ki, hki⟩ : ∃ ki, ks.get? i = some ki := by
        rw [List.get?_eq_getElem?]
        exact ⟨ks[i], by simp⟩
      refine ⟨ki, hki, ?_⟩
      have hdk : ks.drop i = ki :: ks.drop (i + 1) := by
        rw [List.drop_eq_getElem_cons hlt]
        congr 1
        rw [List.get?_eq_getElem?] at hki
        simpa using (List.getElem?_eq_some_iff.mp (by simpa using hki)).2
      rw [hdk]
      simp
    · intro hieq
      have hdk : ks.drop i = [] := by simp; omega
      have hdc : cs.drop (i + 1) = [] := by simp; omega
      rw [hdk, hdc]
      simp
      omega

/-- A middle block of a sorted list is sorted. -/
theorem SortedCmp.of_middle {cmp : α → α → Ordering} {L M R : List α}
    (h : SortedCmp cmp (L ++ M ++ R)) : SortedCmp cmp M := by
  rw [SortedCmp, List.append_assoc, List.pairwise_append] at h
  exact (List.pairwise_append.mp h.2.1).1

/-- Elements of the tree must pairwise satisfy: comparing equal means being
equal.  This holds for any linear order, and for the map's key-ordered pairs
once keys are unique. -/
def EqStrict (cmp : α → α → Ordering) (l : List α) : Prop :=
  ∀ a ∈ l, ∀ b ∈ l, cmp a b = .eq → a = b

theorem EqStrict.mono {cmp : α → α → Ordering} {l1 l2 : List α}
    (h : EqStrict cmp l2) (hsub : ∀ x ∈ l1, x ∈ l2) : EqStrict cmp l1 :=
  fun a ha b hb => h a (hsub a ha) b (hsub b hb)

/-! ## The shape predicates, unfolded -/

theorem arityOkList_iff (cs : List (BNode α)) :
    arityOkList cs = true ↔ ∀ c ∈ cs, arityOk c = true := by
  induction cs with
  | nil => simp [arityOkList]
  | cons c cs ih => rw [arityOkList]; simp [ih]

theorem arityOk_mk {ks : List α} {cs : List (BNode α)} :
    arityOk (BNode.mk ks cs) = true ↔
      (cs = [] ∨ cs.length = ks.length + 1) ∧ ∀ c ∈ cs, arityOk c = true := by
  rw [arityOk]
  simp [arityOkList_iff, List.isEmpty_iff]

theorem subNonemptyList_iff (cs : List (BNode α)) :
    subNonemptyList cs = true ↔ ∀ c ∈ cs, c.keys ≠ [] ∧ subNonempty c = true := by
  induction cs with
  | nil => simp [subNonemptyList]
  | cons c cs ih =>
    rw [subNonemptyList]
    simp [ih, List.isEmpty_iff, and_assoc]

theorem subNonempty_mk {ks : List α} {cs : List (BNode α)} :
    subNonempty (BNode.mk ks cs) = true ↔
      ∀ c ∈ cs, c.keys ≠ [] ∧ subNonempty c = true := by
  rw [subNonempty]
  exact subNonemptyList_iff cs

theorem leavesAtList_iff (cs : List (BNode α)) (d : Nat) :
    leavesAtList cs d = true ↔ ∀ c ∈ cs, leavesAt c d = true := by
  induction cs with
  | nil => simp [leavesAtList]
  | cons c cs ih => rw [leavesAtList]; simp [ih]

theorem leavesAt_leaf {ks : List α} {d : Nat} :
    leavesAt (BNode.mk ks ([] : List (BNode α))) d = true ↔ d = 1 := by
  rw [leavesAt]; simp

theorem leavesAt_mk {ks : List α} {cs : List (BNode α)} {d : Nat} (hcs : cs ≠ []) :
    leavesAt (BNode.mk ks cs) d = true ↔
      ∃ e, d = e + 1 ∧ ∀ c ∈ cs, leavesAt c e = true := by
  cases cs with
  | nil => exact absurd rfl hcs
  | cons c cs =>
    rw [leavesAt.eq_def]
    cases d with
    | zero => simp
    | succ e =>
      rw [leavesAtList_iff]
      constructor
      · intro h; exact ⟨e, rfl, h⟩
      · rintro ⟨e2, he, h⟩
        have : e2 = e := by omega
        exact this ▸ h

theorem leavesAt_pos {n : BNode α} {d : Nat} (h : leavesAt n d = true) : 1 ≤ d := by
  cases n with
  | mk ks cs =>
    cases cs with
    | nil => rw [leavesAt_leaf] at h; omega
    | cons c cs =>
      rcases (leavesAt_mk (by simp)).mp h with ⟨e, he, _⟩
      omega

mutual
theorem leavesAt_nodeHeight : ∀ (n : BNode α) (d : Nat),
    leavesAt n d = true → nodeHeight n = d
  | .mk ks [], d, h => by
    rw [leavesAt_leaf] at h
    rw [nodeHeight, nodeHeightList]
    omega
  | .mk ks (c :: cs), d, h => by
    rcases (leavesAt_mk (by simp)).mp h with ⟨e, he, hall⟩
    have hlist : leavesAtList (c :: cs) e = true := (leavesAtList_iff _ _).mpr hall
    have := leavesAtList_nodeHeight (c :: cs) e (by simp) hlist
    rw [nodeHeight, this]
    omega
theorem leavesAtList_nodeHeight : ∀ (cs : List (BNode α)) (d : Nat), cs ≠ [] →
    leavesAtList cs d = true → nodeHeightList cs = d
  | [], _, h, _ => absurd rfl h
  | [c], d, _, h => by
    rw [leavesAtList] at h
    simp only [leavesAtList, Bool.and_true] at h
    rw [nodeHeightList, nodeHeightList]
    rw [leavesAt_nodeHeight c d (by simpa using h)]
    omega
  | c :: c2 :: cs, d, _, h => by
    rw [leavesAtList, Bool.and_eq_true] at h
    have h1 := leavesAt_nodeHeight c d h.1
    have h2 := leavesAtList_nodeHeight (c2 :: cs) d (by simp) h.2
    rw [nodeHeightList, h1, h2]
    omega
end


/-- The key list is a sublist of the in-order flattening. -/
theorem keys_sublist_inorderZip : ∀ (cs : List (BNode α)) (ks : List α),
    ks.Sublist (inorderZip cs ks) := by
  intro cs
  induction cs with
  | nil => intro ks; simp
  | cons c cs ih =>
    intro ks
    cases ks with
    | nil => simp
    | cons k ks =>
      rw [inorderZip_cons_cons]
      exact List.Sublist.trans ((ih ks).cons₂ k) (List.sublist_append_right _ _)

/-- A child's flattening inherits sortedness from the node's flattening. -/
theorem sortedCmp_child {cmp : α → α → Ordering} :
    ∀ (cs : List (BNode α)) (ks : List α), SortedCmp cmp (inorderZip cs ks) →
      ∀ c ∈ cs, SortedCmp cmp (inorder c) := by
  intro cs
  induction cs with
  | nil => intro ks _ c hc; simp at hc
  | cons c0 cs ih =>
    intro ks hs c hc
    rcases List.mem_cons.mp hc with h | h
    · subst h
      cases ks with
      | nil =>
        rw [inorderZip_cons_nil] at hs
        exact (SortedCmp.append_iff.mp hs).1
      | cons k ks =>
        rw [inorderZip_cons_cons] at hs
        exact (SortedCmp.append_iff.mp hs).1
    · cases ks with
      | nil =>
        rw [inorderZip_cons_nil] at hs
        exact ih [] (SortedCmp.append_iff.mp hs).2.1 c h
      | cons k ks =>
        rw [inorderZip_cons_cons] at hs
        exact ih ks (SortedCmp.cons_iff.mp (SortedCmp.append_iff.mp hs).2.1).2 c h

/-- The per-node well-formedness used by the correctness proofs: correct
arity everywhere, non-empty keys below the node, sorted flattening. -/
def NodeWF (cmp : α → α → Ordering) (n : BNode α) : Prop :=
  arityOk n = true ∧ subNonempty n = true ∧ SortedCmp cmp (inorder n)

theorem NodeWF.sorted_keys {cmp : α → α → Ordering} {n : BNode α} (h : NodeWF cmp n) :
    SortedCmp cmp n.keys := by
  obtain ⟨ks, cs⟩ := n
  exact h.2.2.sublist (by simpa using keys_sublist_inorderZip cs ks)

theorem NodeWF.child {cmp : α → α → Ordering} {n c : BNode α} (h : NodeWF cmp n)
    (hc : c ∈ n.children) : NodeWF cmp c ∧ c.keys ≠ [] := by
  obtain ⟨ks, cs⟩ := n
  obtain ⟨ha, hne, hs⟩ := h
  rw [arityOk_mk] at ha
  rw [subNonempty_mk] at hne
  exact ⟨⟨(ha.2 c hc), (hne c hc).2, sortedCmp_child cs ks (by simpa using hs) c hc⟩,
    (hne c hc).1⟩

theorem get?_mem {β : Type} {l : List β} {i : Nat} {c : β} (h : l.get? i = some c) :
    c ∈ l := by
  rw [List.get?_eq_getElem?] at h
  exact List.getElem?_mem h

/-- Facts available when descending into child `i` after an unsuccessful
search of a sorted internal node: the flattening splits as
`L ++ inorder child ++ R`, everything in `L` is below the key, everything in
`R` is above it, and replacing the child replaces exactly the middle part. -/
theorem descend_decomp {cmp : α → α → Ordering} [Batteries.TransCmp cmp]
    {ks : List α} {cs : List (BNode α)} {key : α} {i : Nat} {c : BNode α}
    (harity : cs.length = ks.length + 1)
    (hs : SortedCmp cmp (inorderZip cs ks))
    (hsearch : binarySearchBy (fun a => cmp a key) ks = .notFound i)
    (hc : cs.get? i = some c) :
    ∃ L R,
      (∀ cNew, inorderZip (cs.set i cNew) ks = L ++ inorder cNew ++ R) ∧
      inorderZip cs ks = L ++ inorder c ++ R ∧
      (∀ x ∈ L, cmp x key = .lt) ∧ (∀ x ∈ R, cmp x key = .gt) := by
  obtain ⟨hlo, hile, hgt⟩ := binarySearchBy_notFound_spec _ ks i hsearch
  obtain ⟨L, R, hset, hsplit, hL, hR⟩ := slot_decomp harity hile hc
  refine ⟨L, R, hset, hsplit, ?_, ?_⟩
  · intro x hx
    have hsL : SortedCmp cmp L := by
      rw [hsplit, SortedCmp, List.pairwise_append] at hs
      exact (List.pairwise_append.mp hs.1).1
    refine inorderZip_all_lt (cs.take i) (ks.take i) ?_ (hL ▸ hsL) ?_ x (hL ▸ hx)
    · simp
      omega
    · exact hlo
  · intro x hx
    rcases Nat.lt_or_ge i ks.length with hlt | hge
    · obtain ⟨ki, hki, hRform⟩ := hR.1 hlt
      have hkigt : cmp ki key = .gt := hgt ki hki
      have hsR : SortedCmp cmp R := by
        rw [hsplit] at hs
        exact (List.pairwise_append.mp hs).2.1
      rw [hRform] at hsR hx
      exact sorted_cons_all_gt hsR hkigt x hx
    · have hieq : i = ks.length := by omega
      rw [hR.2 hieq] at hx
      simp at hx


/-- With the descent decomposition in hand, an equal element exists in the
node iff one exists in the descent child. -/
theorem present_iff_child {cmp : α → α → Ordering} {key : α} {W L M R : List α}
    (hsplit : W = L ++ M ++ R)
    (hL : ∀ x ∈ L, cmp x key = .lt) (hR : ∀ x ∈ R, cmp x key = .gt) :
    (∃ y ∈ W, cmp y key = .eq) ↔ (∃ y ∈ M, cmp y key = .eq) := by
  subst hsplit
  constructor
  · rintro ⟨y, hy, heq⟩
    rcases List.mem_append.mp hy with hy2 | hy2
    · rcases List.mem_append.mp hy2 with hy3 | hy3
      · rw [hL y hy3] at heq; cases heq
      · exact ⟨y, hy3, heq⟩
    · rw [hR y hy2] at heq; cases heq
  · rintro ⟨y, hy, heq⟩
    exact ⟨y, by simp [hy], heq⟩

/-- Correctness of the `contains` search walk on a well-formed subtree. -/
theorem containsNode_iff {cmp : α → α → Ordering} [Batteries.TransCmp cmp] :
    ∀ (fuel : Nat) (n : BNode α) (key : α) (d : Nat),
      NodeWF cmp n → leavesAt n d = true → d ≤ fuel →
      (containsNode cmp fuel n key = true ↔ ∃ y ∈ inorder n, cmp y key = .eq) := by
  intro fuel
  induction fuel with
  | zero =>
    intro n key d _ hlv hd
    have := leavesAt_pos hlv
    omega
  | succ fuel ih =>
    intro n key d hWF hlv hd
    obtain ⟨ks, cs⟩ := n
    rw [containsNode]
    simp only [BNode.keys_mk, BNode.children_mk]
    cases hsearch : binarySearchBy (fun k => cmp k key) ks with
    | found j =>
      refine iff_of_true rfl ?_
      obtain ⟨_, y, hy, hyeq⟩ := binarySearchBy_found_spec _ ks j hsearch
      exact ⟨y, mem_keys_inorderZip cs (get?_mem hy), hyeq⟩
    | notFound j =>
      cases hcs : cs with
      | nil =>
        subst hcs
        simp only [BNode.isLeaf, BNode.children_mk, List.isEmpty_nil, if_true]
        refine iff_of_false (by simp) ?_
        rintro ⟨y, hy, hyeq⟩
        rw [inorder_mk, inorderZip_nil] at hy
        exact search_notFound_absent hWF.sorted_keys hsearch y (by simpa using hy) hyeq
      | cons c0 cs0 =>
        subst hcs
        simp only [BNode.isLeaf, BNode.children_mk, List.isEmpty_cons,
          Bool.false_eq_true, if_false]
        have harity : (c0 :: cs0).length = ks.length + 1 := by
          rcases (arityOk_mk.mp hWF.1).1 with h | h
          · cases h
          · exact h
        obtain ⟨_, hjle, _⟩ := binarySearchBy_notFound_spec _ ks j hsearch
        obtain ⟨c, hc⟩ : ∃ c, (c0 :: cs0).get? j = some c := by
          rw [List.get?_eq_getElem?]
          have : j < (c0 :: cs0).length := by omega
          exact ⟨(c0 :: cs0)[j], by simp⟩
        rw [hc]
        obtain ⟨e, hde, hall⟩ := (leavesAt_mk (by simp)).mp hlv
        have hcWF := hWF.child (by simpa using get?_mem hc)
        have hihc := ih c key e hcWF.1 (hall c (get?_mem hc)) (by omega)
        rw [hihc]
        obtain ⟨L, R, _, hsplit, hL, hR⟩ :=
          descend_decomp harity (by simpa using hWF.2.2) hsearch hc
        rw [inorder_mk]
        exact (present_iff_child hsplit hL hR).symm

/-! ## List surgery helpers -/

theorem take_succ_of_get? {l : List α} {m : Nat} {x : α} (h : l.get? m = some x) :
    l.take (m + 1) = l.take m ++ [x] := by
  rw [List.take_succ]
  rw [List.get?_eq_getElem?] at h
  simp [h]

theorem take_succ_getLast? {l : List α} {m : Nat} {x : α} (h : l.get? m = some x) :
    (l.take (m + 1)).getLast? = some x := by
  rw [take_succ_of_get? h]
  simp

theorem take_succ_dropLast {l : List α} {m : Nat} {x : α} (h : l.get? m = some x) :
    (l.take (m + 1)).dropLast = l.take m := by
  rw [take_succ_of_get? h]
  simp

theorem get?_lt_length {l : List α} {m : Nat} (h : m < l.length) :
    ∃ x, l.get? m = some x := by
  rw [List.get?_eq_getElem?]
  exact ⟨l[m], by simp⟩

theorem take_drop_get? {l : List α} {m : Nat} {x : α} (h : l.get? m = some x) :
    l = l.take m ++ x :: l.drop (m + 1) := by
  conv_lhs => rw [← List.take_append_drop m l]
  congr 1
  rw [List.get?_eq_getElem?] at h
  have hm : m < l.length := by
    by_contra hc
    rw [List.getElem?_eq_none (by omega)] at h
    cases h
  rw [List.drop_eq_getElem_cons hm]
  congr 1
  simpa using (List.getElem?_eq_some_iff.mp (by simpa using h)).2

/-- Snoc with an extra child only (`|cs| = |ks|`): the child's flattening
lands at the very end. -/
theorem inorderZip_snoc_child : ∀ (cs : List (BNode α)) (ks : List α) (c : BNode α),
    cs.length = ks.length →
    inorderZip (cs ++ [c]) ks = inorderZip cs ks ++ inorder c := by
  intro cs
  induction cs with
  | nil =>
    intro ks c hl
    have : ks = [] := by simpa using hl.symm
    subst this
    simp [inorderZip_cons_nil]
  | cons c0 cs ih =>
    intro ks c hl
    cases ks with
    | nil => simp at hl
    | cons k ks =>
      simp only [List.cons_append, inorderZip_cons_cons]
      rw [ih ks c (by simpa using hl)]
      simp

/-- Snoc with one more child and one more key (`|cs| = |ks|`): the new child
comes before the new key at the end of the flattening. -/
theorem inorderZip_snoc_eq : ∀ (cs : List (BNode α)) (ks : List α) (c : BNode α) (k : α),
    cs.length = ks.length →
    inorderZip (cs ++ [c]) (ks ++ [k]) = inorderZip cs ks ++ inorder c ++ [k] := by
  intro cs
  induction cs with
  | nil =>
    intro ks c k hl
    have : ks = [] := by simpa using hl.symm
    subst this
    simp
  | cons c0 cs ih =>
    intro ks c k hl
    cases ks with
    | nil => simp at hl
    | cons k0 ks =>
      simp only [List.cons_append, inorderZip_cons_cons]
      rw [ih ks c k (by simpa using hl)]
      simp

/-- Snoc with one more child and one more key when there is one child more
than keys: the new key separates, the new child ends the flattening. -/
theorem inorderZip_snoc_sep : ∀ (cs : List (BNode α)) (ks : List α) (c : BNode α) (k : α),
    cs.length = ks.length + 1 →
    inorderZip (cs ++ [c]) (ks ++ [k]) = inorderZip cs ks ++ k :: inorder c := by
  intro cs
  induction cs with
  | nil => intro ks c k hl; simp at hl
  | cons c0 cs ih =>
    intro ks c k hl
    cases ks with
    | nil =>
      have : cs = [] := by simpa using hl
      subst this
      simp [inorderZip_cons_nil]
    | cons k0 ks =>
      simp only [List.cons_append, inorderZip_cons_cons]
      rw [ih ks c k (by simpa using hl)]
      simp

/-! ## The split specification -/

/-- Everything `split_child` guarantees on a full child of a well-formed
node: the parent's flattening is unchanged, the separator is the child's key
at `mid_key_index`, and the two halves are non-empty well-shaped nodes of the
same depth as the child. -/
theorem splitChild_spec {P : BTreeProperties}
    {ks : List α} {cs : List (BNode α)} {i : Nat} {child : BNode α}
    (harity : cs.length = ks.length + 1) (hile : i ≤ ks.length)
    (hc : cs.get? i = some child)
    (hfull : P.maxKeys ≤ child.keys.length)
    (hmid1 : 1 ≤ P.midKeyIndex) (hmid2 : P.midKeyIndex + 2 ≤ P.maxKeys)
    (haOk : arityOk (BNode.mk ks cs) = true)
    (hne : subNonempty (BNode.mk ks cs) = true) :
    ∃ leftN rightN middle,
      splitChild P (BNode.mk ks cs) i =
        BNode.mk (ks.insertIdx i middle) ((cs.set i leftN).insertIdx (i + 1) rightN) ∧
      child.keys.get? P.midKeyIndex = some middle ∧
      inorder leftN ++ middle :: inorder rightN = inorder child ∧
      leftN.keys.length = P.midKeyIndex ∧
      rightN.keys.length = child.keys.length - (P.midKeyIndex + 1) ∧
      arityOk leftN = true ∧ arityOk rightN = true ∧
      leftN.keys ≠ [] ∧ rightN.keys ≠ [] ∧
      subNonempty leftN = true ∧ subNonempty rightN = true ∧
      (∀ e, leavesAt child e = true → leavesAt leftN e = true ∧ leavesAt rightN e = true) := by
  obtain ⟨cks, ccs⟩ := child
  simp only [BNode.keys_mk] at hfull
  have hmidlt : P.midKeyIndex < cks.length := by omega
  obtain ⟨middle, hmiddle⟩ := get?_lt_length hmidlt
  have hchildInfo := (subNonempty_mk.mp hne) _ (get?_mem hc)
  have hchildArity := (arityOk_mk.mp haOk).2 _ (get?_mem hc)
  refine ⟨BNode.mk (cks.take P.midKeyIndex)
      (if (BNode.mk cks ccs).isLeaf then ccs else ccs.take (P.midKeyIndex + 1)),
    BNode.mk (cks.drop (P.midKeyIndex + 1))
      (if (BNode.mk cks ccs).isLeaf then [] else ccs.drop (P.midKeyIndex + 1)),
    middle, ?_, hmiddle, ?_, ?_, ?_, ?_, ?_, ?_, ?_, ?_, ?_, ?_⟩
  · rw [splitChild]
    simp only [BNode.children_mk, BNode.keys_mk, hc]
    rw [if_neg (by simp; omega)]
    rw [take_succ_getLast? (by simpa using hmiddle)]
    simp only [BNode.keys_mk]
    rw [take_succ_dropLast (by simpa using hmiddle)]
  · -- the two halves flatten back to the child
    cases hccs : ccs with
    | nil =>
      simp only [BNode.isLeaf, BNode.children_mk, List.isEmpty_nil, if_true]
      simp only [inorder_mk, inorderZip_nil]
      exact (take_drop_get? hmiddle).symm
    | cons cc0 ccs0 =>
      subst hccs
      have hcarity : (cc0 :: ccs0).length = cks.length + 1 := by
        rcases (arityOk_mk.mp hchildArity).1 with h | h
        · simp at h
        · exact h
      simp only [BNode.isLeaf, BNode.children_mk, List.isEmpty_cons, Bool.false_eq_true,
        if_false]
      simp only [inorder_mk]
      have hsplit2 := inorderZip_take_drop (P.midKeyIndex + 1) (cc0 :: ccs0) cks
        (by omega) (by omega)
      have htk : cks.take (P.midKeyIndex + 1) = cks.take P.midKeyIndex ++ [middle] :=
        take_succ_of_get? hmiddle
      obtain ⟨cmidc, hcmidc⟩ := get?_lt_length
        (show P.midKeyIndex < (cc0 :: ccs0).length by omega)
      have htc : (cc0 :: ccs0).take (P.midKeyIndex + 1) =
          (cc0 :: ccs0).take P.midKeyIndex ++ [cmidc] := take_succ_of_get? hcmidc
      have hsnoc1 : inorderZip ((cc0 :: ccs0).take P.midKeyIndex ++ [cmidc])
            (cks.take P.midKeyIndex ++ [middle]) =
          inorderZip ((cc0 :: ccs0).take P.midKeyIndex) (cks.take P.midKeyIndex) ++
            inorder cmidc ++ [middle] :=
        inorderZip_snoc_eq _ _ _ _
          (by rw [List.length_take_of_le (by omega), List.length_take_of_le (by omega)])
      have hsnoc2 : inorderZip ((cc0 :: ccs0).take P.midKeyIndex ++ [cmidc])
            (cks.take P.midKeyIndex) =
          inorderZip ((cc0 :: ccs0).take P.midKeyIndex) (cks.take P.midKeyIndex) ++
            inorder cmidc :=
        inorderZip_snoc_child _ _ _
          (by rw [List.length_take_of_le (by omega), List.length_take_of_le (by omega)])
      rw [hsplit2, htk, htc, hsnoc1, hsnoc2]
      simp
  · simp only [BNode.keys_mk]
    rw [List.length_take_of_le (by omega)]
  · simp only [BNode.keys_mk, List.length_drop]
  · -- arity of the left half
    cases hccs : ccs with
    | nil => simp [arityOk_mk]
    | cons cc0 ccs0 =>
      subst hccs
      have hcarity : (cc0 :: ccs0).length = cks.length + 1 := by
        rcases (arityOk_mk.mp hchildArity).1 with h | h
        · simp at h
        · exact h
      simp only [BNode.isLeaf, BNode.children_mk, List.isEmpty_cons, Bool.false_eq_true,
        if_false]
      rw [arityOk_mk]
      refine ⟨.inr (by
        rw [List.length_take_of_le (by simp only [List.length_cons] at hcarity ⊢; omega),
          List.length_take_of_le (by omega)]), ?_⟩
      intro c2 hc2
      exact (arityOk_mk.mp hchildArity).2 c2 (List.mem_of_mem_take hc2)
  · -- arity of the right half
    cases hccs : ccs with
    | nil => simp [arityOk_mk]
    | cons cc0 ccs0 =>
      subst hccs
      have hcarity : (cc0 :: ccs0).length = cks.length + 1 := by
        rcases (arityOk_mk.mp hchildArity).1 with h | h
        · simp at h
        · exact h
      simp only [BNode.isLeaf, BNode.children_mk, List.isEmpty_cons, Bool.false_eq_true,
        if_false]
      rw [arityOk_mk]
      refine ⟨.inr (by
        simp only [BNode.keys_mk, BNode.children_mk, List.length_drop]
        omega), ?_⟩
      intro c2 hc2
      exact (arityOk_mk.mp hchildArity).2 c2 (List.mem_of_mem_drop hc2)
  · simp only [BNode.keys_mk]
    intro hcna
    rw [List.take_eq_nil_iff] at hcna
    rcases hcna with h | h
    · omega
    · rw [h] at hmidlt; simp at hmidlt
  · simp only [BNode.keys_mk]
    intro hcna
    rw [List.drop_eq_nil_iff] at hcna
    omega
  · -- the left half has non-empty strict descendants
    rw [subNonempty_mk]
    intro c2 hc2
    have hmem : c2 ∈ ccs := by
      by_cases h : (BNode.mk cks ccs).isLeaf = true
      · rw [if_pos h] at hc2; exact hc2
      · rw [if_neg h] at hc2; exact List.mem_of_mem_take hc2
    exact (subNonempty_mk.mp hchildInfo.2) c2 hmem
  · rw [subNonempty_mk]
    intro c2 hc2
    have hmem : c2 ∈ ccs := by
      by_cases h : (BNode.mk cks ccs).isLeaf = true
      · rw [if_pos h] at hc2; simp at hc2
      · rw [if_neg h] at hc2; exact List.mem_of_mem_drop hc2
    exact (subNonempty_mk.mp hchildInfo.2) c2 hmem
  · -- depth of the halves
    intro e he
    cases hccs : ccs with
    | nil =>
      subst hccs
      rw [leavesAt_leaf] at he
      simp only [BNode.isLeaf, BNode.children_mk, List.isEmpty_nil, if_true]
      exact ⟨leavesAt_leaf.mpr he, leavesAt_leaf.mpr he⟩
    | cons cc0 ccs0 =>
      subst hccs
      have hcarity : (cc0 :: ccs0).length = cks.length + 1 := by
        rcases (arityOk_mk.mp hchildArity).1 with h | h
        · simp at h
        · exact h
      obtain ⟨e0, hee, hall⟩ := (leavesAt_mk (by simp)).mp he
      simp only [BNode.isLeaf, BNode.children_mk, List.isEmpty_cons, Bool.false_eq_true,
        if_false]
      constructor
      · rw [leavesAt_mk (by simp)]
        exact ⟨e0, hee, fun c2 hc2 => hall c2 (List.mem_of_mem_take hc2)⟩
      · rw [leavesAt_mk (by
          intro hnil
          rw [List.drop_eq_nil_iff] at hnil
          omega)]
        exact ⟨e0, hee, fun c2 hc2 => hall c2 (List.mem_of_mem_drop hc2)⟩


theorem take_append_left {l1 l2 : List α} {n : Nat} (h : l1.length = n) :
    (l1 ++ l2).take n = l1 := by
  subst h
  exact List.take_left _ _

theorem drop_append_left {l1 l2 : List α} {n : Nat} (h : l1.length = n) :
    (l1 ++ l2).drop n = l2 := by
  subst h
  exact List.drop_left _ _

theorem insertIdx_eq_take_cons_drop {l : List α} {i : Nat} (a : α) (h : i ≤ l.length) :
    l.insertIdx i a = l.take i ++ a :: l.drop i := by
  induction l generalizing i with
  | nil =>
    have : i = 0 := by simpa using h
    subst this
    simp
  | cons x xs ih =>
    cases i with
    | zero => simp
    | succ i =>
      rw [List.insertIdx_succ_cons, ih (by simpa using h)]
      simp

/-- `find_insertion_index` characterisation: everything before the index is
strictly below the key, the element at the index (if any) is not below it. -/
theorem findInsertionIndex_spec (cmp : α → α → Ordering) (l : List α) (key : α) :
    findInsertionIndex cmp l key ≤ l.length ∧
      (∀ x ∈ l.take (findInsertionIndex cmp l key), cmp x key = .lt) ∧
      (∀ x, l.get? (findInsertionIndex cmp l key) = some x → cmp x key ≠ .lt) := by
  rw [findInsertionIndex]
  cases hsearch : binarySearchBy (fun k => cmp k key) l with
  | found j =>
    obtain ⟨hlo, x, hx, hxeq⟩ := binarySearchBy_found_spec _ l j hsearch
    have hj : j < l.length := by
      rw [List.get?_eq_getElem?] at hx
      by_contra hc
      rw [List.getElem?_eq_none (by omega)] at hx
      cases hx
    refine ⟨by simpa [SearchResult.index] using Nat.le_of_lt hj, by simpa [SearchResult.index] using hlo, ?_⟩
    intro y hy
    simp only [SearchResult.index] at hy
    rw [hy] at hx
    cases hx
    simp [hxeq]
  | notFound j =>
    obtain ⟨hlo, hle, hgt⟩ := binarySearchBy_notFound_spec _ l j hsearch
    refine ⟨by simpa [SearchResult.index] using hle, by simpa [SearchResult.index] using hlo, ?_⟩
    intro y hy
    simp only [SearchResult.index] at hy
    rw [hgt y hy]
    simp

/-- In a sorted list headed by an element not below `key`, the key is not
above anything. -/
theorem sorted_cons_all_ge {cmp : α → α → Ordering} [Batteries.TransCmp cmp]
    {key k : α} {l : List α} (hs : SortedCmp cmp (k :: l)) (hk : cmp k key ≠ .lt) :
    ∀ x ∈ k :: l, cmp key x ≠ .gt := by
  intro x hx
  have hkk : cmp key k ≠ .gt := by
    intro hcon
    exact hk (Batteries.OrientedCmp.cmp_eq_gt.mp hcon)
  rcases List.mem_cons.mp hx with h | h
  · exact h ▸ hkk
  · exact Batteries.TransCmp.le_trans hkk ((List.pairwise_cons.mp hs).1 x h)

/-! ## The insertion predicate -/

/-- `new` is `old` with `key` inserted at a sorted position: the prefix is
not above the key, the suffix is not below it. -/
def InsertedAt (cmp : α → α → Ordering) (key : α) (old new : List α) : Prop :=
  ∃ l1 l2, old = l1 ++ l2 ∧ new = l1 ++ key :: l2 ∧
    (∀ x ∈ l1, cmp x key ≠ .gt) ∧ (∀ x ∈ l2, cmp key x ≠ .gt)

theorem InsertedAt.perm {cmp : α → α → Ordering} {key : α} {old new : List α}
    (h : InsertedAt cmp key old new) : new.Perm (key :: old) := by
  obtain ⟨l1, l2, h1, h2, _, _⟩ := h
  rw [h1, h2]
  exact List.perm_middle

theorem InsertedAt.length {cmp : α → α → Ordering} {key : α} {old new : List α}
    (h : InsertedAt cmp key old new) : new.length = old.length + 1 := by
  rw [h.perm.length_eq]
  simp

theorem InsertedAt.sorted {cmp : α → α → Ordering} [Batteries.TransCmp cmp]
    {key : α} {old new : List α}
    (h : InsertedAt cmp key old new) (hs : SortedCmp cmp old) : SortedCmp cmp new := by
  obtain ⟨l1, l2, h1, h2, hb1, hb2⟩ := h
  subst h1 h2
  rw [SortedCmp, List.pairwise_append] at hs ⊢
  refine ⟨hs.1, ?_, ?_⟩
  · rw [List.pairwise_cons]
    exact ⟨hb2, hs.2.1⟩
  · intro x hx y hy
    rcases List.mem_cons.mp hy with hyk | hyl
    · exact hyk ▸ hb1 x hx
    · exact hs.2.2 x hx y hyl

theorem InsertedAt.extend {cmp : α → α → Ordering} {key : α} {M M2 L R : List α}
    (h : InsertedAt cmp key M M2)
    (hL : ∀ x ∈ L, cmp x key ≠ .gt) (hR : ∀ x ∈ R, cmp key x ≠ .gt) :
    InsertedAt cmp key (L ++ M ++ R) (L ++ M2 ++ R) := by
  obtain ⟨l1, l2, h1, h2, hb1, hb2⟩ := h
  subst h1 h2
  refine ⟨L ++ l1, l2 ++ R, by simp, by simp, ?_, ?_⟩
  · intro x hx
    rcases List.mem_append.mp hx with h | h
    · exact hL x h
    · exact hb1 x h
  · intro x hx
    rcases List.mem_append.mp hx with h | h
    · exact hb2 x h
    · exact hR x h


/-- The node-level split specification in canonical form: the split node is
the original with child `i` replaced by its two halves and the separator
spliced into the keys; the flattening is unchanged. -/
theorem splitChild_node {P : BTreeProperties}
    {ks : List α} {cs : List (BNode α)} {i : Nat} {child : BNode α}
    (harity : cs.length = ks.length + 1) (hile : i ≤ ks.length)
    (hc : cs.get? i = some child)
    (hfull : P.maxKeys ≤ child.keys.length)
    (hmid1 : 1 ≤ P.midKeyIndex) (hmid2 : P.midKeyIndex + 2 ≤ P.maxKeys)
    (haOk : arityOk (BNode.mk ks cs) = true)
    (hne : subNonempty (BNode.mk ks cs) = true) :
    ∃ leftN rightN middle,
      splitChild P (BNode.mk ks cs) i =
        BNode.mk (ks.take i ++ middle :: ks.drop i)
          (cs.take i ++ leftN :: rightN :: cs.drop (i + 1)) ∧
      child.keys.get? P.midKeyIndex = some middle ∧
      inorder leftN ++ middle :: inorder rightN = inorder child ∧
      inorder (splitChild P (BNode.mk ks cs) i) = inorderZip cs ks ∧
      arityOk (splitChild P (BNode.mk ks cs) i) = true ∧
      subNonempty (splitChild P (BNode.mk ks cs) i) = true ∧
      (∀ d, leavesAt (BNode.mk ks cs) d = true →
        leavesAt (splitChild P (BNode.mk ks cs) i) d = true) ∧
      arityOk leftN = true ∧ arityOk rightN = true ∧
      subNonempty leftN = true ∧ subNonempty rightN = true ∧
      leftN.keys ≠ [] ∧ rightN.keys ≠ [] ∧
      (∀ e, leavesAt child e = true → leavesAt leftN e = true ∧ leavesAt rightN e = true) := by
  obtain ⟨leftN, rightN, middle, heq, hmid, hflat, hlenL, hlenR, haL, haR, hneL, hneR,
    hsubL, hsubR, hlv⟩ :=
    splitChild_spec harity hile hc hfull hmid1 hmid2 haOk hne
  have hic : i < cs.length := by omega
  have hlt1 : (cs.take i).length = i := List.length_take_of_le (by omega)
  have hlt2 : (ks.take i).length = i := List.length_take_of_le (by omega)
  -- canonical form of the children list
  have hset : cs.set i leftN = cs.take i ++ leftN :: cs.drop (i + 1) :=
    List.set_eq_take_cons_drop leftN hic
  have hcs2 : (cs.set i leftN).insertIdx (i + 1) rightN =
      cs.take i ++ leftN :: rightN :: cs.drop (i + 1) := by
    rw [hset, insertIdx_eq_take_cons_drop rightN
      (by simp only [List.length_append, List.length_cons, hlt1]; omega)]
    have ht : (cs.take i ++ leftN :: cs.drop (i + 1)).take (i + 1) =
        cs.take i ++ [leftN] := by
      rw [show i + 1 = (cs.take i).length + 1 by rw [hlt1], List.take_append]
      simp
    have hd : (cs.take i ++ leftN :: cs.drop (i + 1)).drop (i + 1) = cs.drop (i + 1) := by
      rw [show i + 1 = (cs.take i).length + 1 by rw [hlt1], List.drop_append]
      simp
    rw [ht, hd]
    simp
  have hks2 : ks.insertIdx i middle = ks.take i ++ middle :: ks.drop i :=
    insertIdx_eq_take_cons_drop middle hile
  have heq2 : splitChild P (BNode.mk ks cs) i =
      BNode.mk (ks.take i ++ middle :: ks.drop i)
        (cs.take i ++ leftN :: rightN :: cs.drop (i + 1)) := by
    rw [heq, hks2, hcs2]
  -- the flattening is unchanged
  have hflat2 : inorder (splitChild P (BNode.mk ks cs) i) = inorderZip cs ks := by
    rw [heq2, inorder_mk]
    rw [inorderZip_append _ _ _ (by rw [hlt1]; simp [hlt2])]
    rw [hlt1]
    have htk : (ks.take i ++ middle :: ks.drop i).take i = ks.take i :=
      take_append_left hlt2
    have hdk : (ks.take i ++ middle :: ks.drop i).drop i = middle :: ks.drop i :=
      drop_append_left hlt2
    rw [htk, hdk, inorderZip_cons_cons]
    conv_rhs => rw [inorderZip_take_drop i cs ks hile (by omega)]
    congr 1
    rw [List.drop_eq_getElem_cons hic]
    have hcel : cs[i] = child := by
      rw [List.get?_eq_getElem?] at hc
      simpa using (List.getElem?_eq_some_iff.mp (by simpa using hc)).2
    rw [hcel]
    cases hdk2 : ks.drop i with
    | nil =>
      have hieq : i = ks.length := by
        have := congrArg List.length hdk2
        simp at this
        omega
      have hdc : cs.drop (i + 1) = [] := by simp; omega
      rw [hdc]
      rw [inorderZip_cons_nil, inorderZip_cons_nil]
      simp [← hflat]
    | cons ki krest =>
      rw [inorderZip_cons_cons, inorderZip_cons_cons]
      rw [← hflat]
      simp
  refine ⟨leftN, rightN, middle, heq2, hmid, hflat, hflat2, ?_, ?_, ?_, haL, haR,
    hsubL, hsubR, hneL, hneR, hlv⟩
  · -- arity of the split node
    rw [heq2, arityOk_mk]
    constructor
    · refine .inr ?_
      simp [hlt1, hlt2]
      omega
    · intro c2 hc2
      have : c2 = leftN ∨ c2 = rightN ∨ c2 ∈ cs := by
        rcases List.mem_append.mp hc2 with h | h
        · exact .inr (.inr (List.mem_of_mem_take h))
        · rcases List.mem_cons.mp h with h | h
          · exact .inl h
          · rcases List.mem_cons.mp h with h | h
            · exact .inr (.inl h)
            · exact .inr (.inr (List.mem_of_mem_drop h))
      rcases this with h | h | h
      · exact h ▸ haL
      · exact h ▸ haR
      · exact (arityOk_mk.mp haOk).2 c2 h
  · -- strict descendants of the split node are non-empty
    rw [heq2, subNonempty_mk]
    intro c2 hc2
    have : c2 = leftN ∨ c2 = rightN ∨ c2 ∈ cs := by
      rcases List.mem_append.mp hc2 with h | h
      · exact .inr (.inr (List.mem_of_mem_take h))
      · rcases List.mem_cons.mp h with h | h
        · exact .inl h
        · rcases List.mem_cons.mp h with h | h
          · exact .inr (.inl h)
          · exact .inr (.inr (List.mem_of_mem_drop h))
    rcases this with h | h | h
    · exact h ▸ ⟨hneL, hsubL⟩
    · exact h ▸ ⟨hneR, hsubR⟩
    · exact (subNonempty_mk.mp hne) c2 h
  · -- depths are unchanged
    intro d hd
    have hcsne : cs ≠ [] := by
      intro h
      rw [h] at harity
      simp at harity
    obtain ⟨e, hde, hall⟩ := (leavesAt_mk hcsne).mp hd
    have hchild_lv := hall child (get?_mem hc)
    rw [heq2]
    rw [leavesAt_mk (by simp)]
    refine ⟨e, hde, ?_⟩
    intro c2 hc2
    have : c2 = leftN ∨ c2 = rightN ∨ c2 ∈ cs := by
      rcases List.mem_append.mp hc2 with h | h
      · exact .inr (.inr (List.mem_of_mem_take h))
      · rcases List.mem_cons.mp h with h | h
        · exact .inl h
        · rcases List.mem_cons.mp h with h | h
          · exact .inr (.inl h)
          · exact .inr (.inr (List.mem_of_mem_drop h))
    rcases this with h | h | h
    · exact h ▸ (hlv e hchild_lv).1
    · exact h ▸ (hlv e hchild_lv).2
    · exact hall c2 h


theorem get?_append_cons {l1 l2 : List α} {a : α} {n : Nat} (h : l1.length = n) :
    (l1 ++ a :: l2).get? n = some a := by
  subst h
  rw [List.get?_eq_getElem?, List.getElem?_append_right (by omega)]
  simp

theorem get?_append_cons_succ (l1 : List α) (a : α) (l2 : List α) (k : Nat)
    {n : Nat} (h : l1.length = n) :
    (l1 ++ a :: l2).get? (n + 1 + k) = l2.get? k := by
  subst h
  rw [List.get?_eq_getElem?, List.getElem?_append_right (by omega)]
  have hidx : l1.length + 1 + k - l1.length = k + 1 := by omega
  rw [hidx, List.get?_eq_getElem?]
  simp

/-- Descent decomposition at a `find_insertion_index` position: the lower
part is strictly below the key, the upper part is not below it. -/
theorem descend_decomp_le {cmp : α → α → Ordering} [Batteries.TransCmp cmp]
    {ks : List α} {cs : List (BNode α)} {key : α} {i : Nat} {c : BNode α}
    (harity : cs.length = ks.length + 1)
    (hs : SortedCmp cmp (inorderZip cs ks))
    (hile : i ≤ ks.length)
    (hlo : ∀ x ∈ ks.take i, cmp x key = .lt)
    (hhi : ∀ x, ks.get? i = some x → cmp x key ≠ .lt)
    (hc : cs.get? i = some c) :
    ∃ L R,
      (∀ cNew, inorderZip (cs.set i cNew) ks = L ++ inorder cNew ++ R) ∧
      inorderZip cs ks = L ++ inorder c ++ R ∧
      (∀ x ∈ L, cmp x key = .lt) ∧ (∀ x ∈ R, cmp key x ≠ .gt) := by
  obtain ⟨L, R, hset, hsplit, hL, hR⟩ := slot_decomp harity hile hc
  refine ⟨L, R, hset, hsplit, ?_, ?_⟩
  · intro x hx
    have hsL : SortedCmp cmp L := by
      rw [hsplit, SortedCmp, List.pairwise_append] at hs
      exact (List.pairwise_append.mp hs.1).1
    refine inorderZip_all_lt (cs.take i) (ks.take i) ?_ (hL ▸ hsL) hlo x (hL ▸ hx)
    rw [List.length_take_of_le (by omega), List.length_take_of_le (by omega)]
  · intro x hx
    rcases Nat.lt_or_ge i ks.length with hlt | hge
    · obtain ⟨ki, hki, hRform⟩ := hR.1 hlt
      have hkige : cmp ki key ≠ .lt := hhi ki hki
      have hsR : SortedCmp cmp R := by
        rw [hsplit] at hs
        exact (List.pairwise_append.mp hs).2.1
      rw [hRform] at hsR hx
      exact sorted_cons_all_ge hsR hkige x hx
    · have hieq : i = ks.length := by omega
      rw [hR.2 hieq] at hx
      simp at hx

/-- The full specification of `insert_non_full` on a well-formed subtree:
the flattening gains exactly the key at a sorted position, shape, subtree
non-emptiness and leaf depths are preserved, and the key count does not
shrink. -/
theorem insertNonFull_spec {cmp : α → α → Ordering} [Batteries.TransCmp cmp]
    {P : BTreeProperties}
    (hmid1 : 1 ≤ P.midKeyIndex) (hmid2 : P.midKeyIndex + 2 ≤ P.maxKeys) :
    ∀ (fuel : Nat) (node : BNode α) (key : α) (d : Nat),
      NodeWF cmp node → leavesAt node d = true → d ≤ fuel →
      InsertedAt cmp key (inorder node) (inorder (insertNonFull cmp P fuel node key)) ∧
      NodeWF cmp (insertNonFull cmp P fuel node key) ∧
      leavesAt (insertNonFull cmp P fuel node key) d = true ∧
      node.keys.length ≤ (insertNonFull cmp P fuel node key).keys.length := by
  intro fuel
  induction fuel with
  | zero =>
    intro node key d _ hlv hd
    have h1 := leavesAt_pos hlv
    exact absurd hd (by omega)
  | succ fuel ih =>
    intro node key d hWF hlv hd
    obtain ⟨ks, cs⟩ := node
    obtain ⟨hidxle, hidxlo, hidxhi⟩ := findInsertionIndex_spec cmp ks key
    rw [insertNonFull]
    simp only [BNode.keys_mk, BNode.children_mk]
    cases hcs : cs with
    | nil =>
      subst hcs
      simp only [BNode.isLeaf, BNode.children_mk, List.isEmpty_nil, if_true]
      have hsortk : SortedCmp cmp ks := by simpa using hWF.2.2
      have hins : InsertedAt cmp key ks
          (ks.insertIdx (findInsertionIndex cmp ks key) key) := by
        rw [insertIdx_eq_take_cons_drop key hidxle]
        refine ⟨ks.take (findInsertionIndex cmp ks key),
          ks.drop (findInsertionIndex cmp ks key),
          (List.take_append_drop _ ks).symm, rfl, ?_, ?_⟩
        · intro x hx
          rw [hidxlo x hx]
          simp
        · intro x hx
          cases hdk : ks.drop (findInsertionIndex cmp ks key) with
          | nil => rw [hdk] at hx; simp at hx
          | cons k0 rest =>
            rw [hdk] at hx
            have hk0 : ks.get? (findInsertionIndex cmp ks key) = some k0 := by
              have h0 : (ks.drop (findInsertionIndex cmp ks key))[0]? = some k0 := by
                rw [hdk]; simp
              rw [List.getElem?_drop] at h0
              rw [List.get?_eq_getElem?]
              simpa using h0
            have hsd : SortedCmp cmp (k0 :: rest) := by
              rw [← hdk]
              exact hsortk.sublist (List.drop_sublist _ _)
            exact sorted_cons_all_ge hsd (hidxhi k0 hk0) x hx
      refine ⟨by simpa using hins, ⟨?_, ?_, ?_⟩, ?_, ?_⟩
      · rw [arityOk_mk]
        exact ⟨.inl rfl, by simp⟩
      · rw [subNonempty_mk]
        simp
      · simpa using hins.sorted (by simpa using hWF.2.2)
      · rw [leavesAt_leaf] at hlv
        simpa [leavesAt_leaf] using hlv
      · simp only [BNode.keys_mk]
        rw [hins.length]
        omega
    | cons c0 cs0 =>
      subst hcs
      simp only [BNode.isLeaf, BNode.children_mk, List.isEmpty_cons, Bool.false_eq_true,
        if_false]
      have harity : (c0 :: cs0).length = ks.length + 1 := by
        rcases (arityOk_mk.mp hWF.1).1 with h | h
        · simp at h
        · exact h
      obtain ⟨child, hc⟩ : ∃ c, (c0 :: cs0).get? (findInsertionIndex cmp ks key) = some c :=
        get?_lt_length (by omega)
      simp only [hc]
      obtain ⟨e, hde, hall⟩ := (leavesAt_mk (by simp)).mp hlv
      have hcWF := hWF.child (by simpa using get?_mem hc)
      cases hfull : isFull P child with
      | false =>
        simp only [hfull, Bool.false_eq_true, if_false]
        obtain ⟨hIA, hWF2, hlv2, hlen2⟩ :=
          ih child key e hcWF.1 (hall child (get?_mem hc)) (by omega)
        obtain ⟨L, R, hsetEq, hsplit, hL, hR⟩ :=
          descend_decomp_le harity (by simpa using hWF.2.2) hidxle hidxlo hidxhi hc
        have hIA2 : InsertedAt cmp key (L ++ inorder child ++ R)
            (L ++ inorder (insertNonFull cmp P fuel child key) ++ R) :=
          hIA.extend (fun x hx => by rw [hL x hx]; simp) hR
        refine ⟨?_, ⟨?_, ?_, ?_⟩, ?_, ?_⟩
        · simp only [BNode.keys_mk, BNode.children_mk, inorder_mk]
          rw [hsetEq, hsplit]
          exact hIA2
        · rw [arityOk_mk]
          constructor
          · refine .inr ?_
            simp only [List.length_set]
            exact harity
          · intro c2 hc2
            rcases List.mem_or_eq_of_mem_set hc2 with h | h
            · exact (arityOk_mk.mp hWF.1).2 c2 h
            · exact h ▸ hWF2.1
        · rw [subNonempty_mk]
          intro c2 hc2
          rcases List.mem_or_eq_of_mem_set hc2 with h | h
          · exact (subNonempty_mk.mp hWF.2.1) c2 h
          · refine h ▸ ⟨?_, hWF2.2.1⟩
            have : 1 ≤ child.keys.length := by
              have := hcWF.2
              cases hk : child.keys
              · exact absurd hk hcWF.2
              · simp [hk]
            intro hnil
            rw [← List.length_eq_zero] at hnil
            omega
        · have hs2 : SortedCmp cmp (L ++ inorder (insertNonFull cmp P fuel child key) ++ R) :=
            hIA2.sorted (by rw [← hsplit]; simpa using hWF.2.2)
          simp only [BNode.keys_mk, BNode.children_mk, inorder_mk]
          rw [hsetEq]
          exact hs2
        · rw [leavesAt_mk (by simp)]
          refine ⟨e, hde, ?_⟩
          intro c2 hc2
          rcases List.mem_or_eq_of_mem_set hc2 with h | h
          · exact hall c2 h
          · exact h ▸ hlv2
        · simp
      | true =>
        simp only [hfull, if_true]
        have hfull2 : P.maxKeys ≤ child.keys.length := by
          rw [isFull] at hfull
          simpa using hfull
        obtain ⟨leftN, rightN, middle, heq2, hmid, hflat, hflat2, haOk2, hne2, hlvSplit,
          haL, haR, hsubL, hsubR, hneL, hneR, hlvHalves⟩ :=
          splitChild_node harity hidxle hc hfull2 hmid1 hmid2 hWF.1 hWF.2.1
        rw [heq2] at hflat2 haOk2 hne2 hlvSplit ⊢
        simp only [BNode.keys_mk, BNode.children_mk]
        rw [inorder_mk] at hflat2
        have hlt2 : (ks.take (findInsertionIndex cmp ks key)).length =
            findInsertionIndex cmp ks key := List.length_take_of_le hidxle
        have hltc : ((c0 :: cs0).take (findInsertionIndex cmp ks key)).length =
            findInsertionIndex cmp ks key := List.length_take_of_le (by omega)
        have hks2i : (ks.take (findInsertionIndex cmp ks key) ++
            middle :: ks.drop (findInsertionIndex cmp ks key)).get?
            (findInsertionIndex cmp ks key) = some middle := get?_append_cons hlt2
        have hcs2i : ((c0 :: cs0).take (findInsertionIndex cmp ks key) ++
            leftN :: rightN :: (c0 :: cs0).drop (findInsertionIndex cmp ks key + 1)).get?
            (findInsertionIndex cmp ks key) = some leftN := get?_append_cons hltc
        have hcs2i1 : ((c0 :: cs0).take (findInsertionIndex cmp ks key) ++
            leftN :: rightN :: (c0 :: cs0).drop (findInsertionIndex cmp ks key + 1)).get?
            (findInsertionIndex cmp ks key + 1) =
            some rightN := by
          have := get?_append_cons_succ ((c0 :: cs0).take (findInsertionIndex cmp ks key))
            leftN (rightN :: (c0 :: cs0).drop (findInsertionIndex cmp ks key + 1)) 0 hltc
          simpa using this
        rw [splitDescentIndex.eq_def]
        simp only [hks2i]
        have harity2 : ((c0 :: cs0).take (findInsertionIndex cmp ks key) ++
            leftN :: rightN :: (c0 :: cs0).drop (findInsertionIndex cmp ks key + 1)).length =
            (ks.take (findInsertionIndex cmp ks key) ++
              middle :: ks.drop (findInsertionIndex cmp ks key)).length + 1 := by
          have h9 : cs0.length + 1 = ks.length + 1 := by simpa using harity
          simp only [List.length_append, List.length_cons, List.length_drop, hlt2, hltc]
          omega
        have hsorted2 : SortedCmp cmp
            (inorderZip ((c0 :: cs0).take (findInsertionIndex cmp ks key) ++
                leftN :: rightN :: (c0 :: cs0).drop (findInsertionIndex cmp ks key + 1))
              (ks.take (findInsertionIndex cmp ks key) ++
                middle :: ks.drop (findInsertionIndex cmp ks key))) := by
          rw [hflat2]
          simpa using hWF.2.2
        have hsortedChild : SortedCmp cmp
            (inorder leftN ++ middle :: inorder rightN) := by
          rw [hflat]
          exact hcWF.1.2.2
        have hWFleft : NodeWF cmp leftN :=
          ⟨haL, hsubL, (List.pairwise_append.mp hsortedChild).1⟩
        have hWFright : NodeWF cmp rightN :=
          ⟨haR, hsubR,
            (List.pairwise_cons.mp (List.pairwise_append.mp hsortedChild).2.1).2⟩
        have hlvChild := hall child (get?_mem hc)
        by_cases hmidlt : cmp middle key = .lt
        · -- descend into the right half
          rw [if_pos hmidlt]
          simp only [hcs2i1]
          obtain ⟨hIA, hWF2, hlv2r, hlen2⟩ :=
            ih rightN key e hWFright (hlvHalves e hlvChild).2 (by omega)
          obtain ⟨L2, R2, hsetEq2, hsplit2, hL2, hR2⟩ :=
            descend_decomp_le harity2 hsorted2
              (by simp only [List.length_append, List.length_cons, hlt2]; omega)
              (by
                intro x hx
                have ht : (ks.take (findInsertionIndex cmp ks key) ++
                    middle :: ks.drop (findInsertionIndex cmp ks key)).take
                    (findInsertionIndex cmp ks key + 1) =
                    ks.take (findInsertionIndex cmp ks key) ++ [middle] := by
                  rw [show findInsertionIndex cmp ks key + 1 =
                    (ks.take (findInsertionIndex cmp ks key)).length + 1 by rw [hlt2],
                    List.take_append]
                  simp
                rw [ht] at hx
                rcases List.mem_append.mp hx with h | h
                · exact hidxlo x h
                · simp at h
                  exact h ▸ hmidlt)
              (by
                intro x hx
                have hgq : (ks.take (findInsertionIndex cmp ks key) ++
                    middle :: ks.drop (findInsertionIndex cmp ks key)).get?
                    (findInsertionIndex cmp ks key + 1) =
                    ks.get? (findInsertionIndex cmp ks key) := by
                  have := get?_append_cons_succ (ks.take (findInsertionIndex cmp ks key))
                    middle (ks.drop (findInsertionIndex cmp ks key)) 0 hlt2
                  simp only [Nat.add_zero] at this
                  rw [this]
                  rw [List.get?_eq_getElem?, List.getElem?_drop, List.get?_eq_getElem?]
                  simp
                rw [hgq] at hx
                exact hidxhi x hx)
              hcs2i1
          have hinorderSplitEq : inorderZip ((c0 :: cs0).take (findInsertionIndex cmp ks key) ++
              leftN :: rightN :: (c0 :: cs0).drop (findInsertionIndex cmp ks key + 1))
              (ks.take (findInsertionIndex cmp ks key) ++
                middle :: ks.drop (findInsertionIndex cmp ks key)) =
              inorderZip (c0 :: cs0) ks := hflat2
          refine ⟨?_, ⟨?_, ?_, ?_⟩, ?_, ?_⟩
          · simp only [inorder_mk]
            rw [hsetEq2, ← hinorderSplitEq, hsplit2]
            exact hIA.extend (fun x hx => by rw [hL2 x hx]; simp) hR2
          · rw [arityOk_mk]
            constructor
            · refine .inr ?_
              simp only [List.length_set]
              exact harity2
            · intro c2 hc2
              rcases List.mem_or_eq_of_mem_set hc2 with h | h
              · exact (arityOk_mk.mp haOk2).2 c2 h
              · exact h ▸ hWF2.1
          · rw [subNonempty_mk]
            intro c2 hc2
            rcases List.mem_or_eq_of_mem_set hc2 with h | h
            · exact (subNonempty_mk.mp hne2) c2 h
            · refine h ▸ ⟨?_, hWF2.2.1⟩
              have h1 : 1 ≤ rightN.keys.length := by
                cases hk : rightN.keys
                · exact absurd hk hneR
                · simp [hk]
              intro hnil
              rw [← List.length_eq_zero] at hnil
              omega
          · have hs3 : SortedCmp cmp
                (L2 ++ inorder (insertNonFull cmp P fuel rightN key) ++ R2) := by
              refine InsertedAt.sorted
                (hIA.extend (fun x hx => by rw [hL2 x hx]; simp) hR2) ?_
              rw [← hsplit2, hinorderSplitEq]
              simpa using hWF.2.2
            simp only [inorder_mk]
            rw [hsetEq2]
            exact hs3
          · obtain ⟨e2, hde2, hall2⟩ := (leavesAt_mk (by
              intro hnil
              have := congrArg List.length hnil
              simp at this)).mp (hlvSplit d hlv)
            have hee2 : e2 = e := by omega
            subst hee2
            rw [leavesAt_mk (by simp)]
            refine ⟨e2, hde2, ?_⟩
            intro c2 hc2
            rcases List.mem_or_eq_of_mem_set hc2 with h | h
            · exact hall2 c2 h
            · exact h ▸ hlv2r
          · simp only [BNode.keys_mk, List.length_append, List.length_cons, hlt2,
              List.length_drop]
            omega
        · -- stay in the left half
          rw [if_neg hmidlt]
          simp only [hcs2i]
          obtain ⟨hIA, hWF2, hlv2l, hlen2⟩ :=
            ih leftN key e hWFleft (hlvHalves e hlvChild).1 (by omega)
          obtain ⟨L2, R2, hsetEq2, hsplit2, hL2, hR2⟩ :=
            descend_decomp_le harity2 hsorted2
              (by simp only [List.length_append, List.length_cons, hlt2]; omega)
              (by
                intro x hx
                rw [take_append_left hlt2] at hx
                exact hidxlo x hx)
              (by
                intro x hx
                rw [hks2i] at hx
                cases hx
                exact hmidlt)
              hcs2i
          have hinorderSplitEq : inorderZip ((c0 :: cs0).take (findInsertionIndex cmp ks key) ++
              leftN :: rightN :: (c0 :: cs0).drop (findInsertionIndex cmp ks key + 1))
              (ks.take (findInsertionIndex cmp ks key) ++
                middle :: ks.drop (findInsertionIndex cmp ks key)) =
              inorderZip (c0 :: cs0) ks := hflat2
          refine ⟨?_, ⟨?_, ?_, ?_⟩, ?_, ?_⟩
          · simp only [inorder_mk]
            rw [hsetEq2, ← hinorderSplitEq, hsplit2]
            exact hIA.extend (fun x hx => by rw [hL2 x hx]; simp) hR2
          · rw [arityOk_mk]
            constructor
            · refine .inr ?_
              simp only [List.length_set]
              exact harity2
            · intro c2 hc2
              rcases List.mem_or_eq_of_mem_set hc2 with h | h
              · exact (arityOk_mk.mp haOk2).2 c2 h
              · exact h ▸ hWF2.1
          · rw [subNonempty_mk]
            intro c2 hc2
            rcases List.mem_or_eq_of_mem_set hc2 with h | h
            · exact (subNonempty_mk.mp hne2) c2 h
            · refine h ▸ ⟨?_, hWF2.2.1⟩
              have h1 : 1 ≤ leftN.keys.length := by
                cases hk : leftN.keys
                · exact absurd hk hneL
                · simp [hk]
              intro hnil
              rw [← List.length_eq_zero] at hnil
              omega
          · have hs3 : SortedCmp cmp
                (L2 ++ inorder (insertNonFull cmp P fuel leftN key) ++ R2) := by
              refine InsertedAt.sorted
                (hIA.extend (fun x hx => by rw [hL2 x hx]; simp) hR2) ?_
              rw [← hsplit2, hinorderSplitEq]
              simpa using hWF.2.2
            simp only [inorder_mk]
            rw [hsetEq2]
            exact hs3
          · obtain ⟨e2, hde2, hall2⟩ := (leavesAt_mk (by
              intro hnil
              have := congrArg List.length hnil
              simp at this)).mp (hlvSplit d hlv)
            have hee2 : e2 = e := by omega
            subst hee2
            rw [leavesAt_mk (by simp)]
            refine ⟨e2, hde2, ?_⟩
            intro c2 hc2
            rcases List.mem_or_eq_of_mem_set hc2 with h | h
            · exact hall2 c2 h
            · exact h ▸ hlv2l
          · simp only [BNode.keys_mk, List.length_append, List.length_cons, hlt2,
              List.length_drop]
            omega

/-! ## Removal: splice bookkeeping -/

/-- `new` is `old` with one occurrence of `x` deleted at its position. -/
def RemovedAt (x : α) (old new : List α) : Prop :=
  ∃ L R, old = L ++ x :: R ∧ new = L ++ R

theorem RemovedAt.frame {x : α} {old new Lp Rp : List α} (h : RemovedAt x old new) :
    RemovedAt x (Lp ++ old ++ Rp) (Lp ++ new ++ Rp) := by
  obtain ⟨L, R, h1, h2⟩ := h
  refine ⟨Lp ++ L, R ++ Rp, ?_, ?_⟩
  · rw [h1]; simp
  · rw [h2]; simp

theorem RemovedAt.erased_sublist {x : α} {old new : List α} (h : RemovedAt x old new) :
    new.Sublist old := by
  obtain ⟨L, R, h1, h2⟩ := h
  rw [h1, h2]
  exact ((R.sublist_cons_self x).append_left L)

theorem RemovedAt.mem {x : α} {old new : List α} (h : RemovedAt x old new) : x ∈ old := by
  obtain ⟨L, R, h1, _⟩ := h
  rw [h1]
  simp

theorem RemovedAt.length_eq {x : α} {old new : List α} (h : RemovedAt x old new) :
    old.length = new.length + 1 := by
  obtain ⟨L, R, h1, h2⟩ := h
  rw [h1, h2]
  simp
  omega

theorem RemovedAt.erased_perm {x : α} {old new : List α} (h : RemovedAt x old new) :
    old.Perm (x :: new) := by
  obtain ⟨L, R, h1, h2⟩ := h
  rw [h1, h2]
  exact List.perm_middle

/-- Interleaving with exactly matching child/key segments concatenates. -/
theorem inorderZip_append_exact : ∀ (cs1 : List (BNode α)) (ks1 : List α)
    (cs2 : List (BNode α)) (ks2 : List α), cs1.length = ks1.length →
    inorderZip (cs1 ++ cs2) (ks1 ++ ks2) = inorderZip cs1 ks1 ++ inorderZip cs2 ks2 := by
  intro cs1
  induction cs1 with
  | nil =>
    intro ks1 cs2 ks2 h
    have : ks1 = [] := by simpa using h.symm
    subst this
    simp
  | cons c cs1 ih =>
    intro ks1 cs2 ks2 h
    cases ks1 with
    | nil => simp at h
    | cons k ks1 =>
      simp only [List.cons_append, inorderZip_cons_cons]
      rw [ih ks1 cs2 ks2 (by simpa using h)]
      simp

/-- Interleaving where the first child segment has one child more than its
key segment: the head of the remaining keys becomes the separator. -/
theorem inorderZip_append_sep : ∀ (cs1 : List (BNode α)) (ks1 : List α) (sep : α)
    (cs2 : List (BNode α)) (ks2 : List α), cs1.length = ks1.length + 1 →
    inorderZip (cs1 ++ cs2) (ks1 ++ sep :: ks2) =
      inorderZip cs1 ks1 ++ sep :: inorderZip cs2 ks2 := by
  intro cs1
  induction cs1 with
  | nil => intro ks1 _ _ _ h; simp at h
  | cons c cs1 ih =>
    intro ks1 sep cs2 ks2 h
    cases ks1 with
    | nil =>
      have : cs1 = [] := by simpa using h
      subst this
      simp [inorderZip_cons_nil]
    | cons k ks1 =>
      simp only [List.cons_append, inorderZip_cons_cons]
      rw [ih ks1 sep cs2 ks2 (by simpa using h)]
      simp

/-- The tail of an interleaving after its leading child. -/
def restZip : List α → List (BNode α) → List α
  | [], cs => inorderZip cs []
  | k :: ks, cs => k :: inorderZip cs ks

theorem inorderZip_cons_restZip (c : BNode α) (cs : List (BNode α)) (ks : List α) :
    inorderZip (c :: cs) ks = inorder c ++ restZip ks cs := by
  cases ks with
  | nil => rw [inorderZip_cons_nil]; rfl
  | cons k ks => rw [inorderZip_cons_cons]; rfl

/-! ## More sortedness facts -/

/-- In a sorted list every element is at most the last one. -/
theorem sorted_le_last {cmp : α → α → Ordering} [Batteries.TransCmp cmp] :
    ∀ {l : List α} {m : α}, SortedCmp cmp l → l.getLast? = some m →
      ∀ x ∈ l, cmp x m ≠ .gt := by
  intro l
  induction l with
  | nil => intro m _ hm; cases hm
  | cons a l ih =>
    intro m hs hm x hx
    cases hl : l with
    | nil =>
      subst hl
      simp at hm hx
      subst hm
      subst hx
      have hrefl : cmp x x = Ordering.eq := Batteries.OrientedCmp.cmp_refl
      simp [hrefl]
    | cons b l2 =>
      subst hl
      have hm2 : (b :: l2).getLast? = some m := by
        rw [List.getLast?_cons_cons] at hm
        exact hm
      have hs2 : SortedCmp cmp (b :: l2) := (SortedCmp.cons_iff.mp hs).2
      rcases List.mem_cons.mp hx with h | h
      · subst h
        have hmm : m ∈ b :: l2 := by
          cases List.getLast?_eq_some_iff.mp hm2 with
          | intro l3 h3 => rw [h3]; simp
        exact (SortedCmp.cons_iff.mp hs).1 m hmm
      · exact ih hs2 hm2 x h

/-- In a sorted list the head is at most every element. -/
theorem sorted_head_le {cmp : α → α → Ordering} [Batteries.TransCmp cmp]
    {l : List α} {m : α} (hs : SortedCmp cmp l) (hm : l.head? = some m) :
    ∀ x ∈ l, cmp m x ≠ .gt := by
  cases l with
  | nil => cases hm
  | cons a l =>
    have hma : a = m := by simpa using hm
    subst hma
    intro x hx
    rcases List.mem_cons.mp hx with h | h
    · subst h
      have hrefl : cmp x x = Ordering.eq := Batteries.OrientedCmp.cmp_refl
      simp [hrefl]
    · exact (SortedCmp.cons_iff.mp hs).1 x h

/-- A list whose elements all equal `a` commutes with a final `[a]`. -/
theorem all_eq_append_singleton {a : α} {l : List α} (h : ∀ y ∈ l, y = a) :
    l ++ [a] = a :: l := by
  induction l with
  | nil => rfl
  | cons b l ih =>
    have hb : b = a := h b (by simp)
    subst hb
    rw [List.cons_append, ih (fun y hy => h y (by simp [hy]))]

/-- Transitivity of comparison equality. -/
theorem cmp_eq_trans {cmp : α → α → Ordering} [Batteries.TransCmp cmp] {x y z : α}
    (h1 : cmp x y = .eq) (h2 : cmp y z = .eq) : cmp x z = .eq := by
  rw [Batteries.TransCmp.cmp_congr_left h1]
  exact h2

/-- A node with keys has a non-empty flattening. -/
theorem inorder_ne_nil {n : BNode α} (h : n.keys ≠ []) : inorder n ≠ [] := by
  obtain ⟨ks, cs⟩ := n
  simp only [BNode.keys_mk] at h
  rw [inorder_mk]
  intro hnil
  have hsub := keys_sublist_inorderZip cs ks
  rw [hnil] at hsub
  exact h (List.sublist_nil.mp hsub)

/-- Converse search characterisation: the notFound bounds force the result. -/
theorem search_eq_notFound {cmp : α → α → Ordering} {key : α} :
    ∀ (l : List α) (j : Nat), j ≤ l.length → (∀ x ∈ l.take j, cmp x key = .lt) →
      (∀ x, l.get? j = some x → cmp x key = .gt) →
      binarySearchBy (fun a => cmp a key) l = .notFound j := by
  intro l
  induction l with
  | nil =>
    intro j hj _ _
    have : j = 0 := Nat.le_zero.mp (by simpa using hj)
    subst this
    simp [binarySearchBy, bsearchGo]
  | cons a l ih =>
    intro j hj hlo hhi
    rw [binarySearchBy_cons]
    cases j with
    | zero =>
      have ha : cmp a key = .gt := hhi a rfl
      simp only [ha]
    | succ j =>
      have ha : cmp a key = .lt := hlo a (by simp)
      simp only [ha]
      rw [ih j (by simpa using hj)
        (fun x hx => hlo x (by rw [List.take_succ_cons]; exact List.mem_cons_of_mem a hx))
        (fun x hx => hhi x (by simpa using hx))]
      simp [SearchResult.shift, Nat.add_comm]

/-! ## The predecessor/successor walks -/

/-- `get_predecessor` returns the last element of the subtree flattening. -/
theorem getPredecessor_spec : ∀ (fuel : Nat) (n : BNode α) (d : Nat),
    arityOk n = true → subNonempty n = true → leavesAt n d = true → d ≤ fuel →
    getPredecessor fuel n = (inorder n).getLast? := by
  intro fuel
  induction fuel with
  | zero =>
    intro n d _ _ hlv hd
    exact absurd hd (by have := leavesAt_pos hlv; omega)
  | succ fuel ih =>
    intro n d ha hne hlv hd
    obtain ⟨ks, cs⟩ := n
    rw [getPredecessor]
    cases hcs : cs with
    | nil =>
      subst hcs
      simp [BNode.isLeaf]
    | cons c0 cs0 =>
      subst hcs
      simp only [BNode.isLeaf, BNode.children_mk, List.isEmpty_cons, Bool.false_eq_true,
        if_false, BNode.keys_mk]
      have harity : (c0 :: cs0).length = ks.length + 1 := by
        rcases (arityOk_mk.mp ha).1 with h | h
        · cases h
        · exact h
      obtain ⟨clast, hclast⟩ : ∃ c, (c0 :: cs0).get? ks.length = some c :=
        get?_lt_length (by omega)
      have hclast2 : (c0 :: cs0).getLast? = some clast := by
        rw [List.getLast?_eq_getElem?]
        rw [List.get?_eq_getElem?] at hclast
        have : (c0 :: cs0).length - 1 = ks.length := by omega
        rw [this]
        exact hclast
      simp only [hclast2]
      obtain ⟨e, hde, hall⟩ := (leavesAt_mk (by simp)).mp hlv
      have hsubc := (subNonempty_mk.mp hne) clast (get?_mem hclast)
      have hac := (arityOk_mk.mp ha).2 clast (get?_mem hclast)
      rw [ih clast e hac hsubc.2 (hall clast (get?_mem hclast)) (by omega)]
      obtain ⟨L, R, _, hsplit, _, hR⟩ := slot_decomp harity (le_refl _) hclast
      rw [inorder_mk, hsplit, hR.2 rfl]
      rw [List.append_nil]
      exact (List.getLast?_append_of_ne_nil _ (inorder_ne_nil hsubc.1)).symm

/-- `get_successor` returns the first element of the subtree flattening. -/
theorem getSuccessor_spec : ∀ (fuel : Nat) (n : BNode α) (d : Nat),
    arityOk n = true → subNonempty n = true → leavesAt n d = true → d ≤ fuel →
    getSuccessor fuel n = (inorder n).head? := by
  intro fuel
  induction fuel with
  | zero =>
    intro n d _ _ hlv hd
    exact absurd hd (by have := leavesAt_pos hlv; omega)
  | succ fuel ih =>
    intro n d ha hne hlv hd
    obtain ⟨ks, cs⟩ := n
    rw [getSuccessor]
    cases hcs : cs with
    | nil =>
      subst hcs
      simp [BNode.isLeaf]
    | cons c0 cs0 =>
      subst hcs
      simp only [BNode.isLeaf, BNode.children_mk, List.isEmpty_cons, Bool.false_eq_true,
        if_false, BNode.keys_mk]
      have hc0 : (c0 :: cs0).get? 0 = some c0 := rfl
      simp only [hc0]
      obtain ⟨e, hde, hall⟩ := (leavesAt_mk (by simp)).mp hlv
      have hsubc := (subNonempty_mk.mp hne) c0 (by simp)
      have hac := (arityOk_mk.mp ha).2 c0 (by simp)
      rw [ih c0 e hac hsubc.2 (hall c0 (by simp)) (by omega)]
      rw [inorder_mk, inorderZip_cons_restZip]
      exact (List.head?_append_of_ne_nil _ (inorder_ne_nil hsubc.1)).symm

/-- `first`'s walk coincides with `get_successor`. -/
theorem firstWalk_eq_getSuccessor : ∀ (fuel : Nat) (n : BNode α),
    firstWalk fuel n = getSuccessor fuel n := by
  intro fuel
  induction fuel with
  | zero => intro n; rfl
  | succ fuel ih =>
    intro n
    rw [firstWalk, getSuccessor]
    cases hl : n.isLeaf
    · simp only [Bool.false_eq_true, if_false]
      cases hc : n.children.get? 0
      · rfl
      · simp only [ih]
    · rfl

/-- `last`'s walk coincides with `get_predecessor`. -/
theorem lastWalk_eq_getPredecessor : ∀ (fuel : Nat) (n : BNode α),
    lastWalk fuel n = getPredecessor fuel n := by
  intro fuel
  induction fuel with
  | zero => intro n; rfl
  | succ fuel ih =>
    intro n
    rw [lastWalk, getPredecessor]
    cases hl : n.isLeaf
    · simp only [Bool.false_eq_true, if_false]
      cases hc : n.children.getLast?
      · rfl
      · simp only [ih]
    · rfl


/-! ## Merging two siblings -/

/-- Shape facts about the node formed by merging two same-depth siblings
around a separator, as `merge_children` builds it. -/
theorem mergedNode_spec {lc rc : BNode α} {e : Nat} (sep : α)
    (halc : arityOk lc = true) (harc : arityOk rc = true)
    (hsl : subNonempty lc = true) (hsr : subNonempty rc = true)
    (hlvl : leavesAt lc e = true) (hlvr : leavesAt rc e = true) :
    inorder (BNode.mk (lc.keys ++ sep :: rc.keys) (lc.children ++ rc.children)) =
      inorder lc ++ sep :: inorder rc ∧
    arityOk (BNode.mk (lc.keys ++ sep :: rc.keys) (lc.children ++ rc.children)) = true ∧
    subNonempty (BNode.mk (lc.keys ++ sep :: rc.keys) (lc.children ++ rc.children)) = true ∧
    leavesAt (BNode.mk (lc.keys ++ sep :: rc.keys) (lc.children ++ rc.children)) e = true := by
  obtain ⟨lk, lcc⟩ := lc
  obtain ⟨rk, rcc⟩ := rc
  simp only [BNode.keys_mk, BNode.children_mk]
  cases hlcc : lcc with
  | nil =>
    subst hlcc
    have he : e = 1 := leavesAt_leaf.mp hlvl
    subst he
    cases hrcc : rcc with
    | cons r0 rs =>
      subst hrcc
      obtain ⟨e2, he2, hall2⟩ := (leavesAt_mk (by simp)).mp hlvr
      have := leavesAt_pos (hall2 r0 (by simp))
      omega
    | nil =>
      subst hrcc
      refine ⟨by simp, ?_, ?_, ?_⟩
      · rw [arityOk_mk]
        simp
      · rw [subNonempty_mk]
        simp
      · simp [leavesAt_leaf]
  | cons l0 ls =>
    subst hlcc
    obtain ⟨e2, he2, hall2⟩ := (leavesAt_mk (by simp)).mp hlvl
    cases hrcc : rcc with
    | nil =>
      subst hrcc
      have h1 := leavesAt_leaf.mp hlvr
      have h2 := leavesAt_pos (hall2 l0 (by simp))
      omega
    | cons r0 rs =>
      subst hrcc
      obtain ⟨e3, he3, hall3⟩ := (leavesAt_mk (by simp)).mp hlvr
      have he23 : e3 = e2 := by omega
      rw [he23] at hall3
      have hla : (l0 :: ls).length = lk.length + 1 := by
        rcases (arityOk_mk.mp halc).1 with h | h
        · cases h
        · exact h
      refine ⟨?_, ?_, ?_, ?_⟩
      · rw [inorder_mk, inorderZip_append_sep _ _ _ _ _ hla]
        simp
      · rw [arityOk_mk]
        refine ⟨.inr ?_, ?_⟩
        · have hra : (r0 :: rs).length = rk.length + 1 := by
            rcases (arityOk_mk.mp harc).1 with h | h
            · cases h
            · exact h
          simp only [List.length_append, List.length_cons] at hla hra ⊢
          omega
        · intro c hc
          rcases List.mem_append.mp hc with h | h
          · exact (arityOk_mk.mp halc).2 c h
          · exact (arityOk_mk.mp harc).2 c h
      · rw [subNonempty_mk]
        intro c hc
        rcases List.mem_append.mp hc with h | h
        · exact (subNonempty_mk.mp hsl) c h
        · exact (subNonempty_mk.mp hsr) c h
      · rw [leavesAt_mk (by simp)]
        refine ⟨e2, he2, ?_⟩
        intro c hc
        rcases List.mem_append.mp hc with h | h
        · exact hall2 c h
        · exact hall3 c h

/-- Canonical decomposition of key and child lists around two adjacent
children and the separator between them. -/
theorem pair_decomp {ks : List α} {cs : List (BNode α)} {i : Nat} {sep : α} {lc rc : BNode α}
    (hk : ks.get? i = some sep) (hcl : cs.get? i = some lc) (hcr : cs.get? (i + 1) = some rc) :
    cs = cs.take i ++ lc :: rc :: cs.drop (i + 2) ∧
    ks = ks.take i ++ sep :: ks.drop (i + 1) ∧
    (cs.take i).length = i ∧ (ks.take i).length = i := by
  have hir : i + 1 < cs.length := by
    rw [List.get?_eq_getElem?] at hcr
    exact (List.getElem?_eq_some_iff.mp (by simpa using hcr)).1
  have hik : i < ks.length := by
    rw [List.get?_eq_getElem?] at hk
    exact (List.getElem?_eq_some_iff.mp (by simpa using hk)).1
  have hd : cs.drop (i + 1) = rc :: cs.drop (i + 2) := by
    rw [List.drop_eq_getElem_cons hir]
    congr 1
    rw [List.get?_eq_getElem?] at hcr
    simpa using (List.getElem?_eq_some_iff.mp (by simpa using hcr)).2
  refine ⟨?_, take_drop_get? hk, ?_, ?_⟩
  · conv_lhs => rw [take_drop_get? hcl]
    rw [hd]
  · exact List.length_take_of_le (by omega)
  · exact List.length_take_of_le (by omega)

/-- Everything `merge_children` guarantees on a well-formed internal node. -/
theorem mergeChildren_spec {ks : List α} {cs : List (BNode α)}
    {i : Nat} {sep : α} {lc rc : BNode α} {d : Nat}
    (hk : ks.get? i = some sep) (hcl : cs.get? i = some lc) (hcr : cs.get? (i + 1) = some rc)
    (haOk : arityOk (BNode.mk ks cs) = true)
    (hne : subNonempty (BNode.mk ks cs) = true)
    (hlv : leavesAt (BNode.mk ks cs) d = true) :
    mergeChildren (BNode.mk ks cs) i =
      BNode.mk (ks.take i ++ ks.drop (i + 1))
        (cs.take i ++
          BNode.mk (lc.keys ++ sep :: rc.keys) (lc.children ++ rc.children) ::
            cs.drop (i + 2)) ∧
    inorder (mergeChildren (BNode.mk ks cs) i) = inorderZip cs ks ∧
    arityOk (mergeChildren (BNode.mk ks cs) i) = true ∧
    subNonempty (mergeChildren (BNode.mk ks cs) i) = true ∧
    leavesAt (mergeChildren (BNode.mk ks cs) i) d = true ∧
    (mergeChildren (BNode.mk ks cs) i).children.get? i =
      some (BNode.mk (lc.keys ++ sep :: rc.keys) (lc.children ++ rc.children)) := by
  obtain ⟨hcs_eq, hks_eq, hlenA, hlenK⟩ := pair_decomp hk hcl hcr
  have hir : i + 1 < cs.length := by
    rw [List.get?_eq_getElem?] at hcr
    exact (List.getElem?_eq_some_iff.mp (by simpa using hcr)).1
  have hik : i < ks.length := by
    rw [List.get?_eq_getElem?] at hk
    exact (List.getElem?_eq_some_iff.mp (by simpa using hk)).1
  have harity : cs.length = ks.length + 1 := by
    rcases (arityOk_mk.mp haOk).1 with h | h
    · rw [h] at hir; simp at hir
    · exact h
  obtain ⟨e, hde, hall⟩ := (leavesAt_mk (by
      intro h; rw [h] at hir; simp at hir)).mp hlv
  have hlcWF := (arityOk_mk.mp haOk).2 lc (get?_mem hcl)
  have hrcWF := (arityOk_mk.mp haOk).2 rc (get?_mem hcr)
  have hlcS := (subNonempty_mk.mp hne) lc (get?_mem hcl)
  have hrcS := (subNonempty_mk.mp hne) rc (get?_mem hcr)
  obtain ⟨hMflat, hMa, hMs, hMl⟩ :=
    mergedNode_spec sep hlcWF hrcWF hlcS.2 hrcS.2
      (hall lc (get?_mem hcl)) (hall rc (get?_mem hcr))
  have heq : mergeChildren (BNode.mk ks cs) i =
      BNode.mk (ks.take i ++ ks.drop (i + 1))
        (cs.take i ++
          BNode.mk (lc.keys ++ sep :: rc.keys) (lc.children ++ rc.children) ::
            cs.drop (i + 2)) := by
    rw [mergeChildren]
    simp only [BNode.keys_mk, BNode.children_mk, hk, hcl, hcr]
    have h1 : ks.eraseIdx i = ks.take i ++ ks.drop (i + 1) :=
      List.eraseIdx_eq_take_drop_succ ks i
    have h2 : cs.eraseIdx (i + 1) = cs.take i ++ lc :: cs.drop (i + 2) := by
      rw [List.eraseIdx_eq_take_drop_succ, take_succ_of_get? hcl]
      simp
    have hilen : i < (cs.take i ++ lc :: cs.drop (i + 2)).length := by
      simp only [List.length_append, List.length_cons, hlenA]
      omega
    have h4 : (cs.take i ++ lc :: cs.drop (i + 2)).drop (i + 1) = cs.drop (i + 2) := by
      rw [show cs.take i ++ lc :: cs.drop (i + 2) =
        (cs.take i ++ [lc]) ++ cs.drop (i + 2) by simp]
      exact drop_append_left (by simp [hlenA])
    have h3 : (cs.take i ++ lc :: cs.drop (i + 2)).set i
        (BNode.mk (lc.keys ++ sep :: rc.keys) (lc.children ++ rc.children)) =
        cs.take i ++
          BNode.mk (lc.keys ++ sep :: rc.keys) (lc.children ++ rc.children) ::
            cs.drop (i + 2) := by
      rw [List.set_eq_take_cons_drop _ hilen]
      rw [take_append_left hlenA, h4]
    rw [h1, h2, h3]
  refine ⟨heq, ?_, ?_, ?_, ?_, ?_⟩
  · rw [heq, inorder_mk]
    rw [inorderZip_append_exact _ _ _ _ (by rw [hlenA, hlenK])]
    rw [inorderZip_cons_restZip]
    conv_rhs => rw [hcs_eq, hks_eq]
    rw [inorderZip_append_exact _ _ _ _ (by rw [hlenA, hlenK])]
    rw [inorderZip_cons_cons, inorderZip_cons_restZip, hMflat]
    simp
  · rw [heq, arityOk_mk]
    refine ⟨.inr ?_, ?_⟩
    · simp only [List.length_append, List.length_cons, hlenA, hlenK,
        List.length_drop]
      omega
    · intro c hc
      rcases List.mem_append.mp hc with h | h
      · exact (arityOk_mk.mp haOk).2 c ((List.take_subset i cs) h)
      · rcases List.mem_cons.mp h with h | h
        · exact h ▸ hMa
        · exact (arityOk_mk.mp haOk).2 c ((List.drop_subset (i + 2) cs) h)
  · rw [heq, subNonempty_mk]
    intro c hc
    rcases List.mem_append.mp hc with h | h
    · exact (subNonempty_mk.mp hne) c ((List.take_subset i cs) h)
    · rcases List.mem_cons.mp h with h | h
      · subst h
        refine ⟨by simp, hMs⟩
      · exact (subNonempty_mk.mp hne) c ((List.drop_subset (i + 2) cs) h)
  · rw [heq, leavesAt_mk (by simp)]
    refine ⟨e, hde, ?_⟩
    intro c hc
    rcases List.mem_append.mp hc with h | h
    · exact hall c ((List.take_subset i cs) h)
    · rcases List.mem_cons.mp h with h | h
      · exact h ▸ hMl
      · exact hall c ((List.drop_subset (i + 2) cs) h)
  · rw [heq]
    simp only [BNode.children_mk]
    exact get?_append_cons hlenA


/-! ## Borrowing from siblings -/

/-- Replacing a two-child window and its separator preserves the flattening
as soon as the window flattenings agree. -/
theorem window2_flat {ks : List α} {cs : List (BNode α)} {i : Nat} {sep m : α}
    {lc rc X Y : BNode α}
    (hsep : ks.get? i = some sep) (hcl : cs.get? i = some lc)
    (hcr : cs.get? (i + 1) = some rc)
    (hid : inorder X ++ m :: inorder Y = inorder lc ++ sep :: inorder rc) :
    inorderZip (cs.take i ++ X :: Y :: cs.drop (i + 2)) (ks.take i ++ m :: ks.drop (i + 1)) =
      inorderZip cs ks := by
  obtain ⟨hcs_eq, hks_eq, hlenA, hlenK⟩ := pair_decomp hsep hcl hcr
  rw [inorderZip_append_exact _ _ _ _ (by rw [hlenA, hlenK])]
  conv_rhs => rw [hcs_eq, hks_eq]
  rw [inorderZip_append_exact _ _ _ _ (by rw [hlenA, hlenK])]
  congr 1
  rw [inorderZip_cons_cons, inorderZip_cons_cons, inorderZip_cons_restZip,
    inorderZip_cons_restZip]
  have h2 := congrArg (fun l => l ++ restZip (ks.drop (i + 1)) (cs.drop (i + 2))) hid
  simpa [List.append_assoc] using h2

/-- Setting the two children of a window gives the canonical splice form. -/
theorem window2_children {cs : List (BNode α)} {i : Nat} {lc rc : BNode α}
    (hcl : cs.get? i = some lc) (hcr : cs.get? (i + 1) = some rc) (X Y : BNode α) :
    (cs.set i X).set (i + 1) Y = cs.take i ++ X :: Y :: cs.drop (i + 2) := by
  have hir : i + 1 < cs.length := by
    rw [List.get?_eq_getElem?] at hcr
    exact (List.getElem?_eq_some_iff.mp (by simpa using hcr)).1
  have hd : cs.drop (i + 1) = rc :: cs.drop (i + 2) := by
    rw [List.drop_eq_getElem_cons hir]
    congr 1
    rw [List.get?_eq_getElem?] at hcr
    simpa using (List.getElem?_eq_some_iff.mp (by simpa using hcr)).2
  have hlenA : (cs.take i).length = i := List.length_take_of_le (by omega)
  have h1 : cs.set i X = (cs.take i ++ [X]) ++ rc :: cs.drop (i + 2) := by
    rw [List.set_eq_take_cons_drop _ (by omega), hd]
    simp
  rw [h1]
  have hlen2 : (cs.take i ++ [X]).length = i + 1 := by simp [hlenA]
  have hbound : i + 1 < ((cs.take i ++ [X]) ++ rc :: cs.drop (i + 2)).length := by
    simp only [List.length_append, List.length_cons, hlen2]
    omega
  rw [List.set_eq_take_cons_drop _ hbound]
  rw [take_append_left hlen2]
  have h3 : (cs.take i ++ [X]) ++ rc :: cs.drop (i + 2) =
      ((cs.take i ++ [X]) ++ [rc]) ++ cs.drop (i + 2) := by simp
  rw [h3, drop_append_left (by simp [hlenA])]
  simp

/-- Shape facts of a node with a two-child window replaced. -/
theorem window2_node {ks : List α} {cs : List (BNode α)} {i : Nat}
    {sep : α} {lc rc : BNode α} {d : Nat} (m : α) (X Y : BNode α)
    (hsep : ks.get? i = some sep) (hcl : cs.get? i = some lc)
    (hcr : cs.get? (i + 1) = some rc)
    (haOk : arityOk (BNode.mk ks cs) = true)
    (hne : subNonempty (BNode.mk ks cs) = true)
    (hlv : leavesAt (BNode.mk ks cs) d = true)
    (haX : arityOk X = true) (haY : arityOk Y = true)
    (hsX : subNonempty X = true) (hsY : subNonempty Y = true)
    (hkX : X.keys ≠ []) (hkY : Y.keys ≠ [])
    (hlvXY : ∀ e, leavesAt lc e = true → leavesAt rc e = true →
      leavesAt X e = true ∧ leavesAt Y e = true) :
    arityOk (BNode.mk (ks.take i ++ m :: ks.drop (i + 1))
      (cs.take i ++ X :: Y :: cs.drop (i + 2))) = true ∧
    subNonempty (BNode.mk (ks.take i ++ m :: ks.drop (i + 1))
      (cs.take i ++ X :: Y :: cs.drop (i + 2))) = true ∧
    leavesAt (BNode.mk (ks.take i ++ m :: ks.drop (i + 1))
      (cs.take i ++ X :: Y :: cs.drop (i + 2))) d = true := by
  obtain ⟨hcs_eq, hks_eq, hlenA, hlenK⟩ := pair_decomp hsep hcl hcr
  have hir : i + 1 < cs.length := by
    rw [List.get?_eq_getElem?] at hcr
    exact (List.getElem?_eq_some_iff.mp (by simpa using hcr)).1
  have hik : i < ks.length := by
    rw [List.get?_eq_getElem?] at hsep
    exact (List.getElem?_eq_some_iff.mp (by simpa using hsep)).1
  have harity : cs.length = ks.length + 1 := by
    rcases (arityOk_mk.mp haOk).1 with h | h
    · rw [h] at hir; simp at hir
    · exact h
  obtain ⟨e, hde, hall⟩ := (leavesAt_mk (by
      intro h; rw [h] at hir; simp at hir)).mp hlv
  obtain ⟨hlX, hlY⟩ := hlvXY e (hall lc (get?_mem hcl)) (hall rc (get?_mem hcr))
  refine ⟨?_, ?_, ?_⟩
  · rw [arityOk_mk]
    refine ⟨.inr ?_, ?_⟩
    · simp only [List.length_append, List.length_cons, hlenA, hlenK, List.length_drop]
      omega
    · intro c hc
      rcases List.mem_append.mp hc with h | h
      · exact (arityOk_mk.mp haOk).2 c ((List.take_subset i cs) h)
      · rcases List.mem_cons.mp h with h | h
        · exact h ▸ haX
        · rcases List.mem_cons.mp h with h | h
          · exact h ▸ haY
          · exact (arityOk_mk.mp haOk).2 c ((List.drop_subset (i + 2) cs) h)
  · rw [subNonempty_mk]
    intro c hc
    rcases List.mem_append.mp hc with h | h
    · exact (subNonempty_mk.mp hne) c ((List.take_subset i cs) h)
    · rcases List.mem_cons.mp h with h | h
      · exact h ▸ ⟨hkX, hsX⟩
      · rcases List.mem_cons.mp h with h | h
        · exact h ▸ ⟨hkY, hsY⟩
        · exact (subNonempty_mk.mp hne) c ((List.drop_subset (i + 2) cs) h)
  · rw [leavesAt_mk (by simp)]
    refine ⟨e, hde, ?_⟩
    intro c hc
    rcases List.mem_append.mp hc with h | h
    · exact hall c ((List.take_subset i cs) h)
    · rcases List.mem_cons.mp h with h | h
      · exact h ▸ hlX
      · rcases List.mem_cons.mp h with h | h
        · exact h ▸ hlY
        · exact hall c ((List.drop_subset (i + 2) cs) h)


/-- Everything `borrow_from_left_sibling` guarantees when the left sibling
has at least two keys: the flattening and the shape are preserved, the key
count is unchanged, and the child at `i + 1` gains a key. -/
theorem borrowLeft_spec {ks : List α} {cs : List (BNode α)} {i : Nat} {sep : α}
    {sib child : BNode α} {d : Nat}
    (hsep : ks.get? i = some sep) (hsib : cs.get? i = some sib)
    (hc : cs.get? (i + 1) = some child)
    (haOk : arityOk (BNode.mk ks cs) = true)
    (hne : subNonempty (BNode.mk ks cs) = true)
    (hlv : leavesAt (BNode.mk ks cs) d = true)
    (hsib2 : 2 ≤ sib.keys.length) :
    ∃ borrowed sib2 child2,
      borrowed ∈ inorder sib ∧
      borrowFromLeftSibling (BNode.mk ks cs) (i + 1) =
        BNode.mk (ks.take i ++ borrowed :: ks.drop (i + 1))
          (cs.take i ++ sib2 :: child2 :: cs.drop (i + 2)) ∧
      child2.keys.length = child.keys.length + 1 ∧
      inorder (borrowFromLeftSibling (BNode.mk ks cs) (i + 1)) = inorderZip cs ks ∧
      arityOk (borrowFromLeftSibling (BNode.mk ks cs) (i + 1)) = true ∧
      subNonempty (borrowFromLeftSibling (BNode.mk ks cs) (i + 1)) = true ∧
      leavesAt (borrowFromLeftSibling (BNode.mk ks cs) (i + 1)) d = true := by
  have hik : i < ks.length := by
    rw [List.get?_eq_getElem?] at hsep
    exact (List.getElem?_eq_some_iff.mp (by simpa using hsep)).1
  have hir : i + 1 < cs.length := by
    rw [List.get?_eq_getElem?] at hc
    exact (List.getElem?_eq_some_iff.mp (by simpa using hc)).1
  obtain ⟨e, hde, hall⟩ := (leavesAt_mk (by
      intro h; rw [h] at hir; simp at hir)).mp hlv
  obtain ⟨sk, sibC⟩ := sib
  obtain ⟨ck, childC⟩ := child
  simp only [BNode.keys_mk] at hsib2
  have hskne : sk ≠ [] := by
    intro h
    rw [h] at hsib2
    simp at hsib2
  rcases sk.eq_nil_or_concat with h | ⟨sk', borrowed, hsk'⟩
  · exact absurd h hskne
  rw [List.concat_eq_append] at hsk'
  have hgl : sk.getLast? = some borrowed := by rw [hsk']; simp
  have hdlk : sk.dropLast = sk' := by rw [hsk']; simp
  have hsk'ne : sk' ≠ [] := by
    intro h
    rw [hsk', h] at hsib2
    simp at hsib2
  have hsibA : arityOk (BNode.mk sk sibC) = true := (arityOk_mk.mp haOk).2 _ (get?_mem hsib)
  have hsibS := (subNonempty_mk.mp hne) _ (get?_mem hsib)
  have hchA : arityOk (BNode.mk ck childC) = true := (arityOk_mk.mp haOk).2 _ (get?_mem hc)
  have hchS := (subNonempty_mk.mp hne) _ (get?_mem hc)
  have hlvS : leavesAt (BNode.mk sk sibC) e = true := hall _ (get?_mem hsib)
  have hlvC : leavesAt (BNode.mk ck childC) e = true := hall _ (get?_mem hc)
  have hkeysEq : ks.set i borrowed = ks.take i ++ borrowed :: ks.drop (i + 1) :=
    List.set_eq_take_cons_drop _ hik
  rw [borrowFromLeftSibling]
  simp only [BNode.children_mk, BNode.keys_mk, Nat.add_sub_cancel, hc, hsib, hsep, hgl]
  cases hsibC : sibC with
  | nil =>
    subst hsibC
    simp only [BNode.isLeaf, BNode.children_mk, List.isEmpty_nil, if_true]
    have he1 : e = 1 := leavesAt_leaf.mp hlvS
    have hchildC : childC = [] := by
      cases hq : childC with
      | nil => rfl
      | cons x xs =>
        rw [hq] at hlvC
        obtain ⟨e2, he2, hall2⟩ := (leavesAt_mk (by simp)).mp hlvC
        have := leavesAt_pos (hall2 x (by simp))
        omega
    subst hchildC
    have hchEq := window2_children hsib hc (BNode.mk sk.dropLast ([] : List (BNode α)))
      (BNode.mk (sep :: ck) ([] : List (BNode α)))
    rw [hkeysEq, hchEq]
    have hid : inorder (BNode.mk sk.dropLast ([] : List (BNode α))) ++
        borrowed :: inorder (BNode.mk (sep :: ck) ([] : List (BNode α))) =
        inorder (BNode.mk sk ([] : List (BNode α))) ++
          sep :: inorder (BNode.mk ck ([] : List (BNode α))) := by
      simp [hsk']
    obtain ⟨hA2, hS2, hL2⟩ := window2_node borrowed
      (BNode.mk sk.dropLast ([] : List (BNode α)))
      (BNode.mk (sep :: ck) ([] : List (BNode α)))
      hsep hsib hc haOk hne hlv
      (by rw [arityOk_mk]; simp)
      (by rw [arityOk_mk]; simp)
      (by rw [subNonempty_mk]; simp)
      (by rw [subNonempty_mk]; simp)
      (by simp [hdlk, hsk'ne])
      (by simp)
      (by
        intro e' h1 h2
        rw [leavesAt_leaf] at h1
        subst h1
        constructor
        · simp [leavesAt_leaf]
        · simp [leavesAt_leaf])
    refine ⟨borrowed, _, _, ?_, rfl, by simp, ?_, hA2, hS2, hL2⟩
    · rw [inorder_mk, inorderZip_nil, hsk']
      simp
    · exact window2_flat hsep hsib hc hid
  | cons s0 ss =>
    subst hsibC
    simp only [BNode.isLeaf, BNode.children_mk, List.isEmpty_cons, Bool.false_eq_true,
      if_false]
    rcases (s0 :: ss).eq_nil_or_concat with h | ⟨sc', bc, hsc'⟩
    · simp at h
    rw [List.concat_eq_append] at hsc'
    have hglc : (s0 :: ss).getLast? = some bc := by rw [hsc']; simp
    have hdlc : (s0 :: ss).dropLast = sc' := by rw [hsc']; simp
    simp only [hglc]
    have hsibArity : (s0 :: ss).length = sk.length + 1 := by
      rcases (arityOk_mk.mp hsibA).1 with h | h
      · cases h
      · exact h
    obtain ⟨e2, hde2, hallS⟩ := (leavesAt_mk (by simp)).mp hlvS
    have hchildCne : childC ≠ [] := by
      intro h
      rw [h] at hlvC
      have h1 := leavesAt_leaf.mp hlvC
      have := leavesAt_pos (hallS s0 (by simp))
      omega
    have hchArity : childC.length = ck.length + 1 := by
      rcases (arityOk_mk.mp hchA).1 with h | h
      · exact absurd h hchildCne
      · exact h
    obtain ⟨e3, hde3, hallC⟩ := (leavesAt_mk hchildCne).mp hlvC
    have he32 : e3 = e2 := by omega
    rw [he32] at hallC
    have hsc'len : sc'.length = sk'.length + 1 := by
      have h1 := congrArg List.length hsc'
      have h2 := congrArg List.length hsk'
      have h3 := hsibArity
      simp only [List.length_append, List.length_cons, List.length_nil] at h1 h2 h3
      omega
    have hsc'ne : sc' ≠ [] := by
      intro h
      rw [h] at hsc'len
      simp at hsc'len
    have hbcmem : bc ∈ s0 :: ss := by rw [hsc']; simp
    have hchEq := window2_children hsib hc (BNode.mk sk.dropLast (s0 :: ss).dropLast)
      (BNode.mk (sep :: ck) (bc :: childC))
    rw [hkeysEq, hchEq]
    obtain ⟨hA2, hS2, hL2⟩ := window2_node borrowed
      (BNode.mk sk.dropLast (s0 :: ss).dropLast)
      (BNode.mk (sep :: ck) (bc :: childC))
      hsep hsib hc haOk hne hlv
      (by
        rw [hdlk, hdlc, arityOk_mk]
        refine ⟨.inr hsc'len, ?_⟩
        intro c hcm
        exact (arityOk_mk.mp hsibA).2 c (by rw [hsc']; exact List.mem_append_left _ hcm))
      (by
        rw [arityOk_mk]
        refine ⟨.inr (by simp [hchArity]), ?_⟩
        intro c hcm
        rcases List.mem_cons.mp hcm with h | h
        · exact h ▸ (arityOk_mk.mp hsibA).2 bc hbcmem
        · exact (arityOk_mk.mp hchA).2 c h)
      (by
        rw [hdlk, hdlc, subNonempty_mk]
        intro c hcm
        exact (subNonempty_mk.mp hsibS.2) c (by rw [hsc']; exact List.mem_append_left _ hcm))
      (by
        rw [subNonempty_mk]
        intro c hcm
        rcases List.mem_cons.mp hcm with h | h
        · exact h ▸ (subNonempty_mk.mp hsibS.2) bc hbcmem
        · exact (subNonempty_mk.mp hchS.2) c h)
      (by simp [hdlk, hsk'ne])
      (by simp)
      (by
        intro e' h1 h2
        obtain ⟨f, hf, hallf⟩ := (leavesAt_mk (by simp)).mp h1
        obtain ⟨g, hg, hallg⟩ := (leavesAt_mk hchildCne).mp h2
        have hgf : g = f := by omega
        rw [hgf] at hallg
        constructor
        · rw [hdlk, hdlc, leavesAt_mk hsc'ne]
          refine ⟨f, hf, ?_⟩
          intro c hcm
          exact hallf c (by rw [hsc']; exact List.mem_append_left _ hcm)
        · rw [leavesAt_mk (by simp)]
          refine ⟨f, hf, ?_⟩
          intro c hcm
          rcases List.mem_cons.mp hcm with h | h
          · exact h ▸ hallf bc hbcmem
          · exact hallg c h)
    refine ⟨borrowed, _, _, ?_, rfl, by simp, ?_, hA2, hS2, hL2⟩
    · rw [inorder_mk]
      exact mem_keys_inorderZip _ (by rw [hsk']; simp)
    · refine window2_flat hsep hsib hc ?_
      simp only [inorder_mk, hdlk, hdlc]
      rw [inorderZip_cons_cons]
      conv_rhs => rw [hsc', hsk']
      rw [inorderZip_snoc_sep _ _ _ _ hsc'len]
      simp [List.append_assoc]


/-- Everything `borrow_from_right_sibling` guarantees when the right sibling
has at least two keys. -/
theorem borrowRight_spec {ks : List α} {cs : List (BNode α)} {i : Nat} {sep : α}
    {child sib : BNode α} {d : Nat}
    (hsep : ks.get? i = some sep) (hc : cs.get? i = some child)
    (hsib : cs.get? (i + 1) = some sib)
    (haOk : arityOk (BNode.mk ks cs) = true)
    (hne : subNonempty (BNode.mk ks cs) = true)
    (hlv : leavesAt (BNode.mk ks cs) d = true)
    (hsib2 : 2 ≤ sib.keys.length) :
    ∃ borrowed child2 sib2,
      borrowed ∈ inorder sib ∧
      borrowFromRightSibling (BNode.mk ks cs) i =
        BNode.mk (ks.take i ++ borrowed :: ks.drop (i + 1))
          (cs.take i ++ child2 :: sib2 :: cs.drop (i + 2)) ∧
      child2.keys.length = child.keys.length + 1 ∧
      inorder (borrowFromRightSibling (BNode.mk ks cs) i) = inorderZip cs ks ∧
      arityOk (borrowFromRightSibling (BNode.mk ks cs) i) = true ∧
      subNonempty (borrowFromRightSibling (BNode.mk ks cs) i) = true ∧
      leavesAt (borrowFromRightSibling (BNode.mk ks cs) i) d = true := by
  have hik : i < ks.length := by
    rw [List.get?_eq_getElem?] at hsep
    exact (List.getElem?_eq_some_iff.mp (by simpa using hsep)).1
  have hir : i + 1 < cs.length := by
    rw [List.get?_eq_getElem?] at hsib
    exact (List.getElem?_eq_some_iff.mp (by simpa using hsib)).1
  obtain ⟨e, hde, hall⟩ := (leavesAt_mk (by
      intro h; rw [h] at hir; simp at hir)).mp hlv
  obtain ⟨sk, sibC⟩ := sib
  obtain ⟨ck, childC⟩ := child
  simp only [BNode.keys_mk] at hsib2
  cases hskc : sk with
  | nil => rw [hskc] at hsib2; simp at hsib2
  | cons borrowed st =>
  subst hskc
  have hstne : st ≠ [] := by
    intro h
    rw [h] at hsib2
    simp at hsib2
  have hsibA : arityOk (BNode.mk (borrowed :: st) sibC) = true :=
    (arityOk_mk.mp haOk).2 _ (get?_mem hsib)
  have hsibS := (subNonempty_mk.mp hne) _ (get?_mem hsib)
  have hchA : arityOk (BNode.mk ck childC) = true := (arityOk_mk.mp haOk).2 _ (get?_mem hc)
  have hchS := (subNonempty_mk.mp hne) _ (get?_mem hc)
  have hlvS : leavesAt (BNode.mk (borrowed :: st) sibC) e = true := hall _ (get?_mem hsib)
  have hlvC : leavesAt (BNode.mk ck childC) e = true := hall _ (get?_mem hc)
  have hkeysEq : ks.set i borrowed = ks.take i ++ borrowed :: ks.drop (i + 1) :=
    List.set_eq_take_cons_drop _ hik
  rw [borrowFromRightSibling]
  simp only [BNode.children_mk, BNode.keys_mk, hc, hsib, hsep, List.head?_cons]
  cases hsibC : sibC with
  | nil =>
    subst hsibC
    simp only [BNode.isLeaf, BNode.children_mk, List.isEmpty_nil, if_true]
    have he1 : e = 1 := leavesAt_leaf.mp hlvS
    have hchildC : childC = [] := by
      cases hq : childC with
      | nil => rfl
      | cons x xs =>
        rw [hq] at hlvC
        obtain ⟨e2, he2, hall2⟩ := (leavesAt_mk (by simp)).mp hlvC
        have := leavesAt_pos (hall2 x (by simp))
        omega
    subst hchildC
    have hchEq := window2_children hc hsib (BNode.mk (ck ++ [sep]) ([] : List (BNode α)))
      (BNode.mk (borrowed :: st).tail ([] : List (BNode α)))
    rw [hkeysEq, hchEq]
    obtain ⟨hA2, hS2, hL2⟩ := window2_node borrowed
      (BNode.mk (ck ++ [sep]) ([] : List (BNode α)))
      (BNode.mk (borrowed :: st).tail ([] : List (BNode α)))
      hsep hc hsib haOk hne hlv
      (by rw [arityOk_mk]; simp)
      (by rw [arityOk_mk]; simp)
      (by rw [subNonempty_mk]; simp)
      (by rw [subNonempty_mk]; simp)
      (by simp)
      (by simp [hstne])
      (by
        intro e' h1 h2
        rw [leavesAt_leaf] at h1
        subst h1
        constructor
        · simp [leavesAt_leaf]
        · simp [leavesAt_leaf])
    refine ⟨borrowed, _, _, ?_, rfl, by simp, ?_, hA2, hS2, hL2⟩
    · rw [inorder_mk, inorderZip_nil]
      simp
    · refine window2_flat hsep hc hsib ?_
      simp
  | cons bc0 sct =>
    subst hsibC
    simp only [BNode.isLeaf, BNode.children_mk, List.isEmpty_cons, Bool.false_eq_true,
      if_false, List.head?_cons]
    have hsibArity : (bc0 :: sct).length = (borrowed :: st).length + 1 := by
      rcases (arityOk_mk.mp hsibA).1 with h | h
      · cases h
      · exact h
    obtain ⟨e2, hde2, hallS⟩ := (leavesAt_mk (by simp)).mp hlvS
    have hchildCne : childC ≠ [] := by
      intro h
      rw [h] at hlvC
      have h1 := leavesAt_leaf.mp hlvC
      have := leavesAt_pos (hallS bc0 (by simp))
      omega
    have hchArity : childC.length = ck.length + 1 := by
      rcases (arityOk_mk.mp hchA).1 with h | h
      · exact absurd h hchildCne
      · exact h
    obtain ⟨e3, hde3, hallC⟩ := (leavesAt_mk hchildCne).mp hlvC
    have he32 : e3 = e2 := by omega
    rw [he32] at hallC
    have hsctlen : sct.length = st.length + 1 := by
      simp only [List.length_cons] at hsibArity
      omega
    have hsctne : sct ≠ [] := by
      intro h
      rw [h] at hsctlen
      simp at hsctlen
    have hchEq := window2_children hc hsib
      (BNode.mk (ck ++ [sep]) (childC ++ [bc0]))
      (BNode.mk (borrowed :: st).tail (bc0 :: sct).tail)
    rw [hkeysEq, hchEq]
    obtain ⟨hA2, hS2, hL2⟩ := window2_node borrowed
      (BNode.mk (ck ++ [sep]) (childC ++ [bc0]))
      (BNode.mk (borrowed :: st).tail (bc0 :: sct).tail)
      hsep hc hsib haOk hne hlv
      (by
        rw [arityOk_mk]
        refine ⟨.inr (by simp [hchArity]), ?_⟩
        intro c hcm
        rcases List.mem_append.mp hcm with h | h
        · exact (arityOk_mk.mp hchA).2 c h
        · simp only [List.mem_singleton] at h
          exact h ▸ (arityOk_mk.mp hsibA).2 bc0 (by simp))
      (by
        simp only [List.tail_cons]
        rw [arityOk_mk]
        refine ⟨.inr hsctlen, ?_⟩
        intro c hcm
        exact (arityOk_mk.mp hsibA).2 c (by simp [hcm]))
      (by
        rw [subNonempty_mk]
        intro c hcm
        rcases List.mem_append.mp hcm with h | h
        · exact (subNonempty_mk.mp hchS.2) c h
        · simp only [List.mem_singleton] at h
          exact h ▸ (subNonempty_mk.mp hsibS.2) bc0 (by simp))
      (by
        simp only [List.tail_cons]
        rw [subNonempty_mk]
        intro c hcm
        exact (subNonempty_mk.mp hsibS.2) c (by simp [hcm]))
      (by simp)
      (by simp [hstne])
      (by
        intro e' h1 h2
        obtain ⟨f, hf, hallf⟩ := (leavesAt_mk hchildCne).mp h1
        obtain ⟨g, hg, hallg⟩ := (leavesAt_mk (by simp)).mp h2
        have hgf : g = f := by omega
        rw [hgf] at hallg
        constructor
        · rw [leavesAt_mk (by simp)]
          refine ⟨f, hf, ?_⟩
          intro c hcm
          rcases List.mem_append.mp hcm with h | h
          · exact hallf c h
          · simp only [List.mem_singleton] at h
            exact h ▸ hallg bc0 (by simp)
        · simp only [List.tail_cons]
          rw [leavesAt_mk hsctne]
          refine ⟨f, hf, ?_⟩
          intro c hcm
          exact hallg c (by simp [hcm]))
    refine ⟨borrowed, _, _, ?_, rfl, by simp, ?_, hA2, hS2, hL2⟩
    · rw [inorder_mk]
      exact mem_keys_inorderZip _ (by simp)
    · refine window2_flat hsep hc hsib ?_
      simp only [inorder_mk, List.tail_cons]
      rw [inorderZip_snoc_sep _ _ _ _ hchArity]
      rw [inorderZip_cons_cons]
      simp [List.append_assoc]


/-! ## The rebalancing step of removal -/

/-- Everything `ensure_child_has_enough_keys` guarantees when called on a
well-formed internal node after an unsuccessful key search: flattening and
shape are preserved, at most one top-level key disappears, and re-searching
the key lands unsuccessfully on a child that has gained at least one key over
the original descent child. -/
theorem ensure_spec {cmp : α → α → Ordering} [Batteries.TransCmp cmp]
    {P : BTreeProperties} {ks : List α} {cs : List (BNode α)} {key : α} {idx : Nat}
    {child : BNode α} {d : Nat}
    (hminP : 1 ≤ P.minKeys)
    (hWF : NodeWF cmp (BNode.mk ks cs))
    (hlv : leavesAt (BNode.mk ks cs) d = true)
    (hsearch : binarySearchBy (fun k => cmp k key) ks = .notFound idx)
    (hc : cs.get? idx = some child)
    (hkne : ks ≠ []) :
    inorder (ensureChildHasEnoughKeys P (BNode.mk ks cs) idx) = inorderZip cs ks ∧
    arityOk (ensureChildHasEnoughKeys P (BNode.mk ks cs) idx) = true ∧
    subNonempty (ensureChildHasEnoughKeys P (BNode.mk ks cs) idx) = true ∧
    leavesAt (ensureChildHasEnoughKeys P (BNode.mk ks cs) idx) d = true ∧
    ks.length - 1 ≤ (ensureChildHasEnoughKeys P (BNode.mk ks cs) idx).keys.length ∧
    (ensureChildHasEnoughKeys P (BNode.mk ks cs) idx).keys.length ≤ ks.length ∧
    ∃ j c2,
      binarySearchBy (fun k => cmp k key)
        (ensureChildHasEnoughKeys P (BNode.mk ks cs) idx).keys = .notFound j ∧
      (ensureChildHasEnoughKeys P (BNode.mk ks cs) idx).children.get? j = some c2 ∧
      child.keys.length + 1 ≤ c2.keys.length := by
  obtain ⟨hlo, hile, hhi⟩ := binarySearchBy_notFound_spec _ ks idx hsearch
  have haOk := hWF.1
  have hne := hWF.2.1
  have hsflat : SortedCmp cmp (inorderZip cs ks) := by simpa using hWF.2.2
  have hidxcs : idx < cs.length := by
    rw [List.get?_eq_getElem?] at hc
    exact (List.getElem?_eq_some_iff.mp (by simpa using hc)).1
  have harity : cs.length = ks.length + 1 := by
    rcases (arityOk_mk.mp haOk).1 with h | h
    · rw [h] at hidxcs; simp at hidxcs
    · exact h
  have hkslen : 1 ≤ ks.length := by
    cases hq : ks with
    | nil => exact absurd hq hkne
    | cons a l => simp
  rw [ensureChildHasEnoughKeys]
  simp only [BNode.children_mk, BNode.keys_mk]
  by_cases hb1 : (decide (0 < idx) && hasSpare P (cs.get? (idx - 1))) = true
  · rw [if_pos hb1]
    have hb1' := hb1
    rw [Bool.and_eq_true] at hb1'
    have hidx1 : 0 < idx := of_decide_eq_true hb1'.1
    obtain ⟨i, rfl⟩ : ∃ i, idx = i + 1 := ⟨idx - 1, by omega⟩
    obtain ⟨sib, hsib, hsiblen⟩ :
        ∃ sib, cs.get? i = some sib ∧ P.minKeys < sib.keys.length := by
      have h2 := hb1'.2
      simp only [Nat.add_sub_cancel] at h2
      cases hq : cs.get? i with
      | none => rw [hq, hasSpare] at h2; cases h2
      | some sib =>
        rw [hq, hasSpare] at h2
        exact ⟨sib, rfl, of_decide_eq_true h2⟩
    obtain ⟨sep, hsep⟩ : ∃ sep, ks.get? i = some sep := get?_lt_length (by omega)
    obtain ⟨borrowed, sib2, child2, hmem, heq2, hlen2, hflat2, hA2, hS2, hL2⟩ :=
      borrowLeft_spec hsep hsib hc haOk hne hlv (by omega)
    have hlent : (ks.take i).length = i := List.length_take_of_le (by omega)
    have hlentc : (cs.take i).length = i := List.length_take_of_le (by omega)
    have hseple : cmp sep key = Ordering.lt := by
      refine hlo sep ?_
      rw [take_succ_of_get? hsep]
      simp
    have hble : cmp borrowed sep ≠ Ordering.gt := by
      obtain ⟨L, R, _, hsplitS, _, hRS⟩ := slot_decomp harity (by omega) hsib
      obtain ⟨ki, hki, hRform⟩ := hRS.1 (by omega)
      have hkisep : ki = sep := by
        rw [hsep] at hki
        exact ((Option.some.injEq _ _).mp hki).symm
      subst hkisep
      rw [hsplitS] at hsflat
      exact (List.pairwise_append.mp hsflat).2.2 borrowed
        (List.mem_append_right _ hmem) ki (by rw [hRform]; simp)
    rw [heq2]
    simp only [BNode.keys_mk, BNode.children_mk]
    refine ⟨by rw [← heq2]; exact hflat2,
      by rw [← heq2]; exact hA2,
      by rw [← heq2]; exact hS2,
      by rw [← heq2]; exact hL2, ?_, ?_, ?_⟩
    · simp only [List.length_append, List.length_cons, hlent, List.length_drop]
      omega
    · simp only [List.length_append, List.length_cons, hlent, List.length_drop]
      omega
    refine ⟨i + 1, child2, ?_, ?_, by omega⟩
    · refine search_eq_notFound _ (i + 1) ?_ ?_ ?_
      · simp only [List.length_append, List.length_cons, hlent, List.length_drop]
        omega
      · intro x hx
        have htk : (ks.take i ++ borrowed :: ks.drop (i + 1)).take (i + 1) =
            ks.take i ++ [borrowed] := by
          rw [show i + 1 = (ks.take i).length + 1 by rw [hlent], List.take_append]
          simp
        rw [htk] at hx
        rcases List.mem_append.mp hx with h | h
        · refine hlo x ?_
          rw [take_succ_of_get? hsep]
          exact List.mem_append_left _ h
        · simp only [List.mem_singleton] at h
          subst h
          exact Batteries.TransCmp.le_lt_trans hble hseple
      · intro x hx
        have hq := get?_append_cons_succ (ks.take i) borrowed (ks.drop (i + 1)) 0 hlent
        simp only [Nat.add_zero] at hq
        rw [hq] at hx
        have hq2 : (ks.drop (i + 1)).get? 0 = ks.get? (i + 1) := by
          rw [List.get?_eq_getElem?, List.get?_eq_getElem?, List.getElem?_drop]
        rw [hq2] at hx
        exact hhi x hx
    · have hq := get?_append_cons_succ (cs.take i) sib2 (child2 :: cs.drop (i + 2)) 0 hlentc
      simp only [Nat.add_zero] at hq
      rw [hq]
      rfl
  · by_cases hb2 : (decide (idx < cs.length - 1) && hasSpare P (cs.get? (idx + 1))) = true
    · rw [if_neg hb1, if_pos hb2]
      have hb2' := hb2
      rw [Bool.and_eq_true] at hb2'
      have hidxlt : idx < cs.length - 1 := of_decide_eq_true hb2'.1
      obtain ⟨rsib, hrsib, hrsiblen⟩ :
          ∃ rsib, cs.get? (idx + 1) = some rsib ∧ P.minKeys < rsib.keys.length := by
        have h2 := hb2'.2
        cases hq : cs.get? (idx + 1) with
        | none => rw [hq, hasSpare] at h2; cases h2
        | some rsib =>
          rw [hq, hasSpare] at h2
          exact ⟨rsib, rfl, of_decide_eq_true h2⟩
      obtain ⟨sep, hsep⟩ : ∃ sep, ks.get? idx = some sep := get?_lt_length (by omega)
      obtain ⟨borrowed, child2, sib2, hmem, heq2, hlen2, hflat2, hA2, hS2, hL2⟩ :=
        borrowRight_spec hsep hc hrsib haOk hne hlv (by omega)
      have hlent : (ks.take idx).length = idx := List.length_take_of_le (by omega)
      have hlentc : (cs.take idx).length = idx := List.length_take_of_le (by omega)
      have hkeylt : cmp key sep = Ordering.lt :=
        Batteries.OrientedCmp.cmp_eq_gt.mp (hhi sep hsep)
      have hble : cmp sep borrowed ≠ Ordering.gt := by
        obtain ⟨L2, R2, _, hsplitS, hLform, _⟩ := slot_decomp harity (by omega) hrsib
        rw [hsplitS] at hsflat
        have hsepL : sep ∈ L2 := by
          rw [hLform]
          refine mem_keys_inorderZip _ ?_
          rw [take_succ_of_get? hsep]
          simp
        have hpw : SortedCmp cmp (L2 ++ inorder rsib) :=
          (List.pairwise_append.mp hsflat).1
        exact (List.pairwise_append.mp hpw).2.2 sep hsepL borrowed hmem
      rw [heq2]
      simp only [BNode.keys_mk, BNode.children_mk]
      refine ⟨by rw [← heq2]; exact hflat2,
        by rw [← heq2]; exact hA2,
        by rw [← heq2]; exact hS2,
        by rw [← heq2]; exact hL2, ?_, ?_, ?_⟩
      · simp only [List.length_append, List.length_cons, hlent, List.length_drop]
        omega
      · simp only [List.length_append, List.length_cons, hlent, List.length_drop]
        omega
      refine ⟨idx, child2, ?_, ?_, by omega⟩
      · refine search_eq_notFound _ idx ?_ ?_ ?_
        · simp only [List.length_append, List.length_cons, hlent, List.length_drop]
          omega
        · intro x hx
          rw [take_append_left hlent] at hx
          exact hlo x hx
        · intro x hx
          rw [get?_append_cons hlent] at hx
          have hxb : x = borrowed := by
            have := (Option.some.injEq _ _).mp hx
            exact this.symm
          subst hxb
          exact Batteries.OrientedCmp.cmp_eq_gt.mpr
            (Batteries.TransCmp.lt_le_trans hkeylt hble)
      · exact get?_append_cons hlentc
    · by_cases hb3 : idx < cs.length - 1
      · rw [if_neg hb1, if_neg hb2, if_pos hb3]
        obtain ⟨sep, hsep⟩ : ∃ sep, ks.get? idx = some sep := get?_lt_length (by omega)
        obtain ⟨rc, hrc⟩ : ∃ rc, cs.get? (idx + 1) = some rc := get?_lt_length (by omega)
        obtain ⟨heq2, hflat2, hA2, hS2, hL2, hget2⟩ :=
          mergeChildren_spec hsep hc hrc haOk hne hlv
        have hlent : (ks.take idx).length = idx := List.length_take_of_le (by omega)
        refine ⟨hflat2, hA2, hS2, hL2, ?_, ?_, ?_⟩
        · rw [heq2]
          simp only [BNode.keys_mk, List.length_append, hlent, List.length_drop]
          omega
        · rw [heq2]
          simp only [BNode.keys_mk, List.length_append, hlent, List.length_drop]
          omega
        refine ⟨idx, BNode.mk (child.keys ++ sep :: rc.keys) (child.children ++ rc.children),
          ?_, hget2, by simp⟩
        rw [heq2]
        simp only [BNode.keys_mk]
        refine search_eq_notFound _ idx ?_ ?_ ?_
        · simp only [List.length_append, hlent, List.length_drop]
          omega
        · intro x hx
          rw [take_append_left hlent] at hx
          exact hlo x hx
        · intro x hx
          cases hdk : ks.drop (idx + 1) with
          | nil =>
            rw [hdk] at hx
            have hnone : ((ks.take idx ++ ([] : List α))).get? idx = none := by
              simp only [List.append_nil]
              rw [List.get?_eq_getElem?]
              exact List.getElem?_eq_none (by rw [List.length_take_of_le (by omega)])
            rw [hnone] at hx
            cases hx
          | cons k1 rest =>
            rw [hdk] at hx
            rw [get?_append_cons hlent] at hx
            have hxk : x = k1 := ((Option.some.injEq _ _).mp hx).symm
            rw [hxk]
            have hks2 : ks = ks.take idx ++ sep :: k1 :: rest := by
              conv_lhs => rw [take_drop_get? hsep]
              rw [hdk]
            have hsfx : SortedCmp cmp (sep :: k1 :: rest) := by
              refine hWF.sorted_keys.sublist ?_
              rw [hks2]
              exact List.sublist_append_right _ _
            have hsk1 : cmp sep k1 ≠ Ordering.gt :=
              (List.pairwise_cons.mp hsfx).1 k1 (by simp)
            exact Batteries.OrientedCmp.cmp_eq_gt.mpr
              (Batteries.TransCmp.lt_le_trans
                (Batteries.OrientedCmp.cmp_eq_gt.mp (hhi sep hsep)) hsk1)
      · rw [if_neg hb1, if_neg hb2, if_neg hb3]
        have hidxeq : idx = ks.length := by
          have hb3n : ¬idx < cs.length - 1 := hb3
          omega
        obtain ⟨i, rfl⟩ : ∃ i, idx = i + 1 := ⟨idx - 1, by omega⟩
        simp only [Nat.add_sub_cancel]
        obtain ⟨sep, hsep⟩ : ∃ sep, ks.get? i = some sep := get?_lt_length (by omega)
        obtain ⟨sib3, hsib3⟩ : ∃ s, cs.get? i = some s := get?_lt_length (by omega)
        obtain ⟨heq2, hflat2, hA2, hS2, hL2, hget2⟩ :=
          mergeChildren_spec hsep hsib3 hc haOk hne hlv
        have hlent : (ks.take i).length = i := List.length_take_of_le (by omega)
        have hdk : ks.drop (i + 1) = [] := List.drop_eq_nil_of_le (by omega)
        refine ⟨hflat2, hA2, hS2, hL2, ?_, ?_, ?_⟩
        · rw [heq2]
          simp only [BNode.keys_mk, List.length_append, hlent, List.length_drop]
          omega
        · rw [heq2]
          simp only [BNode.keys_mk, List.length_append, hlent, List.length_drop]
          omega
        refine ⟨i, BNode.mk (sib3.keys ++ sep :: child.keys) (sib3.children ++ child.children),
          ?_, hget2, by simp⟩
        rw [heq2]
        simp only [BNode.keys_mk]
        refine search_eq_notFound _ i ?_ ?_ ?_
        · simp only [List.length_append, hlent, List.length_drop]
          omega
        · intro x hx
          rw [hdk] at hx
          simp only [List.append_nil] at hx
          have hx2 : x ∈ ks.take i := (List.take_subset _ _) hx
          refine hlo x ?_
          rw [take_succ_of_get? hsep]
          exact List.mem_append_left _ hx2
        · intro x hx
          rw [hdk] at hx
          have hnone : ((ks.take i ++ ([] : List α))).get? i = none := by
            simp only [List.append_nil]
            rw [List.get?_eq_getElem?]
            exact List.getElem?_eq_none (by rw [List.length_take_of_le (by omega)])
          rw [hnone] at hx
          cases hx


/-! ## Helpers for the removal induction -/

theorem drop_eq_cons_of_get? {β : Type} {l : List β} {i : Nat} {x : β}
    (h : l.get? i = some x) : l.drop i = x :: l.drop (i + 1) := by
  have hlt : i < l.length := by
    rw [List.get?_eq_getElem?] at h
    exact (List.getElem?_eq_some_iff.mp (by simpa using h)).1
  rw [List.drop_eq_getElem_cons hlt]
  congr 1
  rw [List.get?_eq_getElem?] at h
  simpa using (List.getElem?_eq_some_iff.mp (by simpa using h)).2

theorem set_middle {β : Type} {l : List β} {i : Nat} {c : β}
    (hc : l.get? i = some c) (X : β) :
    l.set i X = l.take i ++ X :: l.drop (i + 1) := by
  have hlt : i < l.length := by
    rw [List.get?_eq_getElem?] at hc
    exact (List.getElem?_eq_some_iff.mp (by simpa using hc)).1
  exact List.set_eq_take_cons_drop X hlt

/-- Both flattenings around a two-child window, in decomposed form. -/
theorem pair_flat {ks : List α} {cs : List (BNode α)} {i : Nat} {sep : α} {lc rc : BNode α}
    (hsep : ks.get? i = some sep) (hcl : cs.get? i = some lc)
    (hcr : cs.get? (i + 1) = some rc) :
    inorderZip cs ks =
      inorderZip (cs.take i) (ks.take i) ++ inorder lc ++ sep :: inorder rc ++
        restZip (ks.drop (i + 1)) (cs.drop (i + 2)) ∧
    ∀ (m : α) (X Y : BNode α),
      inorderZip (cs.take i ++ X :: Y :: cs.drop (i + 2)) (ks.take i ++ m :: ks.drop (i + 1)) =
        inorderZip (cs.take i) (ks.take i) ++ inorder X ++ m :: inorder Y ++
          restZip (ks.drop (i + 1)) (cs.drop (i + 2)) := by
  obtain ⟨hcs_eq, hks_eq, hlenA, hlenK⟩ := pair_decomp hsep hcl hcr
  constructor
  · conv_lhs => rw [hcs_eq, hks_eq]
    rw [inorderZip_append_exact _ _ _ _ (by rw [hlenA, hlenK])]
    rw [inorderZip_cons_cons, inorderZip_cons_restZip]
    simp [List.append_assoc]
  · intro m X Y
    rw [inorderZip_append_exact _ _ _ _ (by rw [hlenA, hlenK])]
    rw [inorderZip_cons_cons, inorderZip_cons_restZip]
    simp [List.append_assoc]

/-- Replacing one child (and possibly re-keying at the same length) keeps the
node shape predicates. -/
theorem set_node_shapes {ks ks2 : List α} {cs : List (BNode α)} {i : Nat} {c X : BNode α}
    {d : Nat}
    (hc : cs.get? i = some c) (hklen : ks2.length = ks.length)
    (haOk : arityOk (BNode.mk ks cs) = true)
    (hne : subNonempty (BNode.mk ks cs) = true)
    (hlv : leavesAt (BNode.mk ks cs) d = true)
    (haX : arityOk X = true) (hsX : subNonempty X = true) (hkX : X.keys ≠ [])
    (hlvX : ∀ e, leavesAt c e = true → leavesAt X e = true) :
    arityOk (BNode.mk ks2 (cs.set i X)) = true ∧
    subNonempty (BNode.mk ks2 (cs.set i X)) = true ∧
    leavesAt (BNode.mk ks2 (cs.set i X)) d = true := by
  have hlt : i < cs.length := by
    rw [List.get?_eq_getElem?] at hc
    exact (List.getElem?_eq_some_iff.mp (by simpa using hc)).1
  have hcsne : cs ≠ [] := by
    intro h
    rw [h] at hlt
    simp at hlt
  have harity : cs.length = ks.length + 1 := by
    rcases (arityOk_mk.mp haOk).1 with h | h
    · exact absurd h hcsne
    · exact h
  obtain ⟨e, hde, hall⟩ := (leavesAt_mk hcsne).mp hlv
  refine ⟨?_, ?_, ?_⟩
  · rw [arityOk_mk]
    refine ⟨.inr (by rw [List.length_set]; omega), ?_⟩
    intro c2 hc2
    rcases List.mem_or_eq_of_mem_set hc2 with h | h
    · exact (arityOk_mk.mp haOk).2 c2 h
    · exact h ▸ haX
  · rw [subNonempty_mk]
    intro c2 hc2
    rcases List.mem_or_eq_of_mem_set hc2 with h | h
    · exact (subNonempty_mk.mp hne) c2 h
    · exact h ▸ ⟨hkX, hsX⟩
  · rw [leavesAt_mk (by intro h; exact hcsne (by simpa using congrArg List.length h))]
    refine ⟨e, hde, ?_⟩
    intro c2 hc2
    rcases List.mem_or_eq_of_mem_set hc2 with h | h
    · exact hall c2 h
    · exact h ▸ hlvX e (hall c (get?_mem hc))


/-! ## The removal contracts -/

/-- The contract of `remove_from_node` on a well-formed subtree of leaf depth
`d`: the reported element (if any) compares equal to the key and is spliced
out of the flattening, presence is decided exactly, the shape predicates are
preserved, and at most one key leaves the node's own key list. -/
abbrev RemoveConc (cmp : α → α → Ordering) (key : α) (node : BNode α) (d : Nat)
    (r : BNode α × Option α) : Prop :=
  (r.2 = none → inorder r.1 = inorder node) ∧
  (∀ x, r.2 = some x → cmp x key = .eq ∧ RemovedAt x (inorder node) (inorder r.1)) ∧
  (r.2.isSome = true ↔ ∃ y ∈ inorder node, cmp y key = .eq) ∧
  arityOk r.1 = true ∧ subNonempty r.1 = true ∧ SortedCmp cmp (inorder r.1) ∧
  leavesAt r.1 d = true ∧
  node.keys.length - 1 ≤ r.1.keys.length ∧ r.1.keys.length ≤ node.keys.length

/-- The contract of `remove_from_internal_node` at a found key index. -/
abbrev RemoveIntConc (cmp : α → α → Ordering) (k0 : α) (node : BNode α) (d : Nat)
    (r : BNode α × Option α) : Prop :=
  (∃ x, r.2 = some x ∧ cmp x k0 = .eq ∧ RemovedAt x (inorder node) (inorder r.1)) ∧
  arityOk r.1 = true ∧ subNonempty r.1 = true ∧ SortedCmp cmp (inorder r.1) ∧
  leavesAt r.1 d = true ∧
  node.keys.length - 1 ≤ r.1.keys.length ∧ r.1.keys.length ≤ node.keys.length

/-- The master induction for removal: `remove_from_node` and
`remove_from_internal_node` meet their contracts on well-formed subtrees with
enough fuel, provided comparison-equal stored elements are equal. -/
theorem remove_master {cmp : α → α → Ordering} [Batteries.TransCmp cmp]
    {P : BTreeProperties} (hminP : 1 ≤ P.minKeys) :
    ∀ fuel : Nat,
      (∀ (node : BNode α) (key : α) (d : Nat),
        NodeWF cmp node → EqStrict cmp (inorder node) → leavesAt node d = true →
        (node.keys = [] → node.children = []) → 2 * d ≤ fuel + 1 →
        RemoveConc cmp key node d (removeFromNode cmp P fuel node key)) ∧
      (∀ (node : BNode α) (keyIdx : Nat) (k0 : α) (d : Nat),
        NodeWF cmp node → EqStrict cmp (inorder node) → leavesAt node d = true →
        node.keys.get? keyIdx = some k0 → node.children ≠ [] → 2 * d ≤ fuel + 2 →
        RemoveIntConc cmp k0 node d (removeFromInternalNode cmp P fuel node keyIdx)) := by
  intro fuel
  induction fuel with
  | zero =>
    constructor
    · intro node key d _ _ hlv _ hfuel
      have := leavesAt_pos hlv
      omega
    · intro node keyIdx k0 d _ _ hlv _ hch hfuel
      obtain ⟨ks, cs⟩ := node
      have hcsne : cs ≠ [] := by simpa using hch
      obtain ⟨e, hde, hall⟩ := (leavesAt_mk hcsne).mp hlv
      cases hcq : cs with
      | nil => exact absurd hcq hcsne
      | cons c0 cs0 =>
        subst hcq
        have := leavesAt_pos (hall c0 (by simp))
        omega
  | succ fuel ih =>
    constructor
    · -- remove_from_node
      intro node key d hWF hEq hlv hroot hfuel
      obtain ⟨ks, cs⟩ := node
      simp only [BNode.keys_mk, BNode.children_mk] at hroot
      have hsortflat : SortedCmp cmp (inorderZip cs ks) := by simpa using hWF.2.2
      cases hsearch : binarySearchBy (fun k => cmp k key) ks with
      | found j =>
        obtain ⟨hjlo, x0, hx0, hx0eq⟩ := binarySearchBy_found_spec _ ks j hsearch
        cases hcs : cs with
        | nil =>
          subst hcs
          have heq : removeFromNode cmp P (fuel + 1) (BNode.mk ks []) key =
              (BNode.mk (ks.eraseIdx j) [], some x0) := by
            rw [removeFromNode]
            simp only [BNode.keys_mk, BNode.children_mk, hsearch, BNode.isLeaf,
              List.isEmpty_nil, if_true, hx0]
          have heq1 : (removeFromNode cmp P (fuel + 1) (BNode.mk ks []) key).1 =
              BNode.mk (ks.eraseIdx j) [] := by rw [heq]
          have heq2 : (removeFromNode cmp P (fuel + 1) (BNode.mk ks []) key).2 =
              some x0 := by rw [heq]
          have hrem : RemovedAt x0 ks (ks.eraseIdx j) :=
            ⟨ks.take j, ks.drop (j + 1), take_drop_get? hx0,
              List.eraseIdx_eq_take_drop_succ ks j⟩
          have hd1 : d = 1 := leavesAt_leaf.mp hlv
          refine ⟨?_, ?_, ?_, ?_, ?_, ?_, ?_, ?_, ?_⟩
          · intro h
            rw [heq2] at h
            cases h
          · intro x hx
            rw [heq2] at hx
            have hxx : x0 = x := by simpa using hx
            subst hxx
            refine ⟨hx0eq, ?_⟩
            rw [heq1]
            simpa using hrem
          · rw [heq2]
            refine iff_of_true rfl ?_
            exact ⟨x0, by simpa using mem_keys_inorderZip ([] : List (BNode α)) (get?_mem hx0),
              hx0eq⟩
          · rw [heq1, arityOk_mk]
            simp
          · rw [heq1, subNonempty_mk]
            simp
          · rw [heq1]
            simp only [inorder_mk, inorderZip_nil]
            exact (hWF.sorted_keys).sublist (by simpa using hrem.erased_sublist)
          · rw [heq1, hd1]
            simp [leavesAt_leaf]
          · rw [heq1]
            simp only [BNode.keys_mk]
            have := hrem.length_eq
            omega
          · rw [heq1]
            simp only [BNode.keys_mk]
            have := hrem.length_eq
            omega
        | cons c0 cs0 =>
          subst hcs
          have heq : removeFromNode cmp P (fuel + 1) (BNode.mk ks (c0 :: cs0)) key =
              removeFromInternalNode cmp P fuel (BNode.mk ks (c0 :: cs0)) j := by
            rw [removeFromNode]
            simp only [BNode.keys_mk, BNode.children_mk, hsearch, BNode.isLeaf,
              List.isEmpty_cons, Bool.false_eq_true, if_false]
          obtain ⟨⟨x, hxsome, hxeq, hxrem⟩, hA, hS, hSort, hL, hlen1, hlen2⟩ :=
            ih.2 (BNode.mk ks (c0 :: cs0)) j x0 d hWF hEq hlv (by simpa using hx0)
              (by simp) (by omega)
          rw [heq]
          refine ⟨?_, ?_, ?_, hA, hS, hSort, hL, hlen1, hlen2⟩
          · intro h
            rw [hxsome] at h
            cases h
          · intro y hy
            rw [hxsome] at hy
            have hxy : x = y := by simpa using hy
            subst hxy
            exact ⟨cmp_eq_trans hxeq hx0eq, hxrem⟩
          · rw [hxsome]
            refine iff_of_true rfl ?_
            exact ⟨x0, by simpa using mem_keys_inorderZip (c0 :: cs0) (get?_mem hx0), hx0eq⟩
      | notFound idx =>
        obtain ⟨hlo, hile, hhi⟩ := binarySearchBy_notFound_spec _ ks idx hsearch
        cases hcs : cs with
        | nil =>
          subst hcs
          have heq : removeFromNode cmp P (fuel + 1) (BNode.mk ks []) key =
              (BNode.mk ks [], none) := by
            rw [removeFromNode]
            simp only [BNode.keys_mk, BNode.children_mk, hsearch, BNode.isLeaf,
              List.isEmpty_nil, if_true]
          rw [heq]
          refine ⟨fun _ => rfl, ?_, ?_, hWF.1, hWF.2.1, hWF.2.2, hlv, Nat.sub_le _ _,
            le_refl _⟩
          · intro x hx
            cases hx
          · refine iff_of_false (by simp) ?_
            rintro ⟨y, hy, hyeq⟩
            exact search_notFound_absent hWF.sorted_keys hsearch y
              (by simpa using hy) hyeq
        | cons c0 cs0 =>
          subst hcs
          have hkne : ks ≠ [] := by
            intro h
            have := hroot h
            cases this
          have harity : (c0 :: cs0).length = ks.length + 1 := by
            rcases (arityOk_mk.mp hWF.1).1 with h | h
            · cases h
            · exact h
          obtain ⟨child, hc⟩ : ∃ c, (c0 :: cs0).get? idx = some c :=
            get?_lt_length (by omega)
          obtain ⟨e, hde, hall⟩ := (leavesAt_mk (by simp)).mp hlv
          have hcWF := hWF.child (by simpa using get?_mem hc)
          by_cases hsl : child.keys.length ≤ P.minKeys
          · -- rebalance, then descend
            obtain ⟨hflatE, hAe, hSe, hLe, hlenE1, hlenE2, j, c2, hsearch2, hc2, hc2len⟩ :=
              ensure_spec hminP hWF hlv hsearch hc hkne
            cases hnode2 : ensureChildHasEnoughKeys P (BNode.mk ks (c0 :: cs0)) idx with
            | mk nks ncs =>
            rw [hnode2] at hflatE hAe hSe hLe hlenE1 hlenE2 hsearch2 hc2
            simp only [BNode.keys_mk, BNode.children_mk] at hlenE1 hlenE2 hsearch2 hc2
            have heq : removeFromNode cmp P (fuel + 1) (BNode.mk ks (c0 :: cs0)) key =
                (BNode.mk nks
                  (ncs.set j (removeFromNode cmp P fuel c2 key).1),
                  (removeFromNode cmp P fuel c2 key).2) := by
              rw [removeFromNode]
              simp only [BNode.keys_mk, BNode.children_mk, hsearch, BNode.isLeaf,
                List.isEmpty_cons, Bool.false_eq_true, if_false, hc, if_pos hsl,
                hnode2, hsearch2, hc2]
            have hflat2 : inorderZip ncs nks = inorderZip (c0 :: cs0) ks := by
              simpa using hflatE
            have harity2 : ncs.length = nks.length + 1 := by
              rcases (arityOk_mk.mp hAe).1 with h | h
              · rw [h] at hc2; cases hc2
              · exact h
            have hsort2 : SortedCmp cmp (inorderZip ncs nks) := by
              rw [hflat2]
              exact hsortflat
            obtain ⟨L, R, hset, hsplit, hLlt, hRgt⟩ :=
              descend_decomp harity2 hsort2 hsearch2 hc2
            have hNW2 : NodeWF cmp (BNode.mk nks ncs) :=
              ⟨hAe, hSe, by simpa using hsort2⟩
            have hc2WF := hNW2.child (by simpa using get?_mem hc2)
            obtain ⟨e2, hde2, hall2⟩ := (leavesAt_mk (by
                intro h; rw [h] at hc2; cases hc2)).mp hLe
            have he2e : e2 = e := by omega
            subst he2e
            have hchildlen : 1 ≤ child.keys.length := by
              cases hq : child.keys with
              | nil => exact absurd hq hcWF.2
              | cons a l => simp
            obtain ⟨hcnone, hcsome, hciff, hcA, hcS, hcSort, hcL, hclen1, hclen2⟩ :=
              ih.1 c2 key e2 hc2WF.1
                (hEq.mono (fun x hx => by
                  simp only [inorder_mk]
                  rw [← hflat2]
                  exact mem_child_inorderZip nks (get?_mem hc2) hx))
                (hall2 c2 (get?_mem hc2))
                (fun h => absurd h hc2WF.2)
                (by omega)
            have heq1 : (removeFromNode cmp P (fuel + 1) (BNode.mk ks (c0 :: cs0)) key).1 =
                BNode.mk nks (ncs.set j (removeFromNode cmp P fuel c2 key).1) := by rw [heq]
            have heq2 : (removeFromNode cmp P (fuel + 1) (BNode.mk ks (c0 :: cs0)) key).2 =
                (removeFromNode cmp P fuel c2 key).2 := by rw [heq]
            have hressub : (inorder (removeFromNode cmp P fuel c2 key).1).Sublist
                (inorder c2) := by
              cases hr2 : (removeFromNode cmp P fuel c2 key).2 with
              | none => rw [hcnone hr2]
              | some x => exact ((hcsome x hr2).2).erased_sublist
            refine ⟨?_, ?_, ?_, ?_, ?_, ?_, ?_, ?_, ?_⟩
            · intro h
              rw [heq2] at h
              rw [heq1]
              simp only [inorder_mk]
              rw [hset, hcnone h, ← hsplit, hflat2]
            · intro x hx
              rw [heq2] at hx
              obtain ⟨hxeq, hxrem⟩ := hcsome x hx
              refine ⟨hxeq, ?_⟩
              rw [heq1]
              simp only [inorder_mk]
              rw [hset, ← hflat2, hsplit]
              exact hxrem.frame
            · rw [heq2, hciff]
              have hpic := present_iff_child hsplit hLlt hRgt
              simp only [inorder_mk]
              rw [← hflat2]
              exact hpic.symm
            · rw [heq1]
              exact (set_node_shapes hc2 rfl hAe hSe hLe hcA hcS
                (by
                  intro h
                  have hl := congrArg List.length h
                  simp only [List.length_nil] at hl
                  omega)
                (fun e3 h3 => by
                  have h4 : e3 = e2 := by
                    rw [← leavesAt_nodeHeight c2 e3 h3,
                      leavesAt_nodeHeight c2 e2 (hall2 c2 (get?_mem hc2))]
                  exact h4 ▸ hcL)).1
            · rw [heq1]
              exact (set_node_shapes hc2 rfl hAe hSe hLe hcA hcS
                (by
                  intro h
                  have hl := congrArg List.length h
                  simp only [List.length_nil] at hl
                  omega)
                (fun e3 h3 => by
                  have h4 : e3 = e2 := by
                    rw [← leavesAt_nodeHeight c2 e3 h3,
                      leavesAt_nodeHeight c2 e2 (hall2 c2 (get?_mem hc2))]
                  exact h4 ▸ hcL)).2.1
            · rw [heq1]
              simp only [inorder_mk]
              rw [hset]
              refine hsort2.sublist ?_
              rw [hsplit, List.append_assoc, List.append_assoc]
              exact (hressub.append_right R).append_left L
            · rw [heq1]
              rw [← hde] at hde2
              exact hde2 ▸ (set_node_shapes hc2 rfl hAe hSe hLe hcA hcS
                (by
                  intro h
                  have hl := congrArg List.length h
                  simp only [List.length_nil] at hl
                  omega)
                (fun e3 h3 => by
                  have h4 : e3 = e2 := by
                    rw [← leavesAt_nodeHeight c2 e3 h3,
                      leavesAt_nodeHeight c2 e2 (hall2 c2 (get?_mem hc2))]
                  exact h4 ▸ hcL)).2.2
            · rw [heq1]
              simp only [BNode.keys_mk]
              omega
            · rw [heq1]
              simp only [BNode.keys_mk]
              omega
          · -- child has slack: descend directly
            have heq : removeFromNode cmp P (fuel + 1) (BNode.mk ks (c0 :: cs0)) key =
                (BNode.mk ks
                  ((c0 :: cs0).set idx (removeFromNode cmp P fuel child key).1),
                  (removeFromNode cmp P fuel child key).2) := by
              rw [removeFromNode]
              simp only [BNode.keys_mk, BNode.children_mk, hsearch, BNode.isLeaf,
                List.isEmpty_cons, Bool.false_eq_true, if_false, hc, if_neg hsl]
            obtain ⟨L, R, hset, hsplit, hLlt, hRgt⟩ :=
              descend_decomp harity hsortflat hsearch hc
            obtain ⟨hcnone, hcsome, hciff, hcA, hcS, hcSort, hcL, hclen1, hclen2⟩ :=
              ih.1 child key e hcWF.1
                (hEq.mono (fun x hx => by
                  simp only [inorder_mk]
                  exact mem_child_inorderZip ks (get?_mem hc) hx))
                (hall child (get?_mem hc))
                (fun h => absurd h hcWF.2)
                (by omega)
            have heq1 : (removeFromNode cmp P (fuel + 1) (BNode.mk ks (c0 :: cs0)) key).1 =
                BNode.mk ks ((c0 :: cs0).set idx (removeFromNode cmp P fuel child key).1) := by
              rw [heq]
            have heq2 : (removeFromNode cmp P (fuel + 1) (BNode.mk ks (c0 :: cs0)) key).2 =
                (removeFromNode cmp P fuel child key).2 := by rw [heq]
            have hchildlen : 1 ≤ child.keys.length := by
              cases hq : child.keys with
              | nil => exact absurd hq hcWF.2
              | cons a l => simp
            have hressub : (inorder (removeFromNode cmp P fuel child key).1).Sublist
                (inorder child) := by
              cases hr2 : (removeFromNode cmp P fuel child key).2 with
              | none => rw [hcnone hr2]
              | some x => exact ((hcsome x hr2).2).erased_sublist
            refine ⟨?_, ?_, ?_, ?_, ?_, ?_, ?_, ?_, ?_⟩
            · intro h
              rw [heq2] at h
              rw [heq1]
              simp only [inorder_mk]
              rw [hset, hcnone h, ← hsplit]
            · intro x hx
              rw [heq2] at hx
              obtain ⟨hxeq, hxrem⟩ := hcsome x hx
              refine ⟨hxeq, ?_⟩
              rw [heq1]
              simp only [inorder_mk]
              rw [hset, hsplit]
              exact hxrem.frame
            · rw [heq2, hciff]
              have hpic := present_iff_child hsplit hLlt hRgt
              simp only [inorder_mk]
              exact hpic.symm
            · rw [heq1]
              exact (set_node_shapes hc rfl hWF.1 hWF.2.1 hlv hcA hcS
                (by
                  intro h
                  have hl := congrArg List.length h
                  simp only [List.length_nil] at hl
                  omega)
                (fun e3 h3 => by
                  have h4 : e3 = e := by
                    rw [← leavesAt_nodeHeight child e3 h3,
                      leavesAt_nodeHeight child e (hall child (get?_mem hc))]
                  exact h4 ▸ hcL)).1
            · rw [heq1]
              exact (set_node_shapes hc rfl hWF.1 hWF.2.1 hlv hcA hcS
                (by
                  intro h
                  have hl := congrArg List.length h
                  simp only [List.length_nil] at hl
                  omega)
                (fun e3 h3 => by
                  have h4 : e3 = e := by
                    rw [← leavesAt_nodeHeight child e3 h3,
                      leavesAt_nodeHeight child e (hall child (get?_mem hc))]
                  exact h4 ▸ hcL)).2.1
            · rw [heq1]
              simp only [inorder_mk]
              rw [hset]
              refine hsortflat.sublist ?_
              rw [hsplit, List.append_assoc, List.append_assoc]
              exact (hressub.append_right R).append_left L
            · rw [heq1]
              exact (set_node_shapes hc rfl hWF.1 hWF.2.1 hlv hcA hcS
                (by
                  intro h
                  have hl := congrArg List.length h
                  simp only [List.length_nil] at hl
                  omega)
                (fun e3 h3 => by
                  have h4 : e3 = e := by
                    rw [← leavesAt_nodeHeight child e3 h3,
                      leavesAt_nodeHeight child e (hall child (get?_mem hc))]
                  exact h4 ▸ hcL)).2.2
            · rw [heq1]
              simp only [BNode.keys_mk]
              omega
            · rw [heq1]
              simp only [BNode.keys_mk]
              omega
    · -- remove_from_internal_node
      intro node keyIdx k0 d hWF hEq hlv hk hch hfuel
      obtain ⟨ks, cs⟩ := node
      simp only [BNode.keys_mk] at hk
      simp only [BNode.children_mk] at hch
      have hsortflat : SortedCmp cmp (inorderZip cs ks) := by simpa using hWF.2.2
      have hik : keyIdx < ks.length := by
        rw [List.get?_eq_getElem?] at hk
        exact (List.getElem?_eq_some_iff.mp (by simpa using hk)).1
      have harity : cs.length = ks.length + 1 := by
        rcases (arityOk_mk.mp hWF.1).1 with h | h
        · exact absurd h hch
        · exact h
      obtain ⟨lc, hcl⟩ : ∃ c, cs.get? keyIdx = some c := get?_lt_length (by omega)
      obtain ⟨rc, hcr⟩ : ∃ c, cs.get? (keyIdx + 1) = some c := get?_lt_length (by omega)
      obtain ⟨e, hde, hall⟩ := (leavesAt_mk hch).mp hlv
      have hlcWF := hWF.child (by simpa using get?_mem hcl)
      have hrcWF := hWF.child (by simpa using get?_mem hcr)
      have hlclen : 1 ≤ lc.keys.length := by
        cases hq : lc.keys with
        | nil => exact absurd hq hlcWF.2
        | cons a l => simp
      have hrclen : 1 ≤ rc.keys.length := by
        cases hq : rc.keys with
        | nil => exact absurd hq hrcWF.2
        | cons a l => simp
      obtain ⟨hfold, hfnew⟩ := pair_flat hk hcl hcr
      have hlcmem : ∀ x ∈ inorder lc, x ∈ inorderZip cs ks :=
        fun x hx => mem_child_inorderZip ks (get?_mem hcl) hx
      have hrcmem : ∀ x ∈ inorder rc, x ∈ inorderZip cs ks :=
        fun x hx => mem_child_inorderZip ks (get?_mem hcr) hx
      by_cases hPle : P.minKeys < lc.keys.length
      · -- replace by the predecessor
        rcases (inorder lc).eq_nil_or_concat with hnil | ⟨M1, predKey, hM⟩
        · exact absurd hnil (inorder_ne_nil hlcWF.2)
        rw [List.concat_eq_append] at hM
        have hgl : (inorder lc).getLast? = some predKey := by rw [hM]; simp
        have hpredmem : predKey ∈ inorder lc := by rw [hM]; simp
        have hpred : getPredecessor (fuel + 1) lc = some predKey := by
          rw [getPredecessor_spec (fuel + 1) lc e hlcWF.1.1 hlcWF.1.2.1
            (hall lc (get?_mem hcl)) (by omega)]
          exact hgl
        have heq : removeFromInternalNode cmp P (fuel + 1) (BNode.mk ks cs) keyIdx =
            (BNode.mk (ks.set keyIdx predKey)
              (cs.set keyIdx (removeFromNode cmp P fuel lc predKey).1), some k0) := by
          rw [removeFromInternalNode]
          simp only [BNode.keys_mk, BNode.children_mk, hk, hcl, hcr, if_pos hPle, hpred]
        have hlcsort : SortedCmp cmp (inorder lc) := hlcWF.1.2.2
        have hEqlc : EqStrict cmp (inorder lc) :=
          hEq.mono (fun x hx => by simpa using hlcmem x hx)
        obtain ⟨hcnone, hcsome, hciff, hcA, hcS, hcSort, hcL, hclen1, hclen2⟩ :=
          ih.1 lc predKey e hlcWF.1 hEqlc (hall lc (get?_mem hcl))
            (fun h => absurd h hlcWF.2) (by omega)
        have hpresent : (removeFromNode cmp P fuel lc predKey).2.isSome = true :=
          hciff.mpr ⟨predKey, hpredmem, Batteries.OrientedCmp.cmp_refl⟩
        obtain ⟨y, hy⟩ : ∃ y, (removeFromNode cmp P fuel lc predKey).2 = some y := by
          cases hq : (removeFromNode cmp P fuel lc predKey).2 with
          | none => rw [hq] at hpresent; cases hpresent
          | some y => exact ⟨y, rfl⟩
        obtain ⟨hyeq, hyrem⟩ := hcsome y hy
        have hyp : y = predKey :=
          hEqlc y hyrem.mem predKey hpredmem hyeq
        rw [hyp] at hy hyrem
        obtain ⟨L1, R1, hMsplit, hMnew⟩ := hyrem
        have hR1all : ∀ x ∈ R1, x = predKey := by
          intro x hx
          have hxmem : x ∈ inorder lc := by rw [hMsplit]; simp [hx]
          have h1 : cmp x predKey ≠ .gt := sorted_le_last hlcsort hgl x hxmem
          have h2 : cmp predKey x ≠ .gt := by
            have hs2 : SortedCmp cmp (predKey :: R1) := by
              refine hlcsort.sublist ?_
              rw [hMsplit]
              exact List.sublist_append_right _ _
            exact (List.pairwise_cons.mp hs2).1 x hx
          have h3 : cmp x predKey = .eq := by
            cases h4 : cmp x predKey with
            | lt => exact absurd (Batteries.OrientedCmp.cmp_eq_gt.mpr h4) h2
            | eq => rfl
            | gt => exact absurd h4 h1
          exact hEqlc x hxmem predKey hpredmem h3
        have hflatlc : inorder (removeFromNode cmp P fuel lc predKey).1 ++ [predKey] =
            inorder lc := by
          rw [hMnew, hMsplit, List.append_assoc, all_eq_append_singleton hR1all]
        have hchEq : cs.set keyIdx (removeFromNode cmp P fuel lc predKey).1 =
            cs.take keyIdx ++ (removeFromNode cmp P fuel lc predKey).1 :: rc ::
              cs.drop (keyIdx + 2) := by
          rw [set_middle hcl, drop_eq_cons_of_get? hcr]
        have hksEq : ks.set keyIdx predKey =
            ks.take keyIdx ++ predKey :: ks.drop (keyIdx + 1) := set_middle hk _
        have hnewflat : inorderZip (cs.set keyIdx (removeFromNode cmp P fuel lc predKey).1)
            (ks.set keyIdx predKey) =
            inorderZip (cs.take keyIdx) (ks.take keyIdx) ++
              inorder (removeFromNode cmp P fuel lc predKey).1 ++
              predKey :: inorder rc ++
              restZip (ks.drop (keyIdx + 1)) (cs.drop (keyIdx + 2)) := by
          rw [hchEq, hksEq]
          exact hfnew predKey _ rc
        have hrem : RemovedAt k0 (inorderZip cs ks)
            (inorderZip (cs.set keyIdx (removeFromNode cmp P fuel lc predKey).1)
              (ks.set keyIdx predKey)) := by
          refine ⟨inorderZip (cs.take keyIdx) (ks.take keyIdx) ++ inorder lc,
            inorder rc ++ restZip (ks.drop (keyIdx + 1)) (cs.drop (keyIdx + 2)), ?_, ?_⟩
          · rw [hfold]
            simp [List.append_assoc]
          · rw [hnewflat, ← hflatlc]
            simp [List.append_assoc]
        have heq1 : (removeFromInternalNode cmp P (fuel + 1) (BNode.mk ks cs) keyIdx).1 =
            BNode.mk (ks.set keyIdx predKey)
              (cs.set keyIdx (removeFromNode cmp P fuel lc predKey).1) := by rw [heq]
        have heq2 : (removeFromInternalNode cmp P (fuel + 1) (BNode.mk ks cs) keyIdx).2 =
            some k0 := by rw [heq]
        have hshapes := set_node_shapes hcl (List.length_set ks keyIdx predKey)
          hWF.1 hWF.2.1 hlv hcA hcS
          (by
            intro h
            have hl := congrArg List.length h
            simp only [List.length_nil] at hl
            omega)
          (fun e3 h3 => by
            have h4 : e3 = e := by
              rw [← leavesAt_nodeHeight lc e3 h3,
                leavesAt_nodeHeight lc e (hall lc (get?_mem hcl))]
            exact h4 ▸ hcL)
        refine ⟨⟨k0, heq2, Batteries.OrientedCmp.cmp_refl, ?_⟩, ?_, ?_, ?_, ?_, ?_, ?_⟩
        · rw [heq1]
          simp only [inorder_mk]
          exact hrem
        · rw [heq1]
          exact hshapes.1
        · rw [heq1]
          exact hshapes.2.1
        · rw [heq1]
          simp only [inorder_mk]
          exact hsortflat.sublist hrem.erased_sublist
        · rw [heq1]
          exact hshapes.2.2
        · rw [heq1]
          simp only [BNode.keys_mk, List.length_set]
          omega
        · rw [heq1]
          simp only [BNode.keys_mk, List.length_set]
          omega
      · by_cases hPri : P.minKeys < rc.keys.length
        · -- replace by the successor
          cases hrcflat : inorder rc with
          | nil => exact absurd hrcflat (inorder_ne_nil hrcWF.2)
          | cons succKey M1 =>
          have hhd : (inorder rc).head? = some succKey := by rw [hrcflat]; rfl
          have hsuccmem : succKey ∈ inorder rc := by rw [hrcflat]; simp
          have hsucc : getSuccessor (fuel + 1) rc = some succKey := by
            rw [getSuccessor_spec (fuel + 1) rc e hrcWF.1.1 hrcWF.1.2.1
              (hall rc (get?_mem hcr)) (by omega)]
            exact hhd
          have heq : removeFromInternalNode cmp P (fuel + 1) (BNode.mk ks cs) keyIdx =
              (BNode.mk (ks.set keyIdx succKey)
                (cs.set (keyIdx + 1) (removeFromNode cmp P fuel rc succKey).1), some k0) := by
            rw [removeFromInternalNode]
            simp only [BNode.keys_mk, BNode.children_mk, hk, hcl, hcr, if_neg hPle,
              if_pos hPri, hsucc]
          have hrcsort : SortedCmp cmp (inorder rc) := hrcWF.1.2.2
          have hEqrc : EqStrict cmp (inorder rc) :=
            hEq.mono (fun x hx => by simpa using hrcmem x hx)
          obtain ⟨hcnone, hcsome, hciff, hcA, hcS, hcSort, hcL, hclen1, hclen2⟩ :=
            ih.1 rc succKey e hrcWF.1 hEqrc (hall rc (get?_mem hcr))
              (fun h => absurd h hrcWF.2) (by omega)
          have hpresent : (removeFromNode cmp P fuel rc succKey).2.isSome = true :=
            hciff.mpr ⟨succKey, hsuccmem, Batteries.OrientedCmp.cmp_refl⟩
          obtain ⟨y, hy⟩ : ∃ y, (removeFromNode cmp P fuel rc succKey).2 = some y := by
            cases hq : (removeFromNode cmp P fuel rc succKey).2 with
            | none => rw [hq] at hpresent; cases hpresent
            | some y => exact ⟨y, rfl⟩
          obtain ⟨hyeq, hyrem⟩ := hcsome y hy
          have hyp : y = succKey :=
            hEqrc y hyrem.mem succKey hsuccmem hyeq
          rw [hyp] at hy hyrem
          obtain ⟨L1, R1, hMsplit, hMnew⟩ := hyrem
          have hL1all : ∀ x ∈ L1, x = succKey := by
            intro x hx
            have hxmem : x ∈ inorder rc := by rw [hMsplit]; simp [hx]
            have h1 : cmp succKey x ≠ .gt := sorted_head_le hrcsort hhd x hxmem
            have h2 : cmp x succKey ≠ .gt := by
              have hs2 : SortedCmp cmp (L1 ++ succKey :: R1) := by
                rw [← hMsplit]
                exact hrcsort
              exact (List.pairwise_append.mp hs2).2.2 x hx succKey (by simp)
            have h3 : cmp x succKey = .eq := by
              cases h4 : cmp x succKey with
              | lt => exact absurd (Batteries.OrientedCmp.cmp_eq_gt.mpr h4) h1
              | eq => rfl
              | gt => exact absurd h4 h2
            exact hEqrc x hxmem succKey hsuccmem h3
          have hflatrc : succKey :: inorder (removeFromNode cmp P fuel rc succKey).1 =
              inorder rc := by
            rw [hMnew, hMsplit]
            have hcomm : succKey :: L1 = L1 ++ [succKey] :=
              (all_eq_append_singleton hL1all).symm
            calc succKey :: (L1 ++ R1) = (succKey :: L1) ++ R1 := rfl
              _ = (L1 ++ [succKey]) ++ R1 := by rw [hcomm]
              _ = L1 ++ succKey :: R1 := by simp
          have hchEq : cs.set (keyIdx + 1) (removeFromNode cmp P fuel rc succKey).1 =
              cs.take keyIdx ++ lc :: (removeFromNode cmp P fuel rc succKey).1 ::
                cs.drop (keyIdx + 2) := by
            rw [set_middle hcr, take_succ_of_get? hcl]
            simp
          have hksEq : ks.set keyIdx succKey =
              ks.take keyIdx ++ succKey :: ks.drop (keyIdx + 1) := set_middle hk _
          have hnewflat : inorderZip (cs.set (keyIdx + 1)
              (removeFromNode cmp P fuel rc succKey).1) (ks.set keyIdx succKey) =
              inorderZip (cs.take keyIdx) (ks.take keyIdx) ++
                inorder lc ++
                succKey :: inorder (removeFromNode cmp P fuel rc succKey).1 ++
                restZip (ks.drop (keyIdx + 1)) (cs.drop (keyIdx + 2)) := by
            rw [hchEq, hksEq]
            exact hfnew succKey lc _
          have hrem : RemovedAt k0 (inorderZip cs ks)
              (inorderZip (cs.set (keyIdx + 1) (removeFromNode cmp P fuel rc succKey).1)
                (ks.set keyIdx succKey)) := by
            refine ⟨inorderZip (cs.take keyIdx) (ks.take keyIdx) ++ inorder lc,
              inorder rc ++ restZip (ks.drop (keyIdx + 1)) (cs.drop (keyIdx + 2)), ?_, ?_⟩
            · rw [hfold]
              simp [List.append_assoc]
            · rw [hnewflat, ← hflatrc]
              simp [List.append_assoc]
          have heq1 : (removeFromInternalNode cmp P (fuel + 1) (BNode.mk ks cs) keyIdx).1 =
              BNode.mk (ks.set keyIdx succKey)
                (cs.set (keyIdx + 1) (removeFromNode cmp P fuel rc succKey).1) := by rw [heq]
          have heq2 : (removeFromInternalNode cmp P (fuel + 1) (BNode.mk ks cs) keyIdx).2 =
              some k0 := by rw [heq]
          have hshapes := set_node_shapes hcr (List.length_set ks keyIdx succKey)
            hWF.1 hWF.2.1 hlv hcA hcS
            (by
              intro h
              have hl := congrArg List.length h
              simp only [List.length_nil] at hl
              omega)
            (fun e3 h3 => by
              have h4 : e3 = e := by
                rw [← leavesAt_nodeHeight rc e3 h3,
                  leavesAt_nodeHeight rc e (hall rc (get?_mem hcr))]
              exact h4 ▸ hcL)
          refine ⟨⟨k0, heq2, Batteries.OrientedCmp.cmp_refl, ?_⟩, ?_, ?_, ?_, ?_, ?_, ?_⟩
          · rw [heq1]
            simp only [inorder_mk]
            exact hrem
          · rw [heq1]
            exact hshapes.1
          · rw [heq1]
            exact hshapes.2.1
          · rw [heq1]
            simp only [inorder_mk]
            exact hsortflat.sublist hrem.erased_sublist
          · rw [heq1]
            exact hshapes.2.2
          · rw [heq1]
            simp only [BNode.keys_mk, List.length_set]
            omega
          · rw [heq1]
            simp only [BNode.keys_mk, List.length_set]
            omega
        · -- both children minimal: merge, then delete from the merged child
          obtain ⟨heqM, hflatM, hAM, hSM, hLM, hgetM⟩ :=
            mergeChildren_spec hk hcl hcr hWF.1 hWF.2.1 hlv
          have hlenA : (cs.take keyIdx).length = keyIdx := List.length_take_of_le (by omega)
          have hlenK : (ks.take keyIdx).length = keyIdx := List.length_take_of_le (by omega)
          have hgetc : (cs.take keyIdx ++
              BNode.mk (lc.keys ++ k0 :: rc.keys) (lc.children ++ rc.children) ::
                cs.drop (keyIdx + 2)).get? keyIdx =
              some (BNode.mk (lc.keys ++ k0 :: rc.keys) (lc.children ++ rc.children)) :=
            get?_append_cons hlenA
          have heq : removeFromInternalNode cmp P (fuel + 1) (BNode.mk ks cs) keyIdx =
              (BNode.mk (ks.take keyIdx ++ ks.drop (keyIdx + 1))
                ((cs.take keyIdx ++
                    BNode.mk (lc.keys ++ k0 :: rc.keys) (lc.children ++ rc.children) ::
                      cs.drop (keyIdx + 2)).set keyIdx
                  (removeFromNode cmp P fuel
                    (BNode.mk (lc.keys ++ k0 :: rc.keys) (lc.children ++ rc.children)) k0).1),
                (removeFromNode cmp P fuel
                  (BNode.mk (lc.keys ++ k0 :: rc.keys) (lc.children ++ rc.children)) k0).2) := by
            rw [removeFromInternalNode]
            simp only [BNode.keys_mk, BNode.children_mk, hk, hcl, hcr, if_neg hPle,
              if_neg hPri, heqM, BNode.keys_mk, BNode.children_mk, hgetc]
          have hMflatdecomp : inorderZip (cs.take keyIdx ++
              BNode.mk (lc.keys ++ k0 :: rc.keys) (lc.children ++ rc.children) ::
                cs.drop (keyIdx + 2)) (ks.take keyIdx ++ ks.drop (keyIdx + 1)) =
              inorderZip (cs.take keyIdx) (ks.take keyIdx) ++
                inorder (BNode.mk (lc.keys ++ k0 :: rc.keys) (lc.children ++ rc.children)) ++
                restZip (ks.drop (keyIdx + 1)) (cs.drop (keyIdx + 2)) := by
            rw [inorderZip_append_exact _ _ _ _ (by rw [hlenA, hlenK])]
            rw [inorderZip_cons_restZip]
            simp [List.append_assoc]
          have hflatM2 : inorderZip (cs.take keyIdx) (ks.take keyIdx) ++
              inorder (BNode.mk (lc.keys ++ k0 :: rc.keys) (lc.children ++ rc.children)) ++
              restZip (ks.drop (keyIdx + 1)) (cs.drop (keyIdx + 2)) =
              inorderZip cs ks := by
            rw [← hMflatdecomp]
            rw [heqM] at hflatM
            simpa using hflatM
          have hMarity : arityOk (BNode.mk (lc.keys ++ k0 :: rc.keys)
              (lc.children ++ rc.children)) = true := by
            rw [heqM] at hAM
            exact (arityOk_mk.mp hAM).2 _ (by simp)
          have hMsub2 := by
            rw [heqM] at hSM
            exact (subNonempty_mk.mp hSM) _
              (show (BNode.mk (lc.keys ++ k0 :: rc.keys) (lc.children ++ rc.children)) ∈ _
                by simp)
          have hMsorted : SortedCmp cmp
              (inorder (BNode.mk (lc.keys ++ k0 :: rc.keys) (lc.children ++ rc.children))) := by
            refine @SortedCmp.of_middle α cmp
              (inorderZip (cs.take keyIdx) (ks.take keyIdx)) _
              (restZip (ks.drop (keyIdx + 1)) (cs.drop (keyIdx + 2))) ?_
            rw [hflatM2]
            exact hsortflat
          have hMlv : leavesAt (BNode.mk (lc.keys ++ k0 :: rc.keys)
              (lc.children ++ rc.children)) e = true := by
            rw [heqM] at hLM
            obtain ⟨e4, hde4, hall4⟩ := (leavesAt_mk (by simp)).mp hLM
            have he4 : e4 = e := by omega
            rw [← he4]
            exact hall4 _ (by simp)
          have hMmem : ∀ x ∈ inorder (BNode.mk (lc.keys ++ k0 :: rc.keys)
              (lc.children ++ rc.children)), x ∈ inorderZip cs ks := by
            intro x hx
            rw [← hflatM2]
            exact List.mem_append_left _ (List.mem_append_right _ hx)
          obtain ⟨hcnone, hcsome, hciff, hcA, hcS, hcSort, hcL, hclen1, hclen2⟩ :=
            ih.1 (BNode.mk (lc.keys ++ k0 :: rc.keys) (lc.children ++ rc.children)) k0 e
              ⟨hMarity, hMsub2.2, hMsorted⟩
              (hEq.mono (fun x hx => by simpa using hMmem x hx))
              hMlv
              (by intro h; simp at h)
              (by omega)
          have hk0mem : k0 ∈ inorder (BNode.mk (lc.keys ++ k0 :: rc.keys)
              (lc.children ++ rc.children)) := by
            simp only [inorder_mk]
            exact mem_keys_inorderZip _ (by simp)
          have hpresent : (removeFromNode cmp P fuel
              (BNode.mk (lc.keys ++ k0 :: rc.keys) (lc.children ++ rc.children)) k0).2.isSome =
              true := hciff.mpr ⟨k0, hk0mem, Batteries.OrientedCmp.cmp_refl⟩
          obtain ⟨y, hy⟩ : ∃ y, (removeFromNode cmp P fuel
              (BNode.mk (lc.keys ++ k0 :: rc.keys) (lc.children ++ rc.children)) k0).2 =
              some y := by
            cases hq : (removeFromNode cmp P fuel
                (BNode.mk (lc.keys ++ k0 :: rc.keys) (lc.children ++ rc.children)) k0).2 with
            | none => rw [hq] at hpresent; cases hpresent
            | some y => exact ⟨y, rfl⟩
          obtain ⟨hyeq, hyrem⟩ := hcsome y hy
          have hsetEq : (cs.take keyIdx ++
              BNode.mk (lc.keys ++ k0 :: rc.keys) (lc.children ++ rc.children) ::
                cs.drop (keyIdx + 2)).set keyIdx
              (removeFromNode cmp P fuel
                (BNode.mk (lc.keys ++ k0 :: rc.keys) (lc.children ++ rc.children)) k0).1 =
              cs.take keyIdx ++
                (removeFromNode cmp P fuel
                  (BNode.mk (lc.keys ++ k0 :: rc.keys) (lc.children ++ rc.children)) k0).1 ::
                cs.drop (keyIdx + 2) := by
            rw [set_middle hgetc]
            congr 1
            · exact take_append_left hlenA
            · congr 1
              rw [show cs.take keyIdx ++
                  BNode.mk (lc.keys ++ k0 :: rc.keys) (lc.children ++ rc.children) ::
                    cs.drop (keyIdx + 2) =
                  (cs.take keyIdx ++
                    [BNode.mk (lc.keys ++ k0 :: rc.keys) (lc.children ++ rc.children)]) ++
                    cs.drop (keyIdx + 2) by simp]
              exact drop_append_left (by simp [hlenA])
          have hnewflat : inorderZip ((cs.take keyIdx ++
              BNode.mk (lc.keys ++ k0 :: rc.keys) (lc.children ++ rc.children) ::
                cs.drop (keyIdx + 2)).set keyIdx
              (removeFromNode cmp P fuel
                (BNode.mk (lc.keys ++ k0 :: rc.keys) (lc.children ++ rc.children)) k0).1)
              (ks.take keyIdx ++ ks.drop (keyIdx + 1)) =
              inorderZip (cs.take keyIdx) (ks.take keyIdx) ++
                inorder (removeFromNode cmp P fuel
                  (BNode.mk (lc.keys ++ k0 :: rc.keys) (lc.children ++ rc.children)) k0).1 ++
                restZip (ks.drop (keyIdx + 1)) (cs.drop (keyIdx + 2)) := by
            rw [hsetEq]
            rw [inorderZip_append_exact _ _ _ _ (by rw [hlenA, hlenK])]
            rw [inorderZip_cons_restZip]
            simp [List.append_assoc]
          have hrem : RemovedAt y (inorderZip cs ks)
              (inorderZip ((cs.take keyIdx ++
                BNode.mk (lc.keys ++ k0 :: rc.keys) (lc.children ++ rc.children) ::
                  cs.drop (keyIdx + 2)).set keyIdx
                (removeFromNode cmp P fuel
                  (BNode.mk (lc.keys ++ k0 :: rc.keys) (lc.children ++ rc.children)) k0).1)
                (ks.take keyIdx ++ ks.drop (keyIdx + 1))) := by
            rw [hnewflat, ← hflatM2]
            have h := @RemovedAt.frame α _ _ _
              (inorderZip (cs.take keyIdx) (ks.take keyIdx))
              (restZip (ks.drop (keyIdx + 1)) (cs.drop (keyIdx + 2))) hyrem
            exact h
          have heq1 : (removeFromInternalNode cmp P (fuel + 1) (BNode.mk ks cs) keyIdx).1 =
              BNode.mk (ks.take keyIdx ++ ks.drop (keyIdx + 1))
                ((cs.take keyIdx ++
                    BNode.mk (lc.keys ++ k0 :: rc.keys) (lc.children ++ rc.children) ::
                      cs.drop (keyIdx + 2)).set keyIdx
                  (removeFromNode cmp P fuel
                    (BNode.mk (lc.keys ++ k0 :: rc.keys) (lc.children ++ rc.children)) k0).1) := by
            rw [heq]
          have heq2 : (removeFromInternalNode cmp P (fuel + 1) (BNode.mk ks cs) keyIdx).2 =
              (removeFromNode cmp P fuel
                (BNode.mk (lc.keys ++ k0 :: rc.keys) (lc.children ++ rc.children)) k0).2 := by
            rw [heq]
          rw [heqM] at hAM hSM hLM
          have hshapes := set_node_shapes hgetc rfl hAM hSM hLM hcA hcS
            (by
              intro h
              have hl := congrArg List.length h
              have hml := hclen1
              simp only [List.length_nil] at hl
              simp only [BNode.keys_mk, List.length_append, List.length_cons] at hml
              omega)
            (fun e3 h3 => by
              have h4 : e3 = e := by
                rw [← leavesAt_nodeHeight _ e3 h3, leavesAt_nodeHeight _ e hMlv]
              exact h4 ▸ hcL)
          refine ⟨⟨y, heq2 ▸ hy, hyeq, ?_⟩, ?_, ?_, ?_, ?_, ?_, ?_⟩
          · rw [heq1]
            simp only [inorder_mk]
            exact hrem
          · rw [heq1]
            exact hshapes.1
          · rw [heq1]
            exact hshapes.2.1
          · rw [heq1]
            simp only [inorder_mk]
            exact hsortflat.sublist hrem.erased_sublist
          · rw [heq1]
            exact hshapes.2.2
          · rw [heq1]
            simp only [BNode.keys_mk, List.length_append, hlenK, List.length_drop]
            omega
          · rw [heq1]
            simp only [BNode.keys_mk, List.length_append, hlenK, List.length_drop]
            omega


/-! ## The tree-level invariant -/

/-- The invariant every tree reachable through the public API satisfies: a
well-formed root, uniform leaf depth, no key-less root with children, and an
accurate stored length. -/
def TreeInv (cmp : α → α → Ordering) (t : BTree α) : Prop :=
  NodeWF cmp t.root ∧ (∃ d, leavesAt t.root d = true) ∧
  (t.root.keys = [] → t.root.children = []) ∧
  t.props.len = (inorder t.root).length

/-- The properties as built by `BTreeProperties::new degree`, `len` aside. -/
def PropsShape (P : BTreeProperties) (degree : Nat) : Prop :=
  P.degree = degree ∧ P.maxKeys = degree - 1 ∧ P.minKeys = degree / 2 ∧
  P.midKeyIndex = (degree - 1) / 2

theorem treeInv_new (cmp : α → α → Ordering) (bf : Nat) :
    TreeInv cmp (BTree.new bf : BTree α) ∧
    PropsShape (BTree.new bf : BTree α).props (2 * bf) := by
  refine ⟨⟨⟨?_, ?_, ?_⟩, ⟨1, ?_⟩, fun _ => rfl, ?_⟩, rfl, rfl, rfl, rfl⟩
  · show arityOk (BNode.mk ([] : List α) []) = true
    rw [arityOk_mk]
    exact ⟨Or.inl rfl, by simp⟩
  · show subNonempty (BNode.mk ([] : List α) []) = true
    rw [subNonempty_mk]
    simp
  · show SortedCmp cmp (inorder (BNode.mk ([] : List α) []))
    simp only [inorder_mk, inorderZip_nil]
    exact SortedCmp.nil cmp
  · show leavesAt (BNode.mk ([] : List α) []) 1 = true
    rw [leavesAt_leaf]
  · show (0 : Nat) = (inorder (BNode.mk ([] : List α) [])).length
    simp

/-- `insert_non_full` never leaves the target node key-less (on a root obeying
the empty-root convention). -/
theorem insertNonFull_keys_ne_nil {cmp : α → α → Ordering} [Batteries.TransCmp cmp]
    {P : BTreeProperties}
    (hmid1 : 1 ≤ P.midKeyIndex) (hmid2 : P.midKeyIndex + 2 ≤ P.maxKeys)
    (fuel : Nat) (node : BNode α) (key : α) (d : Nat)
    (hWF : NodeWF cmp node) (hlv : leavesAt node d = true) (hfd : d ≤ fuel)
    (hroot : node.keys = [] → node.children = []) :
    (insertNonFull cmp P fuel node key).keys ≠ [] := by
  obtain ⟨hIA, hWF2, hlv2, hklen2⟩ :=
    insertNonFull_spec hmid1 hmid2 fuel node key d hWF hlv hfd
  obtain ⟨ks, cs⟩ := node
  cases cs with
  | nil =>
    cases fuel with
    | zero =>
      rw [leavesAt_leaf] at hlv
      exact absurd hfd (by omega)
    | succ f =>
      have heqL : insertNonFull cmp P (f + 1) (BNode.mk ks []) key =
          BNode.mk (ks.insertIdx (findInsertionIndex cmp ks key) key) [] := by
        rw [insertNonFull]
        simp [BNode.isLeaf]
      rw [heqL]
      simp only [BNode.keys_mk]
      intro h
      have hl := congrArg List.length h
      rw [insertIdx_eq_take_cons_drop key (findInsertionIndex_spec cmp ks key).1] at hl
      simp at hl
  | cons c0 cs0 =>
    have hkne : ks ≠ [] := by
      intro hq
      have h2 := hroot hq
      simp only [BNode.children_mk] at h2
      cases h2
    intro h
    have hl := congrArg List.length h
    simp only [List.length_nil] at hl
    simp only [BNode.keys_mk] at hklen2
    have h1 : 1 ≤ ks.length := by
      cases hq : ks with
      | nil => exact absurd hq hkne
      | cons a l => simp
    omega

/-- `BTree::insert` inserts the key in order and preserves the invariant;
`props.len` grows by one and the other properties are unchanged. -/
theorem BTree.insert_spec {cmp : α → α → Ordering} [Batteries.TransCmp cmp]
    {t : BTree α} (key : α)
    (hmid1 : 1 ≤ t.props.midKeyIndex) (hmid2 : t.props.midKeyIndex + 2 ≤ t.props.maxKeys)
    (hInv : TreeInv cmp t) :
    InsertedAt cmp key (inorder t.root) (inorder (t.insert cmp key).root) ∧
    TreeInv cmp (t.insert cmp key) ∧
    (t.insert cmp key).props.degree = t.props.degree ∧
    (t.insert cmp key).props.maxKeys = t.props.maxKeys ∧
    (t.insert cmp key).props.minKeys = t.props.minKeys ∧
    (t.insert cmp key).props.midKeyIndex = t.props.midKeyIndex ∧
    (t.insert cmp key).props.len = t.props.len + 1 := by
  obtain ⟨hWF, ⟨d, hlv⟩, hroot, hlen⟩ := hInv
  by_cases hfull : isFull t.props t.root = true
  · -- the root is full: split it below a fresh empty root first
    have heqt : t.insert cmp key =
        { root := insertNonFull cmp t.props
            (nodeHeight (splitChild t.props (BNode.mk [] [t.root]) 0) + 1)
            (splitChild t.props (BNode.mk [] [t.root]) 0) key
          props := { t.props with len := t.props.len + 1 } } := by
      rw [BTree.insert]
      simp only [if_pos hfull]
    have hfull2 : t.props.maxKeys ≤ t.root.keys.length := by
      rw [isFull] at hfull
      simpa using hfull
    have hrootne : t.root.keys ≠ [] := by
      intro h
      have h2 := congrArg List.length h
      simp only [List.length_nil] at h2
      omega
    obtain ⟨leftN, rightN, middle, heq2, hmid, hflat, hflat2, haOk2, hne2, hlvSplit,
      haL, haR, hsubL, hsubR, hneL, hneR, hlvHalves⟩ :=
      @splitChild_node α t.props [] [t.root] 0 t.root rfl (Nat.zero_le _) rfl
        hfull2 hmid1 hmid2
        (by
          rw [arityOk_mk]
          refine ⟨Or.inr rfl, ?_⟩
          intro c hc
          simp only [List.mem_singleton] at hc
          exact hc ▸ hWF.1)
        (by
          rw [subNonempty_mk]
          intro c hc
          simp only [List.mem_singleton] at hc
          exact hc ▸ ⟨hrootne, hWF.2.1⟩)
    have hflatR : inorder (splitChild t.props (BNode.mk [] [t.root]) 0) =
        inorder t.root := by
      rw [hflat2]
      rw [inorderZip_cons_nil, inorderZip_nil]
      simp
    have hlv1 : leavesAt (splitChild t.props (BNode.mk [] [t.root]) 0) (d + 1) = true := by
      refine hlvSplit (d + 1) ?_
      rw [leavesAt_mk (by simp)]
      exact ⟨d, rfl, by simpa using hlv⟩
    have hWF1 : NodeWF cmp (splitChild t.props (BNode.mk [] [t.root]) 0) :=
      ⟨haOk2, hne2, by rw [hflatR]; exact hWF.2.2⟩
    obtain ⟨hIA, hWF2, hlv2, hklen2⟩ :=
      insertNonFull_spec hmid1 hmid2
        (nodeHeight (splitChild t.props (BNode.mk [] [t.root]) 0) + 1)
        (splitChild t.props (BNode.mk [] [t.root]) 0) key (d + 1)
        hWF1 hlv1 (by
          have hht := leavesAt_nodeHeight _ _ hlv1
          omega)
    have hkeys1 : 1 ≤ (splitChild t.props (BNode.mk [] [t.root]) 0).keys.length := by
      rw [heq2]
      simp
    rw [heqt]
    refine ⟨by rw [← hflatR]; exact hIA, ⟨hWF2, ⟨d + 1, hlv2⟩, ?_, ?_⟩, rfl, rfl, rfl,
      rfl, rfl⟩
    · intro h
      have hl := congrArg List.length h
      simp only [List.length_nil] at hl
      omega
    · show t.props.len + 1 = (inorder (insertNonFull cmp t.props
        (nodeHeight (splitChild t.props (BNode.mk [] [t.root]) 0) + 1)
        (splitChild t.props (BNode.mk [] [t.root]) 0) key)).length
      rw [hIA.length, hflatR, hlen]
  · -- the root has room
    have heqt : t.insert cmp key =
        { root := insertNonFull cmp t.props (nodeHeight t.root + 1) t.root key
          props := { t.props with len := t.props.len + 1 } } := by
      rw [BTree.insert]
      simp only [if_neg hfull]
    have hht : nodeHeight t.root = d := leavesAt_nodeHeight _ _ hlv
    obtain ⟨hIA, hWF2, hlv2, hklen2⟩ :=
      insertNonFull_spec hmid1 hmid2 (nodeHeight t.root + 1) t.root key d
        hWF hlv (by omega)
    have hkne := insertNonFull_keys_ne_nil hmid1 hmid2 (nodeHeight t.root + 1)
      t.root key d hWF hlv (by omega) hroot
    rw [heqt]
    refine ⟨hIA, ⟨hWF2, ⟨d, hlv2⟩, fun h => absurd h hkne, ?_⟩, rfl, rfl, rfl, rfl, rfl⟩
    show t.props.len + 1 = (inorder (insertNonFull cmp t.props
      (nodeHeight t.root + 1) t.root key)).length
    rw [hIA.length, hlen]

/-- `BTree::remove` meets the removal contract at tree level and preserves
the invariant; `props.len` shrinks by one exactly on a successful removal and
the other properties are unchanged. -/
theorem BTree.remove_spec {cmp : α → α → Ordering} [Batteries.TransCmp cmp]
    {t : BTree α} (key : α)
    (hminP : 1 ≤ t.props.minKeys)
    (hInv : TreeInv cmp t) (hEq : EqStrict cmp (inorder t.root)) :
    ((t.remove cmp key).2 = none → inorder (t.remove cmp key).1.root = inorder t.root) ∧
    (∀ x, (t.remove cmp key).2 = some x → cmp x key = .eq ∧
      RemovedAt x (inorder t.root) (inorder (t.remove cmp key).1.root)) ∧
    ((t.remove cmp key).2.isSome = true ↔ ∃ y ∈ inorder t.root, cmp y key = .eq) ∧
    TreeInv cmp (t.remove cmp key).1 ∧
    (t.remove cmp key).1.props.degree = t.props.degree ∧
    (t.remove cmp key).1.props.maxKeys = t.props.maxKeys ∧
    (t.remove cmp key).1.props.minKeys = t.props.minKeys ∧
    (t.remove cmp key).1.props.midKeyIndex = t.props.midKeyIndex ∧
    ((t.remove cmp key).2.isSome = true →
      (t.remove cmp key).1.props.len + 1 = t.props.len) ∧
    ((t.remove cmp key).2 = none → (t.remove cmp key).1.props.len = t.props.len) := by
  obtain ⟨hWF, ⟨d, hlv⟩, hroot, hlen⟩ := hInv
  obtain ⟨hcnone, hcsome, hciff, hcA, hcS, hcSort, hcL, hclen1, hclen2⟩ :=
    (remove_master hminP (2 * nodeHeight t.root + 1)).1 t.root key d hWF hEq hlv hroot
      (by
        have hht := leavesAt_nodeHeight _ _ hlv
        omega)
  have heq2 : (t.remove cmp key).2 =
      (removeFromNode cmp t.props (2 * nodeHeight t.root + 1) t.root key).2 := by
    rw [BTree.remove]
  have heqp : (t.remove cmp key).1.props =
      (if (removeFromNode cmp t.props (2 * nodeHeight t.root + 1) t.root key).2.isSome
        then { t.props with len := t.props.len - 1 } else t.props) := by
    rw [BTree.remove]
  have hrooteq : ∃ root2,
      (t.remove cmp key).1.root = root2 ∧
      inorder root2 = inorder
        (removeFromNode cmp t.props (2 * nodeHeight t.root + 1) t.root key).1 ∧
      NodeWF cmp root2 ∧ (∃ d2, leavesAt root2 d2 = true) ∧
      (root2.keys = [] → root2.children = []) := by
    obtain ⟨nks, ncs, hr1⟩ : ∃ nks ncs,
        (removeFromNode cmp t.props (2 * nodeHeight t.root + 1) t.root key).1 =
          BNode.mk nks ncs := by
      cases (removeFromNode cmp t.props (2 * nodeHeight t.root + 1) t.root key).1 with
      | mk a b => exact ⟨a, b, rfl⟩
    rw [hr1] at hcA hcS hcSort hcL
    by_cases hnk : nks = []
    · subst hnk
      cases ncs with
      | nil =>
        refine ⟨BNode.mk [] [], ?_, by rw [hr1], ⟨hcA, hcS, hcSort⟩, ⟨d, hcL⟩,
          fun _ => rfl⟩
        rw [BTree.remove]
        simp [hr1]
      | cons c0 rest =>
        have hrest : rest = [] := by
          rcases (arityOk_mk.mp hcA).1 with h | h
          · cases h
          · have h2 : rest.length = 0 := by simpa using h
            exact List.eq_nil_of_length_eq_zero h2
        subst hrest
        have hNW : NodeWF cmp (BNode.mk ([] : List α) [c0]) := ⟨hcA, hcS, hcSort⟩
        have hc0 := hNW.child (show c0 ∈ (BNode.mk ([] : List α) [c0]).children by simp)
        refine ⟨c0, ?_, ?_, hc0.1, ?_, fun h => absurd h hc0.2⟩
        · rw [BTree.remove]
          simp [hr1]
        · rw [hr1]
          simp only [inorder_mk, inorderZip_cons_nil, inorderZip_nil]
          simp
        · obtain ⟨e, hde, hall⟩ := (leavesAt_mk (by simp)).mp hcL
          exact ⟨e, hall c0 (by simp)⟩
    · refine ⟨BNode.mk nks ncs, ?_, by rw [hr1], ⟨hcA, hcS, hcSort⟩, ⟨d, hcL⟩,
        fun h => absurd (by simpa using h) hnk⟩
      rw [BTree.remove]
      simp [hr1, hnk]
  obtain ⟨root2, hre, hrflat, hrWF, hrlv, hrne⟩ := hrooteq
  refine ⟨?_, ?_, ?_, ⟨by rw [hre]; exact hrWF, by rw [hre]; exact hrlv,
    by rw [hre]; exact hrne, ?_⟩, ?_, ?_, ?_, ?_, ?_, ?_⟩
  · intro h
    rw [heq2] at h
    rw [hre, hrflat, hcnone h]
  · intro x hx
    rw [heq2] at hx
    obtain ⟨h1, h2⟩ := hcsome x hx
    rw [hre, hrflat]
    exact ⟨h1, h2⟩
  · rw [heq2]
    exact hciff
  · rw [hre, heqp]
    cases hq : (removeFromNode cmp t.props (2 * nodeHeight t.root + 1) t.root key).2 with
    | none =>
      rw [if_neg (by simp [hq])]
      rw [hlen, hrflat, hcnone hq]
    | some x =>
      rw [if_pos (by simp [hq])]
      have h3 := ((hcsome x hq).2).length_eq
      show t.props.len - 1 = (inorder root2).length
      rw [hrflat]
      omega
  · rw [heqp]
    cases hq : (removeFromNode cmp t.props (2 * nodeHeight t.root + 1) t.root key).2 <;>
      simp [hq]
  · rw [heqp]
    cases hq : (removeFromNode cmp t.props (2 * nodeHeight t.root + 1) t.root key).2 <;>
      simp [hq]
  · rw [heqp]
    cases hq : (removeFromNode cmp t.props (2 * nodeHeight t.root + 1) t.root key).2 <;>
      simp [hq]
  · rw [heqp]
    cases hq : (removeFromNode cmp t.props (2 * nodeHeight t.root + 1) t.root key).2 <;>
      simp [hq]
  · intro h
    rw [heq2] at h
    rw [heqp, if_pos h]
    cases hq : (removeFromNode cmp t.props (2 * nodeHeight t.root + 1) t.root key).2 with
    | none =>
      rw [hq] at h
      cases h
    | some x =>
      have h3 := ((hcsome x hq).2).length_eq
      show t.props.len - 1 + 1 = t.props.len
      omega
  · intro h
    rw [heq2] at h
    rw [heqp, if_neg (by simp [h])]

/-- Every tree reachable by a run of `insert`/`remove` calls satisfies the
invariant and keeps the constructed properties, provided comparison equality
implies equality. -/
theorem runOps_inv {cmp : α → α → Ordering} [Batteries.TransCmp cmp]
    (hEqG : ∀ a b : α, cmp a b = .eq → a = b)
    {bf : Nat} (hbf : 2 ≤ bf) (ops : List (Op α)) :
    TreeInv cmp (runOps cmp bf ops) ∧ PropsShape (runOps cmp bf ops).props (2 * bf) := by
  rw [runOps]
  have hstep : ∀ (ops2 : List (Op α)) (t : BTree α), TreeInv cmp t →
      PropsShape t.props (2 * bf) →
      TreeInv cmp (ops2.foldl (applyOp cmp) t) ∧
      PropsShape (ops2.foldl (applyOp cmp) t).props (2 * bf) := by
    intro ops2
    induction ops2 with
    | nil => exact fun t h1 h2 => ⟨h1, h2⟩
    | cons op ops2 iho =>
      intro t h1 h2
      rw [List.foldl_cons]
      obtain ⟨hdeg, hmax, hmin, hmidk⟩ := h2
      cases op with
      | ins k =>
        simp only [applyOp]
        obtain ⟨_, hInv2, hd2, hm2, hn2, hk2, _⟩ :=
          BTree.insert_spec k (by rw [hmidk]; omega) (by rw [hmidk, hmax]; omega) h1
        exact iho _ hInv2 ⟨by rw [hd2, hdeg], by rw [hm2, hmax], by rw [hn2, hmin],
          by rw [hk2, hmidk]⟩
      | del k =>
        simp only [applyOp]
        obtain ⟨_, _, _, hInv2, hd2, hm2, hn2, hk2, _, _⟩ :=
          BTree.remove_spec k (by rw [hmin]; omega) h1 (fun a _ b _ h => hEqG a b h)
        exact iho _ hInv2 ⟨by rw [hd2, hdeg], by rw [hm2, hmax], by rw [hn2, hmin],
          by rw [hk2, hmidk]⟩
  exact hstep ops (BTree.new bf) (treeInv_new cmp bf).1 (treeInv_new cmp bf).2

/-! ## Iterator correctness -/

/-- The part of the tree a stack frame `(node, idx)` has yet to yield. -/
def frameRest (f : BNode α × Nat) : List α :=
  restZip (f.1.keys.drop f.2) (f.1.children.drop (f.2 + 1))

/-- The full sequence of elements an iterator stack has yet to yield
(head of the list = top of the stack). -/
def stackList : List (BNode α × Nat) → List α
  | [] => []
  | f :: rest => frameRest f ++ stackList rest

/-- Every frame on the stack refers to a shape-correct node. -/
def StackWF (stack : List (BNode α × Nat)) : Prop :=
  ∀ f ∈ stack, arityOk f.1 = true ∧ subNonempty f.1 = true ∧
    ∃ e, leavesAt f.1 e = true

theorem restZip_nil_right (ks : List α) : restZip ks [] = ks := by
  cases ks with
  | nil => rw [restZip]; simp
  | cons k ks => rw [restZip]; simp

theorem restZip_cons_cons (k : α) (ks : List α) (c : BNode α) (cs : List (BNode α)) :
    restZip (k :: ks) (c :: cs) = k :: (inorder c ++ restZip ks cs) := by
  rw [restZip, inorderZip_cons_restZip]

theorem stackList_cons (f : BNode α × Nat) (rest : List (BNode α × Nat)) :
    stackList (f :: rest) = frameRest f ++ stackList rest := by
  rw [stackList]

/-- `push_left_path` prepends exactly the subtree flattening to the pending
sequence, and keeps the stack shape-correct. -/
theorem pushLeftPath_spec : ∀ (fuel : Nat) (stack : List (BNode α × Nat))
    (node : BNode α) (d : Nat),
    arityOk node = true → subNonempty node = true → leavesAt node d = true →
    d ≤ fuel → StackWF stack →
    stackList (pushLeftPath fuel stack node 0) = inorder node ++ stackList stack ∧
    StackWF (pushLeftPath fuel stack node 0) := by
  intro fuel
  induction fuel with
  | zero =>
    intro stack node d _ _ hlv hd _
    exact absurd hd (by have := leavesAt_pos hlv; omega)
  | succ fuel ih =>
    intro stack node d ha hne hlv hd hstk
    obtain ⟨ks, cs⟩ := node
    have hstk2 : StackWF ((BNode.mk ks cs, 0) :: stack) := by
      intro f hf
      rcases List.mem_cons.mp hf with h | h
      · subst h
        exact ⟨ha, hne, ⟨d, hlv⟩⟩
      · exact hstk f h
    cases cs with
    | nil =>
      have heq : pushLeftPath (fuel + 1) stack (BNode.mk ks []) 0 =
          (BNode.mk ks [], 0) :: stack := by
        rw [pushLeftPath]
        simp [BNode.isLeaf]
      rw [heq]
      refine ⟨?_, hstk2⟩
      rw [stackList_cons, frameRest]
      simp only [BNode.keys_mk, BNode.children_mk, List.drop_zero, List.drop_nil]
      rw [restZip_nil_right]
      simp
    | cons c0 cs0 =>
      have heq : pushLeftPath (fuel + 1) stack (BNode.mk ks (c0 :: cs0)) 0 =
          pushLeftPath fuel ((BNode.mk ks (c0 :: cs0), 0) :: stack) c0 0 := by
        rw [pushLeftPath]
        simp [BNode.isLeaf]
      obtain ⟨e, hde, hall⟩ := (leavesAt_mk (by simp)).mp hlv
      have hac := (arityOk_mk.mp ha).2 c0 (by simp)
      have hsc := (subNonemptyList_iff cs0).mp (by
        have := subNonempty_mk.mp hne
        exact (subNonemptyList_iff _).mpr fun c hc => this c (by simp [hc]))
      have hsc0 := (subNonempty_mk.mp hne) c0 (by simp)
      obtain ⟨hrec1, hrec2⟩ := ih ((BNode.mk ks (c0 :: cs0), 0) :: stack) c0 e hac
        hsc0.2 (hall c0 (by simp)) (by omega) hstk2
      rw [heq]
      refine ⟨?_, hrec2⟩
      rw [hrec1, stackList_cons, frameRest]
      simp only [BNode.keys_mk, BNode.children_mk, List.drop_zero, List.drop_succ_cons,
        List.drop_zero]
      rw [inorder_mk, inorderZip_cons_restZip]
      rw [List.append_assoc]

/-- One `next()` call yields exactly the head of the pending sequence and
leaves its tail pending. -/
theorem iterNext_spec : ∀ (stack : List (BNode α × Nat)), StackWF stack →
    (stackList stack = [] → iterNext stack = none) ∧
    (∀ x rest2, stackList stack = x :: rest2 →
      ∃ stack2, iterNext stack = some (x, stack2) ∧ stackList stack2 = rest2 ∧
        StackWF stack2) := by
  intro stack
  induction stack with
  | nil =>
    intro _
    refine ⟨fun _ => rfl, ?_⟩
    intro x rest2 h
    rw [stackList] at h
    cases h
  | cons f rest ihr =>
    intro hstk
    obtain ⟨node, idx⟩ := f
    obtain ⟨ks, cs⟩ := node
    have hWFn := hstk (BNode.mk ks cs, idx) (by simp)
    obtain ⟨ha, hne, dn, hlv⟩ := hWFn
    have hWFr : StackWF rest := fun g hg => hstk g (by simp [hg])
    obtain ⟨ih1, ih2⟩ := ihr hWFr
    cases hk : ks.get? idx with
    | none =>
      have hkge : ks.length ≤ idx := by
        rw [List.get?_eq_getElem?] at hk
        by_contra hc
        obtain ⟨y, hy⟩ := get?_lt_length (show idx < ks.length by omega)
        rw [List.get?_eq_getElem?] at hy
        rw [hy] at hk
        cases hk
      have hcs : cs.length ≤ idx + 1 := by
        rcases (arityOk_mk.mp ha).1 with h | h
        · rw [h]; simp
        · omega
      have hfr : frameRest (BNode.mk ks cs, idx) = [] := by
        rw [frameRest]
        simp only [BNode.keys_mk, BNode.children_mk]
        rw [List.drop_eq_nil_of_le hkge, List.drop_eq_nil_of_le hcs]
        rw [restZip]
        simp
      have heq : iterNext ((BNode.mk ks cs, idx) :: rest) = iterNext rest := by
        rw [iterNext]
        simp only [BNode.keys_mk, hk]
      have hsl : stackList ((BNode.mk ks cs, idx) :: rest) = stackList rest := by
        rw [stackList_cons, hfr]
        simp
      rw [hsl, heq]
      exact ⟨ih1, ih2⟩
    | some key =>
      have hklt : idx < ks.length := by
        rw [List.get?_eq_getElem?] at hk
        by_contra hc
        rw [List.getElem?_eq_none (by omega)] at hk
        cases hk
      have hdropk : ks.drop idx = key :: ks.drop (idx + 1) := drop_eq_cons_of_get? hk
      cases cs with
      | nil =>
        have heq : iterNext ((BNode.mk ks [], idx) :: rest) =
            some (key, if idx + 1 < ks.length then (BNode.mk ks [], idx + 1) :: rest
              else rest) := by
          rw [iterNext]
          simp only [BNode.keys_mk, hk]
          simp [BNode.isLeaf]
        have hfr : frameRest (BNode.mk ks [], idx) = key :: ks.drop (idx + 1) := by
          rw [frameRest]
          simp only [BNode.keys_mk, BNode.children_mk, List.drop_nil]
          rw [hdropk, restZip_nil_right]
        refine ⟨?_, ?_⟩
        · intro h
          rw [stackList_cons, hfr] at h
          cases h
        · intro x rest2 h
          rw [stackList_cons, hfr] at h
          simp only [List.cons_append, List.cons.injEq] at h
          obtain ⟨hx, hrest2⟩ := h
          subst hx
          subst hrest2
          by_cases hlt : idx + 1 < ks.length
          · refine ⟨(BNode.mk ks [], idx + 1) :: rest, ?_, ?_, ?_⟩
            · rw [heq, if_pos hlt]
            · rw [stackList_cons, frameRest]
              simp only [BNode.keys_mk, BNode.children_mk, List.drop_nil]
              rw [restZip_nil_right]
            · intro g hg
              rcases List.mem_cons.mp hg with h2 | h2
              · subst h2
                exact ⟨ha, hne, ⟨dn, hlv⟩⟩
              · exact hWFr g h2
          · refine ⟨rest, ?_, ?_, hWFr⟩
            · rw [heq, if_neg hlt]
            · rw [List.drop_eq_nil_of_le (by omega)]
              simp
      | cons c0 cs0 =>
        have harity : (c0 :: cs0).length = ks.length + 1 := by
          rcases (arityOk_mk.mp ha).1 with h | h
          · cases h
          · exact h
        obtain ⟨c, hc⟩ : ∃ c, (c0 :: cs0).get? (idx + 1) = some c :=
          get?_lt_length (by omega)
        have hdropc : (c0 :: cs0).drop (idx + 1) = c :: (c0 :: cs0).drop (idx + 2) :=
          drop_eq_cons_of_get? hc
        have hlt2 : idx + 1 < (c0 :: cs0).length := by omega
        have heq : iterNext ((BNode.mk ks (c0 :: cs0), idx) :: rest) =
            some (key, pushLeftPath (nodeHeight c + 1)
              (if idx + 1 < ks.length then (BNode.mk ks (c0 :: cs0), idx + 1) :: rest
                else rest) c 0) := by
          rw [iterNext]
          simp only [BNode.keys_mk, hk, BNode.children_mk, hc]
          simp [BNode.isLeaf, hlt2]
          intro hcon
          have h9 : cs0.length = ks.length := by simpa using harity
          exact absurd hcon (by omega)
        -- shape facts about the descended child
        have hac := (arityOk_mk.mp ha).2 c (get?_mem hc)
        have hsc := (subNonempty_mk.mp hne) c (get?_mem hc)
        obtain ⟨e, hde, hall⟩ := (leavesAt_mk (by simp)).mp hlv
        have hlvc := hall c (get?_mem hc)
        have hhtc : nodeHeight c = e := leavesAt_nodeHeight _ _ hlvc
        have hstk1 : StackWF (if idx + 1 < ks.length
            then (BNode.mk ks (c0 :: cs0), idx + 1) :: rest else rest) := by
          by_cases hlt : idx + 1 < ks.length
          · rw [if_pos hlt]
            intro g hg
            rcases List.mem_cons.mp hg with h2 | h2
            · subst h2
              exact ⟨ha, hne, ⟨dn, hlv⟩⟩
            · exact hWFr g h2
          · rw [if_neg hlt]
            exact hWFr
        obtain ⟨hpush1, hpush2⟩ := pushLeftPath_spec (nodeHeight c + 1)
          (if idx + 1 < ks.length then (BNode.mk ks (c0 :: cs0), idx + 1) :: rest
            else rest) c e hac hsc.2 hlvc (by omega) hstk1
        have hst1 : stackList (if idx + 1 < ks.length
            then (BNode.mk ks (c0 :: cs0), idx + 1) :: rest else rest) =
            restZip (ks.drop (idx + 1)) ((c0 :: cs0).drop (idx + 2)) ++ stackList rest := by
          by_cases hlt : idx + 1 < ks.length
          · rw [if_pos hlt, stackList_cons, frameRest]
            simp
          · rw [if_neg hlt]
            rw [List.drop_eq_nil_of_le (show ks.length ≤ idx + 1 by omega),
              List.drop_eq_nil_of_le (show (c0 :: cs0).length ≤ idx + 2 by omega)]
            rw [restZip]
            simp
        have hfr : frameRest (BNode.mk ks (c0 :: cs0), idx) =
            key :: (inorder c ++ restZip (ks.drop (idx + 1)) ((c0 :: cs0).drop (idx + 2))) := by
          rw [frameRest]
          simp only [BNode.keys_mk, BNode.children_mk]
          rw [hdropk, hdropc, restZip_cons_cons]
        refine ⟨?_, ?_⟩
        · intro h
          rw [stackList_cons, hfr] at h
          cases h
        · intro x rest2 h
          rw [stackList_cons, hfr] at h
          simp only [List.cons_append, List.cons.injEq] at h
          obtain ⟨hx, hrest2⟩ := h
          subst hx
          subst hrest2
          refine ⟨_, heq, ?_, hpush2⟩
          rw [hpush1, hst1]
          simp [List.append_assoc]

/-- Draining the iterator with enough fuel yields the pending sequence. -/
theorem iterDrain_spec : ∀ (fuel : Nat) (stack : List (BNode α × Nat)),
    StackWF stack → (stackList stack).length ≤ fuel →
    iterDrain fuel stack = stackList stack := by
  intro fuel
  induction fuel with
  | zero =>
    intro stack _ hlen
    cases hsl : stackList stack with
    | nil => rw [iterDrain]
    | cons x rest2 =>
      rw [hsl] at hlen
      simp at hlen
  | succ fuel ih =>
    intro stack hstk hlen
    obtain ⟨ihn, ihs⟩ := iterNext_spec stack hstk
    cases hsl : stackList stack with
    | nil =>
      rw [iterDrain, ihn hsl]
    | cons x rest2 =>
      obtain ⟨stack2, hnext, hsl2, hstk2⟩ := ihs x rest2 hsl
      have heqd : iterDrain (fuel + 1) stack = x :: iterDrain fuel stack2 := by
        rw [iterDrain, hnext]
      rw [heqd, ih stack2 hstk2 (by
        rw [hsl2]
        rw [hsl] at hlen
        simp only [List.length_cons] at hlen
        omega), hsl2]

/-- `BTree::iter` yields exactly the inorder flattening of the root. -/
theorem BTree.iterList_spec {cmp : α → α → Ordering} {t : BTree α}
    (hInv : TreeInv cmp t) : t.iterList = inorder t.root := by
  obtain ⟨hWF, ⟨d, hlv⟩, _, _⟩ := hInv
  rw [BTree.iterList, iterNew]
  obtain ⟨h1, h2⟩ := pushLeftPath_spec (nodeHeight t.root + 1) [] t.root d hWF.1 hWF.2.1
    hlv (by have := leavesAt_nodeHeight _ _ hlv; omega) (fun g hg => absurd hg (by simp))
  rw [iterDrain_spec _ _ h2 (by rw [h1]; rw [stackList]; simp), h1, stackList]
  simp

/-! ## Balance and the depth of leaves -/

mutual
/-- The depths of all leaves below a node (the node itself at depth 1). -/
def leafDepths : BNode α → List Nat
  | .mk _ [] => [1]
  | .mk _ (c :: cs) => (leafDepthsList (c :: cs)).map (fun e => e + 1)
/-- The leaf depths of every node of a list, concatenated. -/
def leafDepthsList : List (BNode α) → List Nat
  | [] => []
  | c :: cs => leafDepths c ++ leafDepthsList cs
end

mutual
theorem leafDepths_ne_nil : ∀ n : BNode α, leafDepths n ≠ []
  | .mk ks [] => by
    rw [leafDepths]
    simp
  | .mk ks (c :: cs) => by
    rw [leafDepths]
    intro h
    rw [List.map_eq_nil] at h
    exact leafDepthsList_cons_ne_nil c cs h
theorem leafDepthsList_cons_ne_nil : ∀ (c : BNode α) (cs : List (BNode α)),
    leafDepthsList (c :: cs) ≠ []
  | c, cs => by
    rw [leafDepthsList]
    intro h
    rcases List.append_eq_nil.mp h with ⟨h1, _⟩
    exact leafDepths_ne_nil c h1
end

mutual
theorem leavesAt_iff_leafDepths : ∀ (n : BNode α) (d : Nat),
    leavesAt n d = true ↔ ∀ x ∈ leafDepths n, x = d
  | .mk ks [], d => by
    rw [leavesAt, leafDepths]
    simp [eq_comm]
  | .mk ks (c :: cs), d => by
    cases d with
    | zero =>
      have hL : leavesAt (BNode.mk ks (c :: cs)) 0 = false := by
        rw [leavesAt.eq_def]
      rw [hL, leafDepths]
      constructor
      · intro h
        exact absurd h (by simp)
      · intro h
        exfalso
        cases hq : leafDepthsList (c :: cs) with
        | nil => exact leafDepthsList_cons_ne_nil c cs hq
        | cons e L =>
          have h2 := h (e + 1) (by rw [hq]; simp)
          omega
    | succ e =>
      have hL : leavesAt (BNode.mk ks (c :: cs)) (e + 1) = leavesAtList (c :: cs) e := by
        rw [leavesAt.eq_def]
      rw [hL, leafDepths, leavesAtList_iff_leafDepthsList (c :: cs) e]
      constructor
      · intro h x hx
        rw [List.mem_map] at hx
        obtain ⟨y, hy, hxy⟩ := hx
        rw [← hxy, h y hy]
      · intro h y hy
        have h2 := h (y + 1) (List.mem_map.mpr ⟨y, hy, rfl⟩)
        omega
theorem leavesAtList_iff_leafDepthsList : ∀ (cs : List (BNode α)) (d : Nat),
    leavesAtList cs d = true ↔ ∀ x ∈ leafDepthsList cs, x = d
  | [], d => by
    rw [leavesAtList, leafDepthsList]
    simp
  | c :: cs, d => by
    rw [leavesAtList, leafDepthsList, Bool.and_eq_true,
      leavesAt_iff_leafDepths c d, leavesAtList_iff_leafDepthsList cs d]
    constructor
    · rintro ⟨h1, h2⟩ x hx
      rcases List.mem_append.mp hx with h | h
      · exact h1 x h
      · exact h2 x h
    · intro h
      exact ⟨fun x hx => h x (List.mem_append.mpr (Or.inl hx)),
        fun x hx => h x (List.mem_append.mpr (Or.inr hx))⟩
end

/-- The leftmost-path length equals the uniform leaf depth. -/
theorem leftPathLen_spec : ∀ (fuel : Nat) (n : BNode α) (d : Nat),
    arityOk n = true → leavesAt n d = true → d ≤ fuel →
    leftPathLen fuel n = d := by
  intro fuel
  induction fuel with
  | zero =>
    intro n d _ hlv hd
    exact absurd hd (by have := leavesAt_pos hlv; omega)
  | succ fuel ih =>
    intro n d ha hlv hd
    obtain ⟨ks, cs⟩ := n
    cases cs with
    | nil =>
      rw [leavesAt_leaf] at hlv
      rw [leftPathLen]
      simp [BNode.isLeaf]
      omega
    | cons c0 cs0 =>
      have heq : leftPathLen (fuel + 1) (BNode.mk ks (c0 :: cs0)) =
          1 + leftPathLen fuel c0 := by
        rw [leftPathLen]
        simp [BNode.isLeaf]
      obtain ⟨e, hde, hall⟩ := (leavesAt_mk (by simp)).mp hlv
      have hac := (arityOk_mk.mp ha).2 c0 (by simp)
      rw [heq, ih c0 e hac (hall c0 (by simp)) (by omega)]
      omega

/-- Under the invariant, every leaf sits at the same depth and `depth()`
computes exactly that depth. -/
theorem BTree.depth_spec {cmp : α → α → Ordering} {t : BTree α} (hInv : TreeInv cmp t) :
    ∀ x ∈ leafDepths t.root, x = t.depth := by
  obtain ⟨hWF, ⟨d, hlv⟩, _, _⟩ := hInv
  have hd : t.depth = d := by
    rw [BTree.depth]
    exact leftPathLen_spec _ _ d hWF.1 hlv
      (by have := leavesAt_nodeHeight _ _ hlv; omega)
  rw [hd]
  exact (leavesAt_iff_leafDepths t.root d).mp hlv

/-! ## `first`, `last` and the pops -/

theorem BTree.first_eq_head {cmp : α → α → Ordering} {t : BTree α}
    (hInv : TreeInv cmp t) : t.first = (inorder t.root).head? := by
  obtain ⟨hWF, ⟨d, hlv⟩, hroot, _⟩ := hInv
  rw [BTree.first]
  by_cases hemp : t.isEmpty = true
  · rw [if_pos hemp]
    rw [BTree.isEmpty, List.isEmpty_iff] at hemp
    have hc := hroot hemp
    have h2 : inorder t.root = inorderZip t.root.children t.root.keys := by
      cases t.root with
      | mk a b => rfl
    rw [h2, hemp, hc]
    rfl
  · rw [if_neg hemp]
    rw [firstWalk_eq_getSuccessor]
    exact getSuccessor_spec (nodeHeight t.root + 1) t.root d hWF.1 hWF.2.1 hlv
      (by have := leavesAt_nodeHeight _ _ hlv; omega)

theorem BTree.last_eq_getLast {cmp : α → α → Ordering} {t : BTree α}
    (hInv : TreeInv cmp t) : t.last = (inorder t.root).getLast? := by
  obtain ⟨hWF, ⟨d, hlv⟩, hroot, _⟩ := hInv
  rw [BTree.last]
  by_cases hemp : t.isEmpty = true
  · rw [if_pos hemp]
    rw [BTree.isEmpty, List.isEmpty_iff] at hemp
    have hc := hroot hemp
    have h2 : inorder t.root = inorderZip t.root.children t.root.keys := by
      cases t.root with
      | mk a b => rfl
    rw [h2, hemp, hc]
    rfl
  · rw [if_neg hemp]
    rw [lastWalk_eq_getPredecessor]
    exact getPredecessor_spec (nodeHeight t.root + 1) t.root d hWF.1 hWF.2.1 hlv
      (by have := leavesAt_nodeHeight _ _ hlv; omega)

/-- The tree is empty iff its flattening is empty. -/
theorem BTree.isEmpty_iff_inorder {cmp : α → α → Ordering} {t : BTree α}
    (hInv : TreeInv cmp t) : t.isEmpty = true ↔ inorder t.root = [] := by
  obtain ⟨hWF, _, hroot, _⟩ := hInv
  rw [BTree.isEmpty, List.isEmpty_iff]
  constructor
  · intro hemp
    have hc := hroot hemp
    have h2 : inorder t.root = inorderZip t.root.children t.root.keys := by
      cases t.root with
      | mk a b => rfl
    rw [h2, hemp, hc]
    rfl
  · intro h
    by_contra hk
    exact inorder_ne_nil hk h

/-! ## `range` as a filter -/

theorem sorted_dropWhile_filter {cmp : α → α → Ordering} [Batteries.TransCmp cmp]
    (start : α) : ∀ {l : List α}, SortedCmp cmp l →
    (l.dropWhile fun k => cmp k start = .lt) = l.filter fun k => cmp k start ≠ .lt := by
  intro l
  induction l with
  | nil => intro _; rfl
  | cons a l ih =>
    intro hs
    have htl : SortedCmp cmp l := (SortedCmp.cons_iff.mp hs).2
    by_cases ha : cmp a start = Ordering.lt
    · rw [List.dropWhile_cons, List.filter_cons, if_pos (by simp [ha]),
        if_neg (by simp [ha])]
      exact ih htl
    · rw [List.dropWhile_cons, List.filter_cons, if_neg (by simp [ha]),
        if_pos (by simp [ha])]
      congr 1
      symm
      rw [List.filter_eq_self]
      intro x hx
      simp only [ne_eq, decide_not, Bool.not_eq_eq_eq_not, Bool.not_true,
        decide_eq_false_iff_not]
      intro hcon
      have hax := (SortedCmp.cons_iff.mp hs).1 x hx
      exact ha (Batteries.TransCmp.le_lt_trans hax hcon)

theorem sorted_takeWhile_filter {cmp : α → α → Ordering} [Batteries.TransCmp cmp]
    (stop : α) : ∀ {l : List α}, SortedCmp cmp l →
    (l.takeWhile fun k => cmp k stop ≠ .gt) = l.filter fun k => cmp k stop ≠ .gt := by
  intro l
  induction l with
  | nil => intro _; rfl
  | cons a l ih =>
    intro hs
    have htl : SortedCmp cmp l := (SortedCmp.cons_iff.mp hs).2
    by_cases ha : cmp a stop = Ordering.gt
    · rw [List.takeWhile_cons, List.filter_cons, if_neg (by simp [ha]),
        if_neg (by simp [ha])]
      symm
      rw [List.filter_eq_nil]
      intro x hx
      simp only [ne_eq, decide_not, Bool.not_eq_eq_eq_not, Bool.not_true,
        decide_eq_false_iff_not, Decidable.not_not]
      have hax := (SortedCmp.cons_iff.mp hs).1 x hx
      have h1 : cmp stop a = Ordering.lt := Batteries.OrientedCmp.cmp_eq_gt.mp ha
      exact Batteries.OrientedCmp.cmp_eq_gt.mpr (Batteries.TransCmp.lt_le_trans h1 hax)
    · rw [List.takeWhile_cons, List.filter_cons, if_pos (by simp [ha]),
        if_pos (by simp [ha])]
      rw [ih htl]

/-- `range` keeps exactly the stored elements between the two inclusive
bounds, in iteration order. -/
theorem BTree.rangeList_spec {cmp : α → α → Ordering} [Batteries.TransCmp cmp]
    {t : BTree α} (hInv : TreeInv cmp t) (start stop : α) :
    t.rangeList cmp start stop =
      t.iterList.filter fun k => cmp k start ≠ .lt ∧ cmp k stop ≠ .gt := by
  have hiter : t.iterList = inorder t.root := BTree.iterList_spec hInv
  have hsort : SortedCmp cmp t.iterList := by
    rw [hiter]
    exact hInv.1.2.2
  rw [BTree.rangeList]
  rw [sorted_dropWhile_filter start hsort]
  have hsort2 : SortedCmp cmp (t.iterList.filter fun k => cmp k start ≠ .lt) :=
    hsort.sublist (List.filter_sublist _)
  rw [sorted_takeWhile_filter stop hsort2]
  rw [List.filter_filter]
  apply List.filter_congr
  intro x _
  by_cases hA : cmp x start = Ordering.lt <;> by_cases hB : cmp x stop = Ordering.gt <;>
    simp [hA, hB]

/-! ## Runs of operations: content and count accounting -/

theorem foldl_ins_perm {cmp : α → α → Ordering} [Batteries.TransCmp cmp] {bf : Nat}
    (hbf : 2 ≤ bf) :
    ∀ (ks : List α) (t : BTree α), TreeInv cmp t → PropsShape t.props (2 * bf) →
      TreeInv cmp ((ks.map Op.ins).foldl (applyOp cmp) t) ∧
      PropsShape ((ks.map Op.ins).foldl (applyOp cmp) t).props (2 * bf) ∧
      (inorder ((ks.map Op.ins).foldl (applyOp cmp) t).root).Perm
        (ks ++ inorder t.root) := by
  intro ks
  induction ks with
  | nil => exact fun t h1 h2 => ⟨h1, h2, by simp⟩
  | cons k ks ih =>
    intro t h1 h2
    simp only [List.map_cons, List.foldl_cons, applyOp]
    obtain ⟨hdeg, hmax, hmin, hmidk⟩ := h2
    obtain ⟨hIA, hInv2, hd2, hm2, hn2, hk2, _⟩ :=
      BTree.insert_spec k (by rw [hmidk]; omega) (by rw [hmidk, hmax]; omega) h1
    obtain ⟨ha, hb, hc⟩ := ih (t.insert cmp k) hInv2 ⟨by rw [hd2, hdeg],
      by rw [hm2, hmax], by rw [hn2, hmin], by rw [hk2, hmidk]⟩
    refine ⟨ha, hb, hc.trans ?_⟩
    have hstep : (ks ++ inorder (t.insert cmp k).root).Perm
        (ks ++ (k :: inorder t.root)) := List.Perm.append_left ks hIA.perm
    refine hstep.trans ?_
    simpa using List.perm_middle

/-- An insert-only run keeps the invariant and stores exactly the multiset
of inserted keys. -/
theorem runOps_ins_spec {cmp : α → α → Ordering} [Batteries.TransCmp cmp]
    {bf : Nat} (hbf : 2 ≤ bf) (ks : List α) :
    TreeInv cmp (runOps cmp bf (ks.map Op.ins)) ∧
    (inorder (runOps cmp bf (ks.map Op.ins)).root).Perm ks := by
  rw [runOps]
  obtain ⟨h1, _, h3⟩ := foldl_ins_perm hbf ks (BTree.new bf) (treeInv_new cmp bf).1
    (treeInv_new cmp bf).2
  refine ⟨h1, h3.trans ?_⟩
  have hr : inorder (BTree.new bf : BTree α).root = [] := by
    show inorder (BNode.mk ([] : List α) []) = []
    simp
  rw [hr]
  simp

theorem foldl_len_count {cmp : α → α → Ordering} [Batteries.TransCmp cmp]
    (hEqG : ∀ a b : α, cmp a b = .eq → a = b) {bf : Nat} (hbf : 2 ≤ bf) :
    ∀ (ops : List (Op α)) (t : BTree α), TreeInv cmp t → PropsShape t.props (2 * bf) →
      (ops.foldl (applyOp cmp) t).props.len + delHitCount cmp t ops =
        t.props.len + insCount ops := by
  intro ops
  induction ops with
  | nil =>
    intro t _ _
    simp [delHitCount, insCount]
  | cons op ops iho =>
    intro t h1 h2
    obtain ⟨hdeg, hmax, hmin, hmidk⟩ := h2
    cases op with
    | ins k =>
      simp only [List.foldl_cons, applyOp, delHitCount, insCount]
      obtain ⟨_, hInv2, hd2, hm2, hn2, hk2, hlen2⟩ :=
        BTree.insert_spec k (by rw [hmidk]; omega) (by rw [hmidk, hmax]; omega) h1
      have hrec := iho (t.insert cmp k) hInv2 ⟨by rw [hd2, hdeg], by rw [hm2, hmax],
        by rw [hn2, hmin], by rw [hk2, hmidk]⟩
      omega
    | del k =>
      simp only [List.foldl_cons, applyOp, delHitCount, insCount]
      obtain ⟨_, _, _, hInv2, hd2, hm2, hn2, hk2, hlen1, hlen0⟩ :=
        BTree.remove_spec k (by rw [hmin]; omega) h1 (fun a _ b _ h => hEqG a b h)
      have hrec := iho (t.remove cmp k).1 hInv2 ⟨by rw [hd2, hdeg], by rw [hm2, hmax],
        by rw [hn2, hmin], by rw [hk2, hmidk]⟩
      by_cases hq : (t.remove cmp k).2.isSome = true
      · rw [if_pos hq]
        have h3 := hlen1 hq
        omega
      · rw [if_neg hq]
        have hnone : (t.remove cmp k).2 = none := by
          cases hv : (t.remove cmp k).2 with
          | none => rfl
          | some x =>
            rw [hv] at hq
            simp at hq
        have h3 := hlen0 hnone
        omega

/-- Along any run, the stored length is the number of inserts minus the
number of hitting removes. -/
theorem runOps_len_count {cmp : α → α → Ordering} [Batteries.TransCmp cmp]
    (hEqG : ∀ a b : α, cmp a b = .eq → a = b) {bf : Nat} (hbf : 2 ≤ bf)
    (ops : List (Op α)) :
    (runOps cmp bf ops).props.len + delHitCount cmp (BTree.new bf) ops =
      insCount ops := by
  rw [runOps]
  have h := foldl_len_count hEqG hbf ops (BTree.new bf) (treeInv_new cmp bf).1
    (treeInv_new cmp bf).2
  have hz : (BTree.new bf : BTree α).props.len = 0 := rfl
  omega

/-- `contains` decides membership up to comparator equality. -/
theorem BTree.contains_iff {cmp : α → α → Ordering} [Batteries.TransCmp cmp]
    {t : BTree α} (hInv : TreeInv cmp t) (key : α) :
    t.contains cmp key = true ↔ ∃ y ∈ inorder t.root, cmp y key = .eq := by
  obtain ⟨hWF, ⟨d, hlv⟩, _, _⟩ := hInv
  rw [BTree.contains]
  exact containsNode_iff (nodeHeight t.root + 1) t.root key d hWF hlv
    (by have := leavesAt_nodeHeight _ _ hlv; omega)

/-! ## Small-tree evaluation lemmas (for the map scenario) -/

theorem BTree.contains_empty_root (cmp : α → α → Ordering) {t : BTree α} (key : α)
    (hroot : t.root = BNode.mk [] []) : t.contains cmp key = false := by
  rw [BTree.contains, hroot, containsNode]
  rfl

theorem BTree.contains_single_root (cmp : α → α → Ordering) {t : BTree α} {key x : α}
    (hroot : t.root = BNode.mk [x] []) (hx : cmp x key = .eq) :
    t.contains cmp key = true := by
  rw [BTree.contains, hroot, containsNode]
  simp [binarySearchBy, bsearchGo, hx]

theorem BTree.insert_empty_root (cmp : α → α → Ordering) {t : BTree α} (key : α)
    (hroot : t.root = BNode.mk [] []) (hmax : 1 ≤ t.props.maxKeys) :
    (t.insert cmp key).root = BNode.mk [key] [] ∧
    (t.insert cmp key).props = { t.props with len := t.props.len + 1 } := by
  have hfull : ¬ isFull t.props t.root = true := by
    rw [isFull, hroot]
    simp
    omega
  have heqt : t.insert cmp key =
      { root := insertNonFull cmp t.props (nodeHeight t.root + 1) t.root key
        props := { t.props with len := t.props.len + 1 } } := by
    rw [BTree.insert]
    simp only [if_neg hfull]
  rw [heqt]
  refine ⟨?_, rfl⟩
  rw [hroot, insertNonFull]
  simp [BNode.isLeaf, findInsertionIndex, binarySearchBy, bsearchGo, SearchResult.index]

theorem BTree.remove_single_root_hit (cmp : α → α → Ordering) {t : BTree α} {key x : α}
    (hroot : t.root = BNode.mk [x] []) (hx : cmp x key = .eq) :
    (t.remove cmp key).1.root = BNode.mk [] [] ∧
    (t.remove cmp key).2 = some x ∧
    (t.remove cmp key).1.props = { t.props with len := t.props.len - 1 } := by
  have hrm : removeFromNode cmp t.props (2 * nodeHeight t.root + 1) t.root key =
      (BNode.mk [] [], some x) := by
    rw [hroot, removeFromNode]
    simp [binarySearchBy, bsearchGo, hx, BNode.isLeaf]
  refine ⟨?_, ?_, ?_⟩
  · rw [BTree.remove]
    simp [hrm]
  · rw [BTree.remove]
    simp [hrm]
  · rw [BTree.remove]
    simp [hrm]

/-! ## The map layer -/

instance instPairCmpTrans {K V : Type} [LinearOrder K] :
    Batteries.TransCmp (@pairCmp K V _) where
  symm x y := by
    rw [pairCmp, pairCmp]
    exact Batteries.OrientedCmp.symm x.key y.key
  le_trans h1 h2 := by
    rw [pairCmp] at h1 h2 ⊢
    exact Batteries.TransCmp.le_trans h1 h2

theorem BTreeMap.insert_not_contained {K V : Type} [LinearOrder K]
    (m : BTreeMap K V) (k : K) (v : V)
    (h : m.set.contains pairCmp { key := k, value := v } = false) :
    (m.insert k v).2 = none := by
  rw [BTreeMap.insert]
  rw [if_neg (by rw [h]; simp)]
  rfl

theorem BTreeMap.get_single_root {K V : Type} [LinearOrder K] {m : BTreeMap K V}
    {k : K} {p : MapPair K V} (hroot : m.set.root = BNode.mk [p] [])
    (hk : compare p.key k = .eq) : m.get k = some p.value := by
  rw [BTreeMap.get, hroot, mapGetWalk]
  simp [binarySearchBy, bsearchGo, hk]

/-! ## The post-split descent -/

/-- Modelled from the spec: after splitting a full child at descent index `i`,
"descend right if `key` is not less than it [the promoted separator], else
stay" — the index is `i + 1` unless `key < sep`. -/
def specDescentIndex (cmp : α → α → Ordering) (keys : List α) (index : Nat)
    (key : α) : Nat :=
  match keys.get? index with
  | some sep => if cmp key sep = .lt then index else index + 1
  | none => index

theorem insertNonFull_full_child_step {cmp : α → α → Ordering} {P : BTreeProperties}
    (fuel : Nat) (ks : List α) (cs : List (BNode α)) (key : α)
    {child childF : BNode α} {sep : α}
    (hcs : cs ≠ [])
    (hchild : cs.get? (findInsertionIndex cmp ks key) = some child)
    (hfull : isFull P child = true)
    (hsep : (splitChild P (BNode.mk ks cs) (findInsertionIndex cmp ks key)).keys.get?
      (findInsertionIndex cmp ks key) = some sep)
    (hcf : (splitChild P (BNode.mk ks cs) (findInsertionIndex cmp ks key)).children.get?
      (if cmp sep key = .lt then findInsertionIndex cmp ks key + 1
        else findInsertionIndex cmp ks key) = some childF) :
    insertNonFull cmp P (fuel + 1) (BNode.mk ks cs) key =
      BNode.mk (splitChild P (BNode.mk ks cs) (findInsertionIndex cmp ks key)).keys
        ((splitChild P (BNode.mk ks cs) (findInsertionIndex cmp ks key)).children.set
          (if cmp sep key = .lt then findInsertionIndex cmp ks key + 1
            else findInsertionIndex cmp ks key)
          (insertNonFull cmp P fuel childF key)) := by
  have hsd : splitDescentIndex cmp
      (splitChild P (BNode.mk ks cs) (findInsertionIndex cmp ks key)).keys
      (findInsertionIndex cmp ks key) key =
      (if cmp sep key = .lt then findInsertionIndex cmp ks key + 1
        else findInsertionIndex cmp ks key) := by
    rw [splitDescentIndex, hsep]
  cases cs with
  | nil => exact absurd rfl hcs
  | cons c0 cs0 =>
    rw [insertNonFull]
    simp only [BNode.keys_mk, BNode.children_mk, BNode.isLeaf, List.isEmpty_cons,
      Bool.false_eq_true, if_false, hchild, hfull, if_true, hsd, hcf]

/-! ## The map invariant and the general upsert -/

theorem cmp_ne_eq_symm {cmp : α → α → Ordering} [Batteries.TransCmp cmp] {x y : α}
    (h : cmp x y ≠ .eq) : cmp y x ≠ .eq :=
  fun h2 => h (Batteries.OrientedCmp.cmp_eq_eq_symm.mpr h2)

/-- A list whose members pairwise compare non-equal is comparison-strict. -/
theorem eqStrict_of_pairwise_ne {cmp : α → α → Ordering} [Batteries.TransCmp cmp]
    {l : List α} (h : l.Pairwise (fun a b => cmp a b ≠ .eq)) : EqStrict cmp l := by
  intro a ha b hb heq
  by_contra hne
  have hsym : Symmetric (fun a b : α => cmp a b ≠ .eq) :=
    fun x y hxy => cmp_ne_eq_symm hxy
  exact h.forall hsym ha hb hne heq

theorem InsertedAt.self_mem {cmp : α → α → Ordering} {key : α} {old new : List α}
    (h : InsertedAt cmp key old new) : key ∈ new := by
  obtain ⟨l1, l2, _, h2, _, _⟩ := h
  rw [h2]
  simp

theorem InsertedAt.mem_cases {cmp : α → α → Ordering} {key : α} {old new : List α}
    (h : InsertedAt cmp key old new) : ∀ q ∈ new, q = key ∨ q ∈ old := by
  obtain ⟨l1, l2, h1, h2, _, _⟩ := h
  subst h1
  subst h2
  intro q hq
  rcases List.mem_append.mp hq with hq2 | hq2
  · exact Or.inr (List.mem_append.mpr (Or.inl hq2))
  · rcases List.mem_cons.mp hq2 with hq3 | hq3
    · exact Or.inl hq3
    · exact Or.inr (List.mem_append.mpr (Or.inr hq3))

/-- Inserting a key no list member compares equal to keeps the members
pairwise comparison-distinct. -/
theorem pairwise_ne_insertedAt {cmp : α → α → Ordering} [Batteries.TransCmp cmp]
    {key : α} {old new : List α} (hIA : InsertedAt cmp key old new)
    (hold : old.Pairwise (fun a b => cmp a b ≠ .eq))
    (habs : ∀ x ∈ old, cmp x key ≠ .eq) :
    new.Pairwise (fun a b => cmp a b ≠ .eq) := by
  obtain ⟨l1, l2, h1, h2, _, _⟩ := hIA
  subst h1
  subst h2
  rw [List.pairwise_append] at hold
  obtain ⟨hL, hR, hLR⟩ := hold
  rw [List.pairwise_append]
  refine ⟨hL, ?_, ?_⟩
  · rw [List.pairwise_cons]
    refine ⟨?_, hR⟩
    intro b hb
    exact cmp_ne_eq_symm (habs b (List.mem_append.mpr (Or.inr hb)))
  · intro a ha b hb
    rcases List.mem_cons.mp hb with hbk | hbR
    · subst hbk
      exact habs a (List.mem_append.mpr (Or.inl ha))
    · exact hLR a ha b hbR

/-- The key-only map walk succeeds exactly when the pair walk of `contains`
does (the probe functions are definitionally equal for any dummy value). -/
theorem mapGetWalk_isSome_eq {K V : Type} [LinearOrder K] :
    ∀ (fuel : Nat) (n : BNode (MapPair K V)) (key : K) (w : V),
      (mapGetWalk fuel n key).isSome = containsNode pairCmp fuel n (MapPair.mk key w) := by
  intro fuel
  induction fuel with
  | zero =>
    intro n key w
    rfl
  | succ fuel ih =>
    intro n key w
    rw [mapGetWalk, containsNode]
    have hfn : (fun p : MapPair K V => compare p.key key) =
        (fun p => pairCmp p (MapPair.mk key w)) := rfl
    rw [hfn]
    cases hs : binarySearchBy (fun p => pairCmp p (MapPair.mk key w)) n.keys with
    | found idx =>
      obtain ⟨_, x, hx, _⟩ := binarySearchBy_found_spec _ n.keys idx hs
      rw [List.get?_eq_getElem?] at hx
      simp [hx]
    | notFound idx =>
      by_cases hleaf : n.isLeaf = true
      · simp [hleaf]
      · cases hc : n.children.get? idx with
        | none =>
          rw [List.get?_eq_getElem?] at hc
          simp [hleaf, hc]
        | some c =>
          rw [List.get?_eq_getElem?] at hc
          simp [hleaf, hc, ih c key w]

/-- A value the map walk returns belongs to a stored pair whose key compares
equal to the probe. -/
theorem mapGetWalk_some_mem {K V : Type} [LinearOrder K] :
    ∀ (fuel : Nat) (n : BNode (MapPair K V)) (key : K) (v : V),
      mapGetWalk fuel n key = some v →
      ∃ p ∈ inorder n, compare p.key key = .eq ∧ p.value = v := by
  intro fuel
  induction fuel with
  | zero =>
    intro n key v h
    rw [mapGetWalk] at h
    cases h
  | succ fuel ih =>
    intro n key v h
    obtain ⟨ks, cs⟩ := n
    cases hs : binarySearchBy (fun p => compare p.key key) (BNode.mk ks cs).keys with
    | found idx =>
      have heqw : mapGetWalk (fuel + 1) (BNode.mk ks cs) key =
          ((BNode.mk ks cs).keys.get? idx).map MapPair.value := by
        rw [mapGetWalk]
        simp only [hs]
      rw [heqw] at h
      obtain ⟨_, x, hx, hxeq⟩ := binarySearchBy_found_spec _ (BNode.mk ks cs).keys idx hs
      rw [hx] at h
      simp only [Option.map_some'] at h
      refine ⟨x, ?_, hxeq, by simpa using h⟩
      rw [inorder_mk]
      exact mem_keys_inorderZip cs (by simpa using get?_mem hx)
    | notFound idx =>
      by_cases hleaf : (BNode.mk ks cs).isLeaf = true
      · have heqw : mapGetWalk (fuel + 1) (BNode.mk ks cs) key = none := by
          rw [mapGetWalk]
          simp only [hs, if_pos hleaf]
        rw [heqw] at h
        cases h
      · cases hc : (BNode.mk ks cs).children.get? idx with
        | none =>
          have heqw : mapGetWalk (fuel + 1) (BNode.mk ks cs) key = none := by
            rw [mapGetWalk]
            simp only [hs, if_neg hleaf, hc]
          rw [heqw] at h
          cases h
        | some c =>
          have heqw : mapGetWalk (fuel + 1) (BNode.mk ks cs) key =
              mapGetWalk fuel c key := by
            rw [mapGetWalk]
            simp only [hs, if_neg hleaf, hc]
          rw [heqw] at h
          obtain ⟨p, hp, hpe, hpv⟩ := ih c key v h
          refine ⟨p, ?_, hpe, hpv⟩
          rw [inorder_mk]
          exact mem_child_inorderZip ks (by simpa using get?_mem hc) hp

theorem BTreeMap.get_isSome_eq {K V : Type} [LinearOrder K] (m : BTreeMap K V)
    (key : K) (w : V) :
    (m.get key).isSome = m.set.contains pairCmp (MapPair.mk key w) := by
  rw [BTreeMap.get, BTree.contains]
  exact mapGetWalk_isSome_eq _ m.set.root key w

/-- The invariant of reachable maps: a well-formed underlying tree whose
stored pairs have pairwise comparison-distinct keys, with the constructed
properties. -/
def MapInv {K V : Type} [LinearOrder K] (bf : Nat) (m : BTreeMap K V) : Prop :=
  TreeInv pairCmp m.set ∧
  (inorder m.set.root).Pairwise (fun p q => pairCmp p q ≠ .eq) ∧
  PropsShape m.set.props (2 * bf)

/-- The map reached from `BTreeMap::new(bf)` by a sequence of `insert`
calls. -/
def runMapInserts {K V : Type} [LinearOrder K] (bf : Nat) (ps : List (K × V)) :
    BTreeMap K V :=
  ps.foldl (fun m p => (m.insert p.1 p.2).1) (BTreeMap.new bf)

/-- The general contract of `BTreeMap::insert` on an invariant map: the
invariant is preserved, the new pair is stored, every other stored pair is an
old one with a different key, an insert of an absent key returns `none` and
grows `len`, and an insert over a present key returns that pair's value and
keeps `len`. -/
theorem mapInsert_spec {K V : Type} [LinearOrder K] {bf : Nat} (hbf : 2 ≤ bf)
    (m : BTreeMap K V) (k : K) (v : V) (hInv : MapInv bf m) :
    MapInv bf (m.insert k v).1 ∧
    MapPair.mk k v ∈ inorder (m.insert k v).1.set.root ∧
    (∀ q ∈ inorder (m.insert k v).1.set.root,
      q = MapPair.mk k v ∨ (q ∈ inorder m.set.root ∧ compare q.key k ≠ .eq)) ∧
    ((∀ p ∈ inorder m.set.root, compare p.key k ≠ .eq) →
      (m.insert k v).2 = none ∧ (m.insert k v).1.len = m.len + 1) ∧
    (∀ p, p ∈ inorder m.set.root → compare p.key k = .eq →
      (m.insert k v).2 = some p.value ∧ (m.insert k v).1.len = m.len) := by
  obtain ⟨hTI, hPW, hPS⟩ := hInv
  obtain ⟨hdeg, hmax, hmin, hmidk⟩ := hPS
  have hEq : EqStrict pairCmp (inorder m.set.root) := eqStrict_of_pairwise_ne hPW
  have hciff := BTree.contains_iff hTI (MapPair.mk k v)
  by_cases hc : m.set.contains pairCmp (MapPair.mk k v) = true
  · -- a compare-equal pair is present: it is removed first
    have heqI : m.insert k v =
        ({ set := ((m.set.remove pairCmp (MapPair.mk k v)).1.insert pairCmp
          (MapPair.mk k v)) },
          (m.set.remove pairCmp (MapPair.mk k v)).2.map MapPair.value) := by
      rw [BTreeMap.insert]
      rw [if_pos hc]
    have hset : (m.insert k v).1.set =
        (m.set.remove pairCmp (MapPair.mk k v)).1.insert pairCmp (MapPair.mk k v) := by
      rw [heqI]
    have hsnd : (m.insert k v).2 =
        (m.set.remove pairCmp (MapPair.mk k v)).2.map MapPair.value := by
      rw [heqI]
    obtain ⟨hrnone, hrsome, hriff, hrInv, hrdeg, hrmax, hrmin, hrmidk, hrlen1, hrlen0⟩ :=
      BTree.remove_spec (MapPair.mk k v) (by rw [hmin]; omega) hTI hEq
    obtain ⟨x, hx⟩ : ∃ x, (m.set.remove pairCmp (MapPair.mk k v)).2 = some x := by
      have h2 := hriff.mpr (hciff.mp hc)
      cases hq : (m.set.remove pairCmp (MapPair.mk k v)).2 with
      | none =>
        rw [hq] at h2
        cases h2
      | some y => exact ⟨y, rfl⟩
    obtain ⟨hxeq, hxrem⟩ := hrsome x hx
    have hSome : (m.set.remove pairCmp (MapPair.mk k v)).2.isSome = true := by
      rw [hx]
      rfl
    have hxk : x.key = k := compare_eq_iff_eq.mp hxeq
    -- no pair with a compare-equal key survives the removal
    have hnok : ∀ q ∈ inorder (m.set.remove pairCmp (MapPair.mk k v)).1.root,
        compare q.key k ≠ .eq := by
      intro q hq hqeq
      have hxrem2 := hxrem
      obtain ⟨L2, R2, hsplit, hnew⟩ := hxrem2
      have hqold : q ∈ inorder m.set.root := hxrem.erased_sublist.subset hq
      have hqk : q.key = k := compare_eq_iff_eq.mp hqeq
      have hqx : q = x := by
        refine hEq q hqold x hxrem.mem ?_
        show compare q.key x.key = .eq
        rw [hqk, hxk]
        exact compare_eq_iff_eq.mpr rfl
      subst hqx
      rw [hnew] at hq
      have hPW2 := hPW
      rw [hsplit, List.pairwise_append] at hPW2
      rcases List.mem_append.mp hq with hm2 | hm2
      · exact hPW2.2.2 q hm2 q (by simp) Batteries.OrientedCmp.cmp_refl
      · exact (List.pairwise_cons.mp hPW2.2.1).1 q hm2 Batteries.OrientedCmp.cmp_refl
    have hPWr : (inorder (m.set.remove pairCmp (MapPair.mk k v)).1.root).Pairwise
        (fun p q => pairCmp p q ≠ .eq) :=
      List.Pairwise.sublist hxrem.erased_sublist hPW
    obtain ⟨hIA2, hTI2, hd2, hm2, hn2, hk2, hlen2⟩ :=
      BTree.insert_spec (MapPair.mk k v) (by rw [hrmidk, hmidk]; omega)
        (by rw [hrmidk, hmidk, hrmax, hmax]; omega) hrInv
    refine ⟨⟨by rw [hset]; exact hTI2, ?_, ?_, ?_, ?_, ?_⟩, ?_, ?_, ?_, ?_⟩
    · rw [hset]
      refine pairwise_ne_insertedAt hIA2 hPWr ?_
      intro y hy hye
      exact hnok y hy hye
    · rw [hset, hd2, hrdeg, hdeg]
    · rw [hset, hm2, hrmax, hmax]
    · rw [hset, hn2, hrmin, hmin]
    · rw [hset, hk2, hrmidk, hmidk]
    · rw [hset]
      exact hIA2.self_mem
    · intro q hq
      rw [hset] at hq
      rcases hIA2.mem_cases q hq with h1 | h1
      · exact Or.inl h1
      · exact Or.inr ⟨hxrem.erased_sublist.subset h1, hnok q h1⟩
    · intro habs2
      obtain ⟨y, hy, hye⟩ := hciff.mp hc
      exact absurd hye (habs2 y hy)
    · intro p hp hpeq
      have hpk : p.key = k := compare_eq_iff_eq.mp hpeq
      have hxp : x = p := by
        refine hEq x hxrem.mem p hp ?_
        show compare x.key p.key = .eq
        rw [hxk, hpk]
        exact compare_eq_iff_eq.mpr rfl
      constructor
      · rw [hsnd, hx, hxp]
        rfl
      · rw [BTreeMap.len, BTreeMap.len, BTree.len, BTree.len, hset, hlen2]
        exact hrlen1 hSome
  · -- no compare-equal pair is present
    have heqI : m.insert k v =
        ({ set := (m.set.insert pairCmp (MapPair.mk k v)) }, none) := by
      rw [BTreeMap.insert]
      rw [if_neg hc]
      rfl
    have hset : (m.insert k v).1.set = m.set.insert pairCmp (MapPair.mk k v) := by
      rw [heqI]
    have hsnd : (m.insert k v).2 = none := by
      rw [heqI]
    have habs : ∀ y ∈ inorder m.set.root, pairCmp y (MapPair.mk k v) ≠ .eq := by
      intro y hy hye
      exact hc (hciff.mpr ⟨y, hy, hye⟩)
    obtain ⟨hIA2, hTI2, hd2, hm2, hn2, hk2, hlen2⟩ :=
      BTree.insert_spec (MapPair.mk k v) (by rw [hmidk]; omega)
        (by rw [hmidk, hmax]; omega) hTI
    refine ⟨⟨by rw [hset]; exact hTI2, ?_, ?_, ?_, ?_, ?_⟩, ?_, ?_, ?_, ?_⟩
    · rw [hset]
      exact pairwise_ne_insertedAt hIA2 hPW habs
    · rw [hset, hd2, hdeg]
    · rw [hset, hm2, hmax]
    · rw [hset, hn2, hmin]
    · rw [hset, hk2, hmidk]
    · rw [hset]
      exact hIA2.self_mem
    · intro q hq
      rw [hset] at hq
      rcases hIA2.mem_cases q hq with h1 | h1
      · exact Or.inl h1
      · exact Or.inr ⟨h1, habs q h1⟩
    · intro _
      refine ⟨hsnd, ?_⟩
      rw [BTreeMap.len, BTreeMap.len, BTree.len, BTree.len, hset, hlen2]
    · intro p hp hpeq
      exact absurd hpeq (habs p hp)

/-- Every map reachable by `insert` calls from `BTreeMap::new(bf)` satisfies
the map invariant. -/
theorem runMapInserts_inv {K V : Type} [LinearOrder K] {bf : Nat} (hbf : 2 ≤ bf)
    (ps : List (K × V)) : MapInv bf (runMapInserts bf ps : BTreeMap K V) := by
  rw [runMapInserts]
  have hstep : ∀ (ps2 : List (K × V)) (m : BTreeMap K V), MapInv bf m →
      MapInv bf (ps2.foldl (fun m2 p => (m2.insert p.1 p.2).1) m) := by
    intro ps2
    induction ps2 with
    | nil => exact fun m h => h
    | cons p ps2 ih =>
      intro m h
      rw [List.foldl_cons]
      exact ih _ (mapInsert_spec hbf m p.1 p.2 h).1
  refine hstep ps (BTreeMap.new bf) ⟨?_, ?_, ?_⟩
  · exact (treeInv_new pairCmp bf).1
  · show (inorder (BNode.mk ([] : List (MapPair K V)) [])).Pairwise _
    simp only [inorder_mk, inorderZip_nil]
    exact List.Pairwise.nil
  · exact (treeInv_new pairCmp bf).2

/-! ## The claims -/

theorem sortedCmp_compare_le {α2 : Type} [LinearOrder α2] {l : List α2}
    (h : SortedCmp compare l) : l.Sorted (fun a b => a ≤ b) :=
  h.imp fun hxy => le_of_not_lt fun hlt => hxy (compare_gt_iff_gt.mpr hlt)

/-- Claim C1: for every tree created with `branch_factor ≥ 2` and every finite
sequence of `insert` calls (any order, duplicates allowed), `iter()` yields a
non-decreasing sequence whose multiset of elements equals the multiset of
inserted keys. -/
theorem C1_sorted_iter_multiset {α2 : Type} [LinearOrder α2] {bf : Nat}
    (hbf : 2 ≤ bf) (keys : List α2) :
    (runOps compare bf (keys.map Op.ins)).iterList.Sorted (fun a b => a ≤ b) ∧
    ((runOps compare bf (keys.map Op.ins)).iterList).Perm keys := by
  obtain ⟨hInv, hperm⟩ := @runOps_ins_spec α2 compare inferInstance bf hbf keys
  rw [BTree.iterList_spec hInv]
  exact ⟨sortedCmp_compare_le hInv.1.2.2, hperm⟩

/-- Witness for C1 at a concrete input. -/
theorem C1_witness :
    (runOps compare 2 (([3, 1, 2] : List ℕ).map Op.ins)).iterList.Sorted
      (fun a b => a ≤ b) ∧
    ((runOps compare 2 (([3, 1, 2] : List ℕ).map Op.ins)).iterList).Perm [3, 1, 2] :=
  C1_sorted_iter_multiset (le_refl 2) [3, 1, 2]

/-- Claim C2 (the code violates it): after inserting 1, 2, 3, 4 into a tree
with `branch_factor = 2` (degree 4, `min_keys = 2`), the root split leaves a
non-root child with a single key, below `min_keys`. -/
theorem C2_shape_violation :
    ((runOps compare 2 [Op.ins (1 : ℕ), Op.ins 2, Op.ins 3, Op.ins 4]).root.children.map
      (fun c => c.keys.length)) = [1, 2] ∧
    (runOps compare 2 [Op.ins (1 : ℕ), Op.ins 2, Op.ins 3, Op.ins 4]).props.minKeys = 2 :=
  ⟨rfl, rfl⟩

/-- Claim C3: `remove` returns `Some x` with `x` compare-equal to the key iff
`contains` held before the call; on `None` the length and the stored sequence
are unchanged. -/
theorem C3_remove_contract {α2 : Type} [LinearOrder α2] {bf : Nat} (hbf : 2 ≤ bf)
    (ops : List (Op α2)) (key : α2) :
    (((runOps compare bf ops).remove compare key).2.isSome = true ↔
      (runOps compare bf ops).contains compare key = true) ∧
    (∀ x, ((runOps compare bf ops).remove compare key).2 = some x →
      compare x key = .eq) ∧
    (((runOps compare bf ops).remove compare key).2 = none →
      ((runOps compare bf ops).remove compare key).1.len = (runOps compare bf ops).len ∧
      inorder ((runOps compare bf ops).remove compare key).1.root =
        inorder (runOps compare bf ops).root) := by
  obtain ⟨hInv, hshape⟩ := @runOps_inv α2 compare inferInstance
    (fun a b h => compare_eq_iff_eq.mp h) bf hbf ops
  obtain ⟨hdeg, hmax, hmin, hmidk⟩ := hshape
  have hEq : EqStrict compare (inorder (runOps compare bf ops).root) :=
    fun a _ b _ h => compare_eq_iff_eq.mp h
  obtain ⟨hnone, hsome, hiff, _, _, _, _, _, _, hlen0⟩ :=
    BTree.remove_spec key (by rw [hmin]; omega) hInv hEq
  refine ⟨?_, fun x hx => (hsome x hx).1, fun h => ⟨?_, hnone h⟩⟩
  · rw [hiff, BTree.contains_iff hInv key]
  · rw [BTree.len, BTree.len]
    exact hlen0 h

/-- Witness for C3 at a concrete input. -/
theorem C3_witness :
    (((runOps compare 2 [Op.ins (5 : ℕ)]).remove compare 5).2.isSome = true ↔
      (runOps compare 2 [Op.ins (5 : ℕ)]).contains compare 5 = true) ∧
    (∀ x, ((runOps compare 2 [Op.ins (5 : ℕ)]).remove compare 5).2 = some x →
      compare x 5 = .eq) ∧
    (((runOps compare 2 [Op.ins (5 : ℕ)]).remove compare 5).2 = none →
      ((runOps compare 2 [Op.ins (5 : ℕ)]).remove compare 5).1.len =
        (runOps compare 2 [Op.ins (5 : ℕ)]).len ∧
      inorder ((runOps compare 2 [Op.ins (5 : ℕ)]).remove compare 5).1.root =
        inorder (runOps compare 2 [Op.ins (5 : ℕ)]).root) :=
  C3_remove_contract (le_refl 2) [Op.ins 5] 5

/-- Claim C4: at every point of an interleaved run, `len()` plus the number
of removes that returned `Some` equals the number of inserts; an insert on a
reachable tree always adds exactly one element, even on duplicates. -/
theorem C4_len_counts {α2 : Type} [LinearOrder α2] {bf : Nat} (hbf : 2 ≤ bf)
    (ops : List (Op α2)) :
    (runOps compare bf ops).len + delHitCount compare (BTree.new bf) ops =
      insCount ops ∧
    ∀ k : α2, ((runOps compare bf ops).insert compare k).len =
      (runOps compare bf ops).len + 1 := by
  constructor
  · rw [BTree.len]
    exact @runOps_len_count α2 compare inferInstance
      (fun a b h => compare_eq_iff_eq.mp h) bf hbf ops
  · intro k
    obtain ⟨hInv, hshape⟩ := @runOps_inv α2 compare inferInstance
      (fun a b h => compare_eq_iff_eq.mp h) bf hbf ops
    obtain ⟨hdeg, hmax, hmin, hmidk⟩ := hshape
    obtain ⟨_, _, _, _, _, _, hlen⟩ :=
      BTree.insert_spec k (by rw [hmidk]; omega) (by rw [hmidk, hmax]; omega) hInv
    rw [BTree.len, BTree.len]
    exact hlen

/-- Witness for C4 at a concrete input. -/
theorem C4_witness :
    (runOps compare 2 [Op.ins (1 : ℕ), Op.del 1, Op.del 1]).len +
      delHitCount compare (BTree.new 2) [Op.ins (1 : ℕ), Op.del 1, Op.del 1] =
      insCount [Op.ins (1 : ℕ), Op.del 1, Op.del 1] ∧
    ∀ k : ℕ, ((runOps compare 2 [Op.ins (1 : ℕ), Op.del 1, Op.del 1]).insert compare k).len =
      (runOps compare 2 [Op.ins (1 : ℕ), Op.del 1, Op.del 1]).len + 1 :=
  C4_len_counts (le_refl 2) [Op.ins 1, Op.del 1, Op.del 1]

/-- Claim C5 (the `BTreeSet` layer is modelled from the spec): on every
reachable map that does not contain `k`, `insert k v1` returns `none` and
grows `len` by one; a second `insert k v2` returns `some v1`, after which
`get k` is `some v2` and `len` is unchanged from after the first insert
(1 when starting from the empty map, whose `len` is 0); inserting a pair the
underlying set does not contain returns `none`. -/
theorem C5_map_upsert {K V : Type} [LinearOrder K] {bf : Nat} (hbf : 2 ≤ bf)
    (ps : List (K × V)) (k : K) (v1 v2 : V)
    (habs : (runMapInserts bf ps : BTreeMap K V).containsKey k = false) :
    ((runMapInserts bf ps : BTreeMap K V).insert k v1).2 = none ∧
    (((runMapInserts bf ps : BTreeMap K V).insert k v1).1.insert k v2).2 = some v1 ∧
    (((runMapInserts bf ps : BTreeMap K V).insert k v1).1.insert k v2).1.get k =
      some v2 ∧
    (((runMapInserts bf ps : BTreeMap K V).insert k v1).1.insert k v2).1.len =
      ((runMapInserts bf ps : BTreeMap K V).insert k v1).1.len ∧
    ((runMapInserts bf ps : BTreeMap K V).insert k v1).1.len =
      (runMapInserts bf ps : BTreeMap K V).len + 1 ∧
    (runMapInserts bf ([] : List (K × V)) : BTreeMap K V).len = 0 ∧
    (∀ (m : BTreeMap K V) (k3 : K) (v3 : V),
      m.set.contains pairCmp (MapPair.mk k3 v3) = false →
      (m.insert k3 v3).2 = none) := by
  have hInv := runMapInserts_inv hbf ps
  have hnc : (runMapInserts bf ps : BTreeMap K V).set.contains pairCmp
      (MapPair.mk k v1) = false := by
    have h1 := BTreeMap.get_isSome_eq (runMapInserts bf ps : BTreeMap K V) k v1
    rw [BTreeMap.containsKey] at habs
    rw [← h1]
    exact habs
  have habsSem : ∀ p ∈ inorder (runMapInserts bf ps : BTreeMap K V).set.root,
      compare p.key k ≠ .eq := by
    intro p hp hpe
    have h2 : (runMapInserts bf ps : BTreeMap K V).set.contains pairCmp
        (MapPair.mk k v1) = true :=
      (BTree.contains_iff hInv.1 (MapPair.mk k v1)).mpr ⟨p, hp, hpe⟩
    rw [hnc] at h2
    cases h2
  obtain ⟨hInvA, hmemA, hcontA, hfreshA, hpresA⟩ :=
    mapInsert_spec hbf (runMapInserts bf ps) k v1 hInv
  obtain ⟨hr1, hl1⟩ := hfreshA habsSem
  obtain ⟨hInvB, hmemB, hcontB, hfreshB, hpresB⟩ :=
    mapInsert_spec hbf ((runMapInserts bf ps : BTreeMap K V).insert k v1).1 k v2 hInvA
  obtain ⟨hr2, hl2⟩ := hpresB (MapPair.mk k v1) hmemA (compare_eq_iff_eq.mpr rfl)
  have hget : (((runMapInserts bf ps : BTreeMap K V).insert k v1).1.insert k v2).1.get k =
      some v2 := by
    have hcon2 : (((runMapInserts bf ps : BTreeMap K V).insert k v1).1.insert
        k v2).1.set.contains pairCmp (MapPair.mk k v2) = true :=
      (BTree.contains_iff hInvB.1 (MapPair.mk k v2)).mpr
        ⟨MapPair.mk k v2, hmemB, Batteries.OrientedCmp.cmp_refl⟩
    have hiso := BTreeMap.get_isSome_eq
      (((runMapInserts bf ps : BTreeMap K V).insert k v1).1.insert k v2).1 k v2
    rw [hcon2] at hiso
    cases hgv : (((runMapInserts bf ps : BTreeMap K V).insert k v1).1.insert
        k v2).1.get k with
    | none =>
      rw [hgv] at hiso
      cases hiso
    | some v =>
      obtain ⟨p, hpm, hpk, hpv⟩ := mapGetWalk_some_mem _ _ _ _
        (by rw [BTreeMap.get] at hgv; exact hgv)
      rcases hcontB p hpm with h1 | h1
      · rw [← hpv, h1]
      · exact absurd hpk h1.2
  exact ⟨hr1, hr2, hget, hl2, hl1, rfl,
    fun m k3 v3 h => BTreeMap.insert_not_contained m k3 v3 h⟩

/-- Witness for C5 at a concrete input. -/
theorem C5_witness :
    ((runMapInserts 2 ([] : List (ℕ × ℕ)) : BTreeMap ℕ ℕ).insert 0 1).2 = none ∧
    (((runMapInserts 2 ([] : List (ℕ × ℕ)) : BTreeMap ℕ ℕ).insert 0 1).1.insert 0 2).2 =
      some 1 ∧
    (((runMapInserts 2 ([] : List (ℕ × ℕ)) : BTreeMap ℕ ℕ).insert 0 1).1.insert
      0 2).1.get 0 = some 2 ∧
    (((runMapInserts 2 ([] : List (ℕ × ℕ)) : BTreeMap ℕ ℕ).insert 0 1).1.insert
      0 2).1.len =
      ((runMapInserts 2 ([] : List (ℕ × ℕ)) : BTreeMap ℕ ℕ).insert 0 1).1.len ∧
    ((runMapInserts 2 ([] : List (ℕ × ℕ)) : BTreeMap ℕ ℕ).insert 0 1).1.len =
      (runMapInserts 2 ([] : List (ℕ × ℕ)) : BTreeMap ℕ ℕ).len + 1 ∧
    (runMapInserts 2 ([] : List (ℕ × ℕ)) : BTreeMap ℕ ℕ).len = 0 ∧
    (∀ (m : BTreeMap ℕ ℕ) (k3 : ℕ) (v3 : ℕ),
      m.set.contains pairCmp (MapPair.mk k3 v3) = false →
      (m.insert k3 v3).2 = none) :=
  C5_map_upsert (le_refl 2) [] 0 1 2 rfl

/-- Claim C6 (the code violates the degree part): `clear()` does produce an
empty tree (`len = 0`, `is_empty`, `height = 0`), but it quadruples the
degree instead of keeping it: `clear` passes `degree * 2` to `new`, which
doubles its argument again. -/
theorem C6_clear_degree :
    (BTree.new 2 : BTree ℕ).props.degree = 4 ∧
    ((BTree.new 2 : BTree ℕ).clear).props.degree = 16 ∧
    ∀ (t : BTree ℕ), t.clear.props.degree = 4 * t.props.degree ∧
      t.clear.len = 0 ∧ t.clear.isEmpty = true ∧ t.clear.height = 0 := by
  refine ⟨rfl, rfl, fun t => ⟨?_, rfl, rfl, rfl⟩⟩
  show 2 * (t.props.degree * 2) = 4 * t.props.degree
  omega

set_option maxRecDepth 20000 in
/-- Claim C7: on every tree reachable by inserts and removes,
`range(start, stop)` yields exactly the stored elements `x` with
`start ≤ x ≤ stop`, in iteration order; on a tree holding `1..=100`,
`range(25, 75)` yields exactly `25..=75`. -/
theorem C7_range_filter {α2 : Type} [LinearOrder α2] {bf : Nat} (hbf : 2 ≤ bf)
    (ops : List (Op α2)) (start stop : α2) :
    (runOps compare bf ops).rangeList compare start stop =
      (runOps compare bf ops).iterList.filter
        (fun x => start ≤ x ∧ x ≤ stop) ∧
    (runOps compare 2 ((List.range' 1 100).map Op.ins)).rangeList compare 25 75 =
      List.range' 25 51 := by
  constructor
  · obtain ⟨hInv, _⟩ := @runOps_inv α2 compare inferInstance
      (fun a b h => compare_eq_iff_eq.mp h) bf hbf ops
    rw [BTree.rangeList_spec hInv start stop]
    apply List.filter_congr
    intro x _
    simp only [ne_eq, decide_eq_decide, compare_lt_iff_lt, compare_gt_iff_gt,
      gt_iff_lt, not_lt]
  · obtain ⟨hInv2, hperm⟩ := @runOps_ins_spec ℕ compare inferInstance 2 (le_refl 2)
      (List.range' 1 100)
    have hsorted : (inorder (runOps compare 2 ((List.range' 1 100).map Op.ins)).root).Sorted
        (fun a b => a ≤ b) := sortedCmp_compare_le hInv2.1.2.2
    have hsr : (List.range' 1 100).Sorted (fun a b => a ≤ b) := by decide
    have heq : inorder (runOps compare 2 ((List.range' 1 100).map Op.ins)).root =
        List.range' 1 100 := List.eq_of_perm_of_sorted hperm hsorted hsr
    rw [BTree.rangeList_spec hInv2 25 75, BTree.iterList_spec hInv2, heq]
    decide

/-- Witness for C7 at a concrete input (a run that includes a removal). -/
theorem C7_witness :
    (runOps compare 2 [Op.ins (7 : ℕ), Op.ins 4, Op.del 7]).rangeList compare 4 6 =
      (runOps compare 2 [Op.ins (7 : ℕ), Op.ins 4, Op.del 7]).iterList.filter
        (fun x => 4 ≤ x ∧ x ≤ 6) ∧
    (runOps compare 2 ((List.range' 1 100).map Op.ins)).rangeList compare 25 75 =
      List.range' 25 51 :=
  C7_range_filter (le_refl 2) [Op.ins 7, Op.ins 4, Op.del 7] 4 6

/-- Claim C8: every tree reachable by inserts and removes from a
`branch_factor ≥ 2` tree is balanced: all leaves sit at one depth, which is
exactly what `depth()` computes along the leftmost path. -/
theorem C8_balanced {α2 : Type} [LinearOrder α2] {bf : Nat} (hbf : 2 ≤ bf)
    (ops : List (Op α2)) :
    ∀ x ∈ leafDepths (runOps compare bf ops).root, x = (runOps compare bf ops).depth := by
  obtain ⟨hInv, _⟩ := @runOps_inv α2 compare inferInstance
    (fun a b h => compare_eq_iff_eq.mp h) bf hbf ops
  exact BTree.depth_spec hInv

/-- Witness for C8 at a concrete input. -/
theorem C8_witness :
    (1 : Nat) = (runOps compare 2 [Op.ins (1 : ℕ), Op.ins 2, Op.ins 3, Op.ins 4,
      Op.del 2]).depth :=
  C8_balanced (le_refl 2) [Op.ins 1, Op.ins 2, Op.ins 3, Op.ins 4, Op.del 2] 1
    (by decide)

/-- Claim C9 (amended): during `insert_non_full`, a full child at the descent
index is split first, and the insertion then descends into the right half
`i + 1` exactly when the separator promoted into `node.keys[i]` is strictly
less than the key (`cmp sep key = .lt`); when the key equals the separator it
stays at `i`, contrary to the spec sentence. -/
theorem C9_split_descent {cmp : α → α → Ordering} {P : BTreeProperties}
    (fuel : Nat) (ks : List α) (cs : List (BNode α)) (key : α)
    {child childF : BNode α} {sep : α}
    (hcs : cs ≠ [])
    (hchild : cs.get? (findInsertionIndex cmp ks key) = some child)
    (hfull : isFull P child = true)
    (hsep : (splitChild P (BNode.mk ks cs) (findInsertionIndex cmp ks key)).keys.get?
      (findInsertionIndex cmp ks key) = some sep)
    (hcf : (splitChild P (BNode.mk ks cs) (findInsertionIndex cmp ks key)).children.get?
      (if cmp sep key = .lt then findInsertionIndex cmp ks key + 1
        else findInsertionIndex cmp ks key) = some childF) :
    insertNonFull cmp P (fuel + 1) (BNode.mk ks cs) key =
      BNode.mk (splitChild P (BNode.mk ks cs) (findInsertionIndex cmp ks key)).keys
        ((splitChild P (BNode.mk ks cs) (findInsertionIndex cmp ks key)).children.set
          (if cmp sep key = .lt then findInsertionIndex cmp ks key + 1
            else findInsertionIndex cmp ks key)
          (insertNonFull cmp P fuel childF key)) :=
  insertNonFull_full_child_step fuel ks cs key hcs hchild hfull hsep hcf

/-- Counterexample to the spec sentence of C9: with the separator equal to
the key, the code stays left (index 0) while the spec-modelled descent goes
right (index 1); a full run then inserts the duplicate into the left half. -/
theorem C9_counterexample :
    splitDescentIndex compare [2, 10] 0 (2 : ℕ) = 0 ∧
    specDescentIndex compare [2, 10] 0 (2 : ℕ) = 1 ∧
    insertNonFull compare (BTreeProperties.new 4) 2
        (BNode.mk [10] [BNode.mk [1, 2, 3] [], BNode.mk [(20 : ℕ)] []]) 2 =
      BNode.mk [2, 10] [BNode.mk [1, 2] [], BNode.mk [3] [], BNode.mk [20] []] :=
  ⟨rfl, rfl, rfl⟩

/-- Witness for C9 at a concrete input. -/
theorem C9_witness :
    insertNonFull compare (BTreeProperties.new 4) (1 + 1)
        (BNode.mk [10] [BNode.mk [1, 2, 3] [], BNode.mk [(20 : ℕ)] []]) 2 =
      BNode.mk (splitChild (BTreeProperties.new 4)
          (BNode.mk [10] [BNode.mk [1, 2, 3] [], BNode.mk [(20 : ℕ)] []])
          (findInsertionIndex compare [10] 2)).keys
        ((splitChild (BTreeProperties.new 4)
          (BNode.mk [10] [BNode.mk [1, 2, 3] [], BNode.mk [(20 : ℕ)] []])
          (findInsertionIndex compare [10] 2)).children.set
          (if compare (2 : ℕ) 2 = .lt then findInsertionIndex compare [10] 2 + 1
            else findInsertionIndex compare [10] 2)
          (insertNonFull compare (BTreeProperties.new 4) 1 (BNode.mk [1] []) 2)) :=
  C9_split_descent 1 [10] [BNode.mk [1, 2, 3] [], BNode.mk [(20 : ℕ)] []] 2
    (by simp) rfl rfl rfl rfl

/-- Claim C10: `first`/`last` are `none` exactly on the empty tree and
otherwise return a minimum resp. maximum stored element; consequently the
pops return `none` on the empty tree and leave it unchanged. -/
theorem C10_first_last_min_max {α2 : Type} [LinearOrder α2] {bf : Nat}
    (hbf : 2 ≤ bf) (ops : List (Op α2)) :
    ((runOps compare bf ops).first = none ↔ (runOps compare bf ops).isEmpty = true) ∧
    ((runOps compare bf ops).last = none ↔ (runOps compare bf ops).isEmpty = true) ∧
    (∀ a, (runOps compare bf ops).first = some a →
      a ∈ inorder (runOps compare bf ops).root ∧
      ∀ x ∈ inorder (runOps compare bf ops).root, a ≤ x) ∧
    (∀ a, (runOps compare bf ops).last = some a →
      a ∈ inorder (runOps compare bf ops).root ∧
      ∀ x ∈ inorder (runOps compare bf ops).root, x ≤ a) ∧
    ((runOps compare bf ops).isEmpty = true →
      (runOps compare bf ops).popFirst compare = (runOps compare bf ops, none) ∧
      (runOps compare bf ops).popLast compare = (runOps compare bf ops, none)) := by
  obtain ⟨hInv, _⟩ := @runOps_inv α2 compare inferInstance
    (fun a b h => compare_eq_iff_eq.mp h) bf hbf ops
  have hfH := BTree.first_eq_head hInv
  have hlG := BTree.last_eq_getLast hInv
  have hie := BTree.isEmpty_iff_inorder hInv
  have hsort : SortedCmp compare (inorder (runOps compare bf ops).root) := hInv.1.2.2
  refine ⟨?_, ?_, ?_, ?_, ?_⟩
  · rw [hfH, List.head?_eq_none_iff, hie]
  · rw [hlG, List.getLast?_eq_none_iff, hie]
  · intro a ha
    rw [hfH] at ha
    refine ⟨List.mem_of_mem_head? ha, ?_⟩
    intro x hx
    have h2 := sorted_head_le hsort ha x hx
    exact le_of_not_lt fun hlt => h2 (compare_gt_iff_gt.mpr hlt)
  · intro a ha
    rw [hlG] at ha
    refine ⟨List.mem_of_getLast?_eq_some ha, ?_⟩
    intro x hx
    have h2 := sorted_le_last hsort ha x hx
    exact le_of_not_lt fun hlt => h2 (compare_gt_iff_gt.mpr hlt)
  · intro h
    have hnil : inorder (runOps compare bf ops).root = [] := hie.mp h
    have hf : (runOps compare bf ops).first = none := by
      rw [hfH, hnil]
      rfl
    have hl : (runOps compare bf ops).last = none := by
      rw [hlG, hnil]
      rfl
    constructor
    · rw [BTree.popFirst, hf]
    · rw [BTree.popLast, hl]

/-- Witness for C10 at a concrete input. -/
theorem C10_witness :
    ((runOps compare 2 [Op.ins (4 : ℕ), Op.ins 9]).first = none ↔
      (runOps compare 2 [Op.ins (4 : ℕ), Op.ins 9]).isEmpty = true) ∧
    ((runOps compare 2 [Op.ins (4 : ℕ), Op.ins 9]).last = none ↔
      (runOps compare 2 [Op.ins (4 : ℕ), Op.ins 9]).isEmpty = true) ∧
    (∀ a, (runOps compare 2 [Op.ins (4 : ℕ), Op.ins 9]).first = some a →
      a ∈ inorder (runOps compare 2 [Op.ins (4 : ℕ), Op.ins 9]).root ∧
      ∀ x ∈ inorder (runOps compare 2 [Op.ins (4 : ℕ), Op.ins 9]).root, a ≤ x) ∧
    (∀ a, (runOps compare 2 [Op.ins (4 : ℕ), Op.ins 9]).last = some a →
      a ∈ inorder (runOps compare 2 [Op.ins (4 : ℕ), Op.ins 9]).root ∧
      ∀ x ∈ inorder (runOps compare 2 [Op.ins (4 : ℕ), Op.ins 9]).root, x ≤ a) ∧
    ((runOps compare 2 [Op.ins (4 : ℕ), Op.ins 9]).isEmpty = true →
      (runOps compare 2 [Op.ins (4 : ℕ), Op.ins 9]).popFirst compare =
        (runOps compare 2 [Op.ins (4 : ℕ), Op.ins 9], none) ∧
      (runOps compare 2 [Op.ins (4 : ℕ), Op.ins 9]).popLast compare =
        (runOps compare 2 [Op.ins (4 : ℕ), Op.ins 9], none)) :=
  C10_first_last_min_max (le_refl 2) [Op.ins 4, Op.ins 9]

end DS
